import Mathlib

/-!
# Personalization template engine of the phishing toolkit (gophish extension)

A shallow embedding of `models/maillog.go`: the block scanner
(`ReplaceReferences`, `ReplaceBlock`, `ReplaceReference`, `ReplaceSubReferences`,
`ReplaceSubReference`, `FindChars`), the reference resolver (`GetFieldValue`,
`GetVariableValue`) and the condition evaluator (`ReplaceValueSpaces`,
`RemoveSpaces`, `SplitComplexCondition`, `MatchCondition`, `EvaluateExpression`).

Conventions of the embedding.

* A Go `string` is a sequence of bytes; it is embedded as a list of characters,
  one character per byte.  Every comparison the engine makes is against an ASCII
  byte, so this is exact on the markers; `strings.ToLower` is embedded as the
  ASCII lower-casing, which is what Go computes on ASCII names (`isASCII`), and
  the statements that speak of the lower-cased form of an arbitrary name are
  made for ASCII names.
* Go `int` indices are embedded as `Int` (a cursor can become `-1`); the text
  lengths in play are far below `2^63`, so no wrap-around is modelled.
* A run-time panic of Go (index or slice bounds out of range) is the outcome
  `Outcome.panic`.  Loops whose bounds change while they run and the recursive
  functions take a fuel argument; `Outcome.outOfFuel` says the fuel given was not
  enough, and is never a result of the Go program.
* The database is a record of lookup functions (`Store`); a query that fails
  returns `Except.error`.
-/

namespace Gophish

/-- Go strings, one character per byte. -/
abbrev Str := List Char

/-- Result of running a piece of the Go program. -/
inductive Outcome (α : Type) where
  | ok : α → Outcome α
  | panic : Outcome α
  | outOfFuel : Outcome α
  deriving DecidableEq, Repr

namespace Outcome

/-- Sequencing: a panic or exhausted fuel stops the computation. -/
def bind {α β : Type} (x : Outcome α) (f : α → Outcome β) : Outcome β :=
  match x with
  | ok a => f a
  | panic => panic
  | outOfFuel => outOfFuel

instance : Monad Outcome where
  pure := Outcome.ok
  bind := Outcome.bind

end Outcome

/-- Errors of the `error` interface that the engine passes around: the errors of
the database layer. -/
inductive GoError where
  | recordNotFound : GoError
  | dbFailure : Nat → GoError
  deriving DecidableEq, Repr

/-! ## Go built-ins and the `strings` / `strconv` functions the engine calls -/

/-- Length `len(s)` as a Go `int`. -/
def len {α : Type} (s : List α) : Int := (s.length : Int)

/-- Indexing `s[i]`; panics when `i` is out of range. -/
def byteAt {α : Type} (s : List α) (i : Int) : Outcome α :=
  if 0 ≤ i then
    match s.get? i.toNat with
    | some c => .ok c
    | none => .panic
  else .panic

/-- Slicing `s[a:b]`; panics unless `0 ≤ a ≤ b ≤ len(s)`. -/
def slice {α : Type} (s : List α) (a b : Int) : Outcome (List α) :=
  if 0 ≤ a ∧ a ≤ b ∧ b ≤ len s then
    .ok ((s.drop a.toNat).take (b.toNat - a.toNat))
  else .panic

/-- Go `strings.HasPrefix`. -/
def HasPrefix : Str → Str → Bool
  | _, [] => true
  | [], _ :: _ => false
  | c :: s, d :: p => c == d && HasPrefix s p

/-- Go `strings.Contains`. -/
def Contains : Str → Str → Bool
  | [], substr => HasPrefix [] substr
  | c :: s, substr => HasPrefix (c :: s) substr || Contains s substr

/-- Go `strings.Replace(s, old, new, 1)`: the first occurrence of `old` in `s`
is replaced by `new` (an empty `old` matches at the beginning). -/
def Replace1 : Str → Str → Str → Str
  | [], old, new => if HasPrefix [] old then new else []
  | c :: s, old, new =>
    if HasPrefix (c :: s) old then new ++ (c :: s).drop old.length
    else c :: Replace1 s old new

/-- Worker of `ReplaceAll` for a non-empty `old`: `n` bounds the number of bytes
still to be looked at. -/
def ReplaceAll.go (old new : Str) : Nat → Str → Str
  | 0, s => s
  | _ + 1, [] => []
  | n + 1, c :: s =>
    if HasPrefix (c :: s) old then new ++ ReplaceAll.go old new n ((c :: s).drop old.length)
    else c :: ReplaceAll.go old new n s

/-- Go `strings.ReplaceAll(s, old, new)`: all non-overlapping occurrences, left
to right (an empty `old` matches before every byte and at the end). -/
def ReplaceAll (s old new : Str) : Str :=
  if old = [] then new ++ s.flatMap (fun c => c :: new)
  else ReplaceAll.go old new s.length s

/-- Go `strings.Count(s, substr)` for a one-byte `substr`. -/
def Count (s : Str) (c : Char) : Int := (s.count c : Int)

/-- Go `strings.Split(s, sep)` for a one-byte `sep`. -/
def Split (sep : Char) : Str → List Str
  | [] => [[]]
  | c :: s =>
    if c = sep then [] :: Split sep s
    else
      match Split sep s with
      | [] => [[c]]
      | w :: ws => (c :: w) :: ws

/-- Go `strings.ToLower` on a text of ASCII bytes: the letters `A` to `Z` are
mapped to `a` to `z` and every other byte is kept.  On a text with a byte above
127 Go decodes UTF-8 and lower-cases every letter of Unicode, which this function
does not do: the statements about the lower-cased form of an arbitrary name take
`isASCII` of the name as a hypothesis. -/
def ToLower (s : Str) : Str := s.map Char.toLower

/-- The text holds ASCII bytes only (the flag `isASCII` that `strings.ToLower`
computes before it takes its byte-wise path): on such a text `ToLower` is
exactly `strings.ToLower`. -/
def isASCII (s : Str) : Bool := s.all fun c => decide (c.toNat < 128)

/-- Go `strconv.FormatBool`. -/
def FormatBool (b : Bool) : Str := if b then "true".toList else "false".toList

/-! ## The value store (the database tables the engine reads) -/

/-- Row of table `variables` as selected by `GetVariableValue` (`Var`). -/
structure Var where
  Id : Str
  FieldId : Str
  Name : Str
  deriving DecidableEq, Repr

/-- Row of table `conditions` as selected by `GetVariableValue` (`Cond`). -/
structure Cond where
  Condition : Str
  Value : Str
  deriving DecidableEq, Repr

/-- The queries the engine sends to the database, as functions.
* `targetId email`: `select id from targets where email=?`, first row;
* `fieldValue uid name`: `tf.value` of `fields left join target_fields tf` where
  `fields.name=name and tf.target_id=uid`, first row;
* `variableByName name`: `id, field_id, name` of `variables` where `name=?`, first row;
* `simpleCondition fieldId uid varId`: `conditions.value` of
  `conditions left join target_fields tf on conditions.condition = tf.value`, first row;
* `conditions varId`: all `condition, value` rows of the variable, in stored order. -/
structure Store where
  targetId : Str → Except GoError Str
  fieldValue : Str → Str → Except GoError Str
  variableByName : Str → Except GoError Var
  simpleCondition : Str → Str → Str → Except GoError Str
  conditions : Str → Except GoError (List Cond)

/-! ## Condition evaluator -/

/-- `MatchCondition`: one leaf `field operator value` against the recipient's attribute. -/
def MatchCondition (st : Store) (field operator value uid : Str) : Bool :=
  let value := ReplaceAll value "%20".toList " ".toList
  let value := ReplaceAll value "\"".toList []
  match st.fieldValue uid (ToLower field) with
  | .error _ => false
  | .ok target_value =>
    if (target_value = value ∧ operator = "==".toList) ∨
       (target_value ≠ value ∧ operator = "!=".toList) then true else false

/-- Body of the loop of `EvaluateExpression` (entered with `len(elements) > 1`):
`elements[0]`, `elements[1]`, `elements[2]` are combined into `elements[0]` and the
rest is shifted two places to the left. -/
def EvaluateExpression.step (elements : List Str) : Outcome (List Str) := do
  let value1 ← byteAt elements 0
  let operator ← byteAt elements 1
  let value2 ← byteAt elements 2
  let r : Str :=
    if ToLower operator = "and".toList then
      if value1 = "true".toList ∧ value2 = "true".toList then "true".toList else "false".toList
    else if ToLower operator = "or".toList then
      if value1 = "true".toList ∨ value2 = "true".toList then "true".toList else "false".toList
    else "false".toList
  pure (r :: elements.drop 3)

/-- `EvaluateExpression`: left-to-right reduction of a token list. -/
def EvaluateExpression : Nat → List Str → Outcome (Bool × Option GoError)
  | 0, _ => .outOfFuel
  | fuel + 1, elements =>
    if len elements > 1 then do
      let elements ← EvaluateExpression.step elements
      EvaluateExpression fuel elements
    else do
      let e0 ← byteAt elements 0
      if e0 = "true".toList then pure (true, none) else pure (false, none)

/-- Loop of the parenthesis-free branch of `SplitComplexCondition`: every token
that is not `true`, `false`, empty, `and`, `or` starts a leaf of three tokens, which
is replaced by its truth value. -/
def SplitComplexCondition.flatLoop (st : Store) (uid : Str) :
    Nat → List Str → Int → Outcome (List Str)
  | 0, _, _ => .outOfFuel
  | fuel + 1, elements, i =>
    if i < len elements then do
      let e ← byteAt elements i
      if e ≠ "true".toList ∧ e ≠ "false".toList ∧ e ≠ [] ∧
          ToLower e ≠ "and".toList ∧ ToLower e ≠ "or".toList then do
        let field := e
        let operator ← byteAt elements (i + 1)
        let value ← byteAt elements (i + 2)
        let elements := elements.take i.toNat ++
          FormatBool (MatchCondition st field operator value uid) :: elements.drop (i.toNat + 3)
        SplitComplexCondition.flatLoop st uid fuel elements (i + 1)
      else SplitComplexCondition.flatLoop st uid fuel elements (i + 1)
    else pure elements

/-- Loop of the parenthesised branch of `SplitComplexCondition`; `rec` is the
recursive call.  The stack holds the positions of the open parentheses (Go keeps
them as decimal strings, `strconv.Itoa` / `strconv.Atoi`). -/
def SplitComplexCondition.parenLoop (rec : Str → Outcome (Bool × Option GoError)) :
    Nat → Str → Int → List Int → Outcome (Str × List Int)
  | 0, _, _, _ => .outOfFuel
  | fuel + 1, condition, i, stack =>
    if i < len condition then do
      let c ← byteAt condition i
      if c = '(' then
        SplitComplexCondition.parenLoop rec fuel condition (i + 1) (stack ++ [i])
      else if c = ')' then do
        let start_block ← byteAt stack (len stack - 1)
        let end_block := i
        let inner ← slice condition (start_block + 1) end_block
        let (result, err) ← rec inner
        let replacement : Str := if err ≠ none then "false".toList else FormatBool result
        let pre ← slice condition 0 start_block
        let post ← slice condition (end_block + 1) (len condition)
        let condition := pre ++ replacement ++ post
        let stack ← slice stack 0 (len stack - 1)
        let i := if replacement = "true".toList then start_block + 3 else start_block + 4
        SplitComplexCondition.parenLoop rec fuel condition (i + 1) stack
      else SplitComplexCondition.parenLoop rec fuel condition (i + 1) stack
    else pure (condition, stack)

/-- `SplitComplexCondition`: evaluates a condition, innermost parentheses first. -/
def SplitComplexCondition (st : Store) : Nat → Str → Str → Outcome (Bool × Option GoError)
  | 0, _, _ => .outOfFuel
  | fuel + 1, condition, uid =>
    if Count condition '(' = 0 then do
      let elements := Split ' ' condition
      let elements ← SplitComplexCondition.flatLoop st uid fuel elements 0
      EvaluateExpression fuel elements
    else do
      let (condition, stack) ←
        SplitComplexCondition.parenLoop (fun c => SplitComplexCondition st fuel c uid)
          fuel condition 0 []
      if len stack > 0 then pure (false, none)
      else SplitComplexCondition st fuel condition uid

/-- `RemoveSpaces`: removes the needless spaces of a condition. -/
def RemoveSpaces (condition : Str) : Str :=
  let cond := ReplaceAll condition "  ".toList " ".toList
  let cond := ReplaceAll cond "( ".toList "(".toList
  let cond := ReplaceAll cond " )".toList ")".toList
  cond

/-- Inner loop of `ReplaceValueSpaces`: looks for the closing quote from `j` on
(`n` iterations are left, the condition does not change before the loop is left);
returns the new condition and the new outer index. -/
def ReplaceValueSpaces.inner (condition : Str) (i : Int) : Nat → Int → Outcome (Str × Int)
  | 0, _ => pure (condition, i)
  | n + 1, j => do
    let c ← byteAt condition j
    if c = '"' then do
      let quoted ← slice condition i (j + 1)
      let count_spaces := Count quoted ' '
      let pre ← slice condition 0 i
      let post ← slice condition (j + 1) (len condition)
      let condition := pre ++ ReplaceAll quoted " ".toList "%20".toList ++ post
      if count_spaces = 0 then pure (condition, j)
      else pure (condition, j + 2 * count_spaces)
    else ReplaceValueSpaces.inner condition i n (j + 1)

/-- Outer loop of `ReplaceValueSpaces`. -/
def ReplaceValueSpaces.loop : Nat → Str → Int → Outcome Str
  | 0, _, _ => .outOfFuel
  | fuel + 1, condition, i =>
    if i < len condition then do
      let c ← byteAt condition i
      if c = '"' then do
        let d ← byteAt condition (i + 1)
        if d ≠ '"' then do
          let (condition, i) ←
            ReplaceValueSpaces.inner condition i (len condition - (i + 1)).toNat (i + 1)
          ReplaceValueSpaces.loop fuel condition (i + 1)
        else ReplaceValueSpaces.loop fuel condition (i + 1 + 1)
      else ReplaceValueSpaces.loop fuel condition (i + 1)
    else pure condition

/-- `ReplaceValueSpaces`: the spaces inside quoted values become `%20`. -/
def ReplaceValueSpaces (fuel : Nat) (condition : Str) : Outcome Str :=
  ReplaceValueSpaces.loop fuel condition 0

/-! ## Reference resolver -/

/-- `GetFieldValue`: the attribute `field` of recipient `uid`. -/
def GetFieldValue (st : Store) (uid field : Str) : Str × Option GoError :=
  match st.fieldValue uid field with
  | .error err => ([], some err)
  | .ok value => (value, none)

/-- The loop over the conditions of a complex variable in `GetVariableValue`. -/
def GetVariableValue.condLoop (st : Store) (fuel : Nat) (uid : Str) :
    List Cond → Outcome (Str × Option GoError)
  | [] => pure ([], none)
  | c :: conditions =>
    if Count c.Condition '(' = Count c.Condition ')' then do
      let condition ← ReplaceValueSpaces fuel c.Condition
      let condition := RemoveSpaces condition
      let (m, err) ← SplitComplexCondition st fuel condition uid
      if err ≠ none then pure ([], err)
      else if m = true then pure (c.Value, none)
      else GetVariableValue.condLoop st fuel uid conditions
    else GetVariableValue.condLoop st fuel uid conditions

/-- `GetVariableValue`: the value of a variable for recipient `uid`. -/
def GetVariableValue (st : Store) (fuel : Nat) (uid variable_name : Str) :
    Outcome (Str × Option GoError) :=
  match st.variableByName variable_name with
  | .error err => pure ([], some err)
  | .ok var_type =>
    if var_type.FieldId ≠ [] then
      if var_type.FieldId ≠ "0".toList then
        match st.simpleCondition var_type.FieldId uid var_type.Id with
        | .error err => pure ([], some err)
        | .ok value => pure (value, none)
      else
        match st.conditions var_type.Id with
        | .error err => pure ([], some err)
        | .ok conditions => GetVariableValue.condLoop st fuel uid conditions
    else pure ([], none)

/-! ## Block scanner -/

/-- Loop of `FindChars`; the text does not change, `n` iterations are left. -/
def FindChars.loop (text match_ : Str) (start_search : Int) : Nat → Int → Outcome Int
  | 0, _ => pure start_search
  | n + 1, i =>
    if i + len match_ ≤ len text then do
      let s ← slice text i (i + len match_)
      if s = match_ then pure i
      else FindChars.loop text match_ start_search n (i + 1)
    else FindChars.loop text match_ start_search n (i + 1)

/-- `FindChars`: the position of the first match at or after `start_search`, or
`start_search` itself when there is none. -/
def FindChars (text match_ : Str) (start_search : Int) : Outcome Int :=
  FindChars.loop text match_ start_search (len text - start_search).toNat start_search

/-- The lookup shared by `ReplaceReference`, `ReplaceBlock` and
`ReplaceSubReference`: the attribute first, then, when that is empty or missing,
the variable of the same name. -/
def resolveName (st : Store) (fuel : Nat) (uid reference : Str) : Outcome Str := do
  let (value, err) := GetFieldValue st uid (ToLower reference)
  let value := if err ≠ none then [] else value
  if value = [] then do
    let (value, _) ← GetVariableValue st fuel uid (ToLower reference)
    pure value
  else pure value

/-- Body of the loop of `ReplaceReference` once the closing `%}` is found at `r`:
the name is resolved and the reference replaced, unless the name holds a space. -/
def ReplaceReference.found (st : Store) (fuel : Nat) (text uid : Str) (start_ref r : Int) :
    Outcome (Str × Int) := do
  let reference ← slice text (start_ref + 2) r
  if ¬ Contains reference " ".toList then do
    let value ← resolveName st fuel uid reference
    let old ← slice text start_ref (r + 2)
    let text := Replace1 text old value
    pure (text, start_ref + len value - 1)
  else pure (text, r)

/-- Loop of `ReplaceReference` looking for the closing `%}`; the text does not
change before the loop is left, `n` iterations are left. -/
def ReplaceReference.loop (st : Store) (fuel : Nat) (text uid : Str) (start_ref : Int) :
    Nat → Int → Outcome (Str × Int)
  | 0, _ => pure (text, start_ref)
  | n + 1, r => do
    let s ← slice text r (r + 2)
    if s = "%\x7d".toList then ReplaceReference.found st fuel text uid start_ref r
    else ReplaceReference.loop st fuel text uid start_ref n (r + 1)

/-- `ReplaceReference`: resolves the simple reference that starts at `start_ref`. -/
def ReplaceReference (st : Store) (fuel : Nat) (text uid : Str) (start_ref : Int) :
    Outcome (Str × Int) :=
  ReplaceReference.loop st fuel text uid start_ref
    (len text - (start_ref + 2)).toNat (start_ref + 2)

/-- Body of the loop of `ReplaceSubReference` once the closing `%` of the name
is found at `end_field`. -/
def ReplaceSubReference.found (st : Store) (fuel : Nat) (text uid : Str)
    (start_ref : Int) (reference value buff_value : Str) (end_field : Int) :
    Outcome (Str × Str × Int) := do
  let tmp_field ← slice text (start_ref + 1) end_field
  if tmp_field ≠ reference then
    if ¬ Contains tmp_field " ".toList then do
      let tmp_value ← resolveName st fuel uid tmp_field
      let old ← slice text start_ref (end_field + 1)
      pure (Replace1 text old tmp_value, tmp_value, start_ref + len tmp_value - 1)
    else pure (text, buff_value, end_field)
  else do
    let old ← slice text start_ref (end_field + 1)
    pure (Replace1 text old value, buff_value, start_ref + len value - 1)

/-- Loop of `ReplaceSubReference` looking for the closing `%` of a name; the text
does not change before the loop is left, `n` iterations are left. -/
def ReplaceSubReference.loop (st : Store) (fuel : Nat) (text uid : Str) (start_ref : Int)
    (reference value buff_value : Str) : Nat → Int → Outcome (Str × Str × Int)
  | 0, _ => pure (text, buff_value, start_ref)
  | n + 1, sb => do
    let c ← byteAt text sb
    if c = '%' then
      ReplaceSubReference.found st fuel text uid start_ref reference value buff_value sb
    else ReplaceSubReference.loop st fuel text uid start_ref reference value buff_value n (sb + 1)

/-- `ReplaceSubReference`: resolves the sub-reference (`%%` or `%NAME%`) at `start_ref`. -/
def ReplaceSubReference (st : Store) (fuel : Nat) (text uid : Str) (start_ref : Int)
    (reference value buff_value : Str) : Outcome (Str × Str × Int) := do
  let c ← byteAt text (start_ref + 1)
  if c = '%' then do
    let old ← slice text start_ref (start_ref + 2)
    pure (Replace1 text old buff_value, buff_value, start_ref + len buff_value - 1)
  else
    ReplaceSubReference.loop st fuel text uid start_ref reference value buff_value
      (len text - (start_ref + 1)).toNat (start_ref + 1)

/-- Loop of `ReplaceSubReferences`. -/
def ReplaceSubReferences.loop (st : Store) (uid : Str) (start_search : Int)
    (reference value : Str) : Nat → Str → Int → Str → Outcome (Str × Int × Str)
  | 0, _, _, _ => .outOfFuel
  | fuel + 1, text, i, buff_value =>
    if i < len text then do
      let c ← byteAt text i
      if c = '%' then do
        let (text, buff_value, i) ←
          ReplaceSubReference st fuel text uid i reference value buff_value
        ReplaceSubReferences.loop st uid start_search reference value fuel text (i + 1) buff_value
      else if c = '}' then pure (text, i, buff_value)
      else
        ReplaceSubReferences.loop st uid start_search reference value fuel text (i + 1) buff_value
    else pure (text, start_search, buff_value)

/-- `ReplaceSubReferences`: the position of the end of the statement, all the
sub-references before it being replaced. -/
def ReplaceSubReferences (st : Store) (fuel : Nat) (text uid : Str) (start_search : Int)
    (reference value buff_value : Str) : Outcome (Str × Int × Str) :=
  ReplaceSubReferences.loop st uid start_search reference value fuel text start_search buff_value

/-- First part of `ReplaceBlock` for a condition block: the reference name is
delimited, its `%` marks are rewritten to `$`, the name is resolved and the start
of the `if` statement is looked for.  Returns the text, `reference`, `value` and
`start_if` (`0` when it was not set). -/
def ReplaceBlock.condition (st : Store) (fuel : Nat) (text : Str) (start_block : Int)
    (uid : Str) : Outcome (Str × Str × Str × Int) := do
  let start_cond := start_block + 5
  let match_index ← FindChars text "%)".toList start_cond
  if match_index > start_cond then do
    let end_cond := match_index
    let reference ← slice text start_cond end_cond
    let old ← slice text (start_block + 3) (end_cond + 2)
    let text := Replace1 text old ("($".toList ++ reference ++ "$)".toList)
    if ¬ Contains reference " ".toList then do
      let ref_value ← resolveName st fuel uid reference
      let match_index ← FindChars text "\x7b".toList (end_cond + 2)
      pure (text, reference, ref_value, if match_index > end_cond + 1 then match_index else 0)
    else pure (text, reference, [], 0)
  else pure (text, [], [], 0)

/-- The nested-block test and the sub-reference scan of one statement of
`ReplaceBlock` (the `if` statement from `start_if`, and in the same way the `else`
statement from `start_else`): a nested block right at its start is replaced first
by `rb`, the recursive call, then the sub-references are replaced up to the
closing brace.  Returns the text, `match_index` and the buffer. -/
def ReplaceBlock.scanStatement (st : Store) (fuel : Nat)
    (rb : Str → Int → Outcome (Str × Int)) (uid reference value : Str) (text : Str)
    (start_if : Int) (buff_value : Str) : Outcome (Str × Int × Str) := do
  let s ← slice text start_if (start_if + 7)
  if s = "\x7b \x7bif(%".toList then do
    let text := Replace1 text s "\x7b\x7bif(%".toList
    let start_nested := start_if + 1
    let (text, end_nested) ← rb text start_nested
    ReplaceSubReferences st fuel text uid (end_nested + 1) reference value buff_value
  else
    ReplaceSubReferences st fuel text uid (start_if + 1) reference value buff_value

/-- One statement of `ReplaceBlock`, guarded by `start_if > 0`.  Returns the
text, the end of the statement (`0` when it was not set) and the buffer. -/
def ReplaceBlock.statement (st : Store) (fuel : Nat) (rb : Str → Int → Outcome (Str × Int))
    (uid reference value : Str) (text : Str) (start_if : Int) (buff_value : Str) :
    Outcome (Str × Int × Str) :=
  if start_if > 0 then do
    let (text, match_index, buff_value) ←
      ReplaceBlock.scanStatement st fuel rb uid reference value text start_if buff_value
    pure (text, if match_index > start_if then match_index else 0, buff_value)
  else pure (text, 0, buff_value)

/-- The search for the next delimiter in `ReplaceBlock` (`{` for the start of
the `else` statement, `}` for the end of the block), guarded by `after > 0`;
`0` when the position was not set. -/
def ReplaceBlock.next (text delimiter : Str) (after : Int) : Outcome Int :=
  if after > 0 then do
    let match_index ← FindChars text delimiter (after + 1)
    pure (if match_index > after then match_index else 0)
  else pure 0

/-- Last part of `ReplaceBlock`: the block is replaced by the text of the
statement that was chosen. -/
def ReplaceBlock.finish (text : Str) (start_block : Int) (value : Str)
    (start_if end_if start_else end_else end_block : Int) : Outcome (Str × Int) :=
  if end_block > 0 then do
    let append_text ←
      (if value ≠ [] then
        (if end_if - start_if > 1 then slice text (start_if + 1) end_if else pure [])
      else
        (if end_else - start_else > 1 then slice text (start_else + 1) end_else else pure []))
    let old ← slice text start_block (end_block + 1)
    let text := Replace1 text old append_text
    pure (text, start_block + len append_text - 1)
  else pure (text, start_block)

/-- `ReplaceBlock`: replaces the block that starts at `start_block` (a simple
reference or a condition) and returns the new text and the new cursor. -/
def ReplaceBlock (st : Store) : Nat → Str → Int → Str → Outcome (Str × Int)
  | 0, _, _, _ => .outOfFuel
  | fuel + 1, text, start_block, uid => do
    let c ← byteAt text (start_block + 1)
    if c = '%' then ReplaceReference st fuel text uid start_block
    else do
      let s ← slice text (start_block + 1) (start_block + 5)
      if s = "if(%".toList then do
        let (text, reference, value, start_if) ←
          ReplaceBlock.condition st fuel text start_block uid
        let buff_value := value
        let (text, end_if, buff_value) ←
          ReplaceBlock.statement st fuel (fun t s => ReplaceBlock st fuel t s uid)
            uid reference value text start_if buff_value
        let start_else ← ReplaceBlock.next text "\x7b".toList end_if
        let (text, end_else, _) ←
          ReplaceBlock.statement st fuel (fun t s => ReplaceBlock st fuel t s uid)
            uid reference value text start_else buff_value
        let end_block ← ReplaceBlock.next text "\x7d".toList end_else
        ReplaceBlock.finish text start_block value start_if end_if start_else end_else end_block
      else pure (text, start_block)

/-- Loop of `ReplaceReferences` over the text. -/
def ReplaceReferences.loop (st : Store) (uid : Str) : Nat → Str → Int → Outcome Str
  | 0, _, _ => .outOfFuel
  | fuel + 1, text, i =>
    if i < len text then do
      let c ← byteAt text i
      if c = '{' then do
        let (text, i) ← ReplaceBlock st fuel text i uid
        ReplaceReferences.loop st uid fuel text (i + 1)
      else ReplaceReferences.loop st uid fuel text (i + 1)
    else pure text

/-- `ReplaceReferences`: replaces all the references of the text for the recipient
with address `target_email`. -/
def ReplaceReferences (st : Store) (fuel : Nat) (text target_email : Str) :
    Outcome (Str × Option GoError) :=
  match st.targetId target_email with
  | .error err => pure (text, some err)
  | .ok uid => do
    let text ← ReplaceReferences.loop st uid fuel text 0
    pure (text, none)

/-! ## One stored condition of a complex variable -/

/-- What the loop of `GetVariableValue` computes for one stored condition: a
condition whose parenthesis counts differ is passed over (no match), any other is
normalised by `ReplaceValueSpaces` and `RemoveSpaces` and evaluated by
`SplitComplexCondition`. -/
def evalCondition (st : Store) (fuel : Nat) (uid : Str) (c : Cond) :
    Outcome (Bool × Option GoError) :=
  if Count c.Condition '(' = Count c.Condition ')' then
    ReplaceValueSpaces fuel c.Condition >>= fun condition =>
      SplitComplexCondition st fuel (RemoveSpaces condition) uid
  else .ok (false, none)

/-! ## The condition evaluator seen as a machine over the bytes of the condition -/

/-- The test of the loop of `SplitComplexCondition` for the start of a leaf. -/
def startsLeaf (e : Str) : Prop :=
  e ≠ "true".toList ∧ e ≠ "false".toList ∧ e ≠ [] ∧
    ToLower e ≠ "and".toList ∧ ToLower e ≠ "or".toList

instance startsLeaf.decidable (e : Str) : Decidable (startsLeaf e) := by
  unfold startsLeaf
  infer_instance

/-- The literal that replaces a parenthesised span, from the result of the
recursive call. -/
def replacementOf (p : Bool × Option GoError) : Str :=
  if p.2 ≠ none then "false".toList else FormatBool p.1

/-- One iteration of the parenthesised loop of `SplitComplexCondition`, seen from
the part `done` of the condition before the cursor: the byte `c` under the cursor
is consumed and `done` and the stack are updated. -/
def parenStep (rec : Str → Outcome (Bool × Option GoError)) (done : Str) (stack : List Int)
    (c : Char) : Outcome (Str × List Int) :=
  if c = '(' then .ok (done ++ [c], stack ++ [len done])
  else if c = ')' then
    byteAt stack (len stack - 1) >>= fun start_block =>
    slice done (start_block + 1) (len done) >>= fun inner =>
    rec inner >>= fun p =>
    slice done 0 start_block >>= fun pre =>
    slice stack 0 (len stack - 1) >>= fun stack =>
    .ok (pre ++ replacementOf p, stack)
  else .ok (done ++ [c], stack)

/-- The parenthesised loop run over the bytes `todo` from the state `done`, `stack`. -/
def parenRun (rec : Str → Outcome (Bool × Option GoError)) :
    Str → List Int → Str → Outcome (Str × List Int)
  | done, stack, [] => .ok (done, stack)
  | done, stack, c :: todo =>
    parenStep rec done stack c >>= fun s => parenRun rec s.1 s.2 todo

/-- Invariant of the parenthesised loop of `SplitComplexCondition`: the part of
the condition before the cursor is `s0 ( s1 ( ... ( sk` with no `(` inside the
`si`, and the stack holds the positions of these `k` open parentheses. -/
inductive ParenInv : Str → List Int → Prop
  | flat (s : Str) : '(' ∉ s → ParenInv s []
  | opened (done : Str) (stack : List Int) (seg : Str) :
      ParenInv done stack → '(' ∉ seg → ParenInv (done ++ '(' :: seg) (stack ++ [len done])

/-! ## Properly nested parentheses, as the specification words them -/

/-- Scan for properly nested parentheses, `d` parentheses being open. -/
def properlyNested.go : Nat → Str → Bool
  | d, [] => d == 0
  | d, c :: s =>
    if c = '(' then properlyNested.go (d + 1) s
    else if c = ')' then
      if d = 0 then false else properlyNested.go (d - 1) s
    else properlyNested.go d s

/-- The parentheses of the string are properly nested: every `)` closes an
earlier `(` and every `(` is closed. -/
def properlyNested (s : Str) : Bool := properlyNested.go 0 s

/-! ## The left fold of a token list, as the specification words it -/

/-- A token is true only if it is exactly `true`. -/
def tokenTruth (v : Str) : Bool := decide (v = "true".toList)

/-- One operator applied to two truth values: `and` and `or` in any letter case,
anything else yields false. -/
def applyOperator (op : Str) (a b : Bool) : Bool :=
  if ToLower op = "and".toList then a && b
  else if ToLower op = "or".toList then a || b
  else false

/-- The strict left-to-right fold `(((v0 op1 v1) op2 v2) ... opk vk)`, from the
truth value of `v0` and the pairs `(op1, v1), ..., (opk, vk)`. -/
def leftFold : Bool → List (Str × Str) → Bool
  | acc, [] => acc
  | acc, (op, v) :: rest => leftFold (applyOperator op acc (tokenTruth v)) rest

/-- The token list `[v0, op1, v1, ..., opk, vk]`. -/
def tokenList (v0 : Str) (pairs : List (Str × Str)) : List Str :=
  v0 :: pairs.flatMap (fun p => [p.1, p.2])

/-! ## A concrete store, used to run the engine on examples -/

/-- A store with one recipient, `alice@example.org` with id `7`, her attributes
`firstname`, `age` and `city`, and two complex variables, `tier` and `discount`
(the first condition of `discount` is written without spaces around `==`). -/
def demoStore : Store where
  targetId := fun email =>
    if email = "alice@example.org".toList then .ok "7".toList else .error .recordNotFound
  fieldValue := fun uid name =>
    if uid = "7".toList ∧ name = "firstname".toList then .ok "Alice".toList
    else if uid = "7".toList ∧ name = "age".toList then .ok "25".toList
    else if uid = "7".toList ∧ name = "city".toList then .ok "New York".toList
    else .error .recordNotFound
  variableByName := fun name =>
    if name = "tier".toList then .ok ⟨"1".toList, "0".toList, "tier".toList⟩
    else if name = "discount".toList then .ok ⟨"2".toList, "0".toList, "discount".toList⟩
    else .error .recordNotFound
  simpleCondition := fun _ _ _ => .error .recordNotFound
  conditions := fun vid =>
    if vid = "1".toList then
      .ok [⟨"age == 30".toList, "silver".toList⟩, ⟨"age == 25".toList, "gold".toList⟩,
           ⟨"true".toList, "basic".toList⟩]
    else if vid = "2".toList then
      .ok [⟨"age==\"25\"".toList, "young".toList⟩, ⟨"true".toList, "standard".toList⟩]
    else .ok []

/-! ## Basic facts about outcomes -/

namespace Outcome

@[simp] theorem ok_bind {α β : Type} (a : α) (f : α → Outcome β) :
    (Outcome.ok a >>= f) = f a := rfl

@[simp] theorem panic_bind {α β : Type} (f : α → Outcome β) :
    (Outcome.panic >>= f) = Outcome.panic := rfl

@[simp] theorem outOfFuel_bind {α β : Type} (f : α → Outcome β) :
    (Outcome.outOfFuel >>= f) = Outcome.outOfFuel := rfl

@[simp] theorem pure_eq {α : Type} (a : α) : (pure a : Outcome α) = Outcome.ok a := rfl

end Outcome

/-- The text with every space written `%20`: what `strings.ReplaceAll(s, " ", "%20")`
makes of `s` (see `replaceAll_encode`). -/
def encodeSpaces : Str → Str
  | [] => []
  | c :: s => if c = ' ' then '%' :: '2' :: '0' :: encodeSpaces s else c :: encodeSpaces s

/-- The store `st` with its three variable tables exchanged for others; the
recipients and the attributes are kept. -/
def withVariables (st : Store) (vn : Str → Except GoError Var)
    (sc : Str → Str → Str → Except GoError Str) (cs : Str → Except GoError (List Cond)) :
    Store where
  targetId := st.targetId
  fieldValue := st.fieldValue
  variableByName := vn
  simpleCondition := sc
  conditions := cs

/-- A second store, for the corner cases: recipient `bob@example.org` with id `9`,
whose attribute `nick` is stored empty and whose attribute `offer` holds `%%`; a
simple variable `nick` with value `Bobby` for him, and a complex variable `level`
whose first stored condition has its parentheses in the wrong order. -/
def quirkStore : Store where
  targetId := fun email =>
    if email = "bob@example.org".toList then .ok "9".toList else .error .recordNotFound
  fieldValue := fun uid name =>
    if uid = "9".toList ∧ name = "nick".toList then .ok []
    else if uid = "9".toList ∧ name = "age".toList then .ok "25".toList
    else if uid = "9".toList ∧ name = "city".toList then .ok "New York".toList
    else if uid = "9".toList ∧ name = "offer".toList then .ok "50%% off".toList
    else .error .recordNotFound
  variableByName := fun name =>
    if name = "nick".toList then .ok ⟨"3".toList, "5".toList, "nick".toList⟩
    else if name = "level".toList then .ok ⟨"4".toList, "0".toList, "level".toList⟩
    else .error .recordNotFound
  simpleCondition := fun fieldId uid vid =>
    if fieldId = "5".toList ∧ uid = "9".toList ∧ vid = "3".toList then .ok "Bobby".toList
    else .error .recordNotFound
  conditions := fun vid =>
    if vid = "4".toList then
      .ok [⟨"age == 25) OR (age == 30".toList, "senior".toList⟩, ⟨"true".toList, "basic".toList⟩]
    else .ok []

/-- A third store: recipient `carol@example.org` with id `3`, whose attribute
`greeting` holds the text of a reference, `{%first%}`, and whose attribute `first`
is `Carol`; no variables. -/
def echoStore : Store where
  targetId := fun email =>
    if email = "carol@example.org".toList then .ok "3".toList else .error .recordNotFound
  fieldValue := fun uid name =>
    if uid = "3".toList ∧ name = "first".toList then .ok "Carol".toList
    else if uid = "3".toList ∧ name = "greeting".toList then .ok "\x7b%first%\x7d".toList
    else .error .recordNotFound
  variableByName := fun _ => .error .recordNotFound
  simpleCondition := fun _ _ _ => .error .recordNotFound
  conditions := fun _ => .ok []

/-! ## Termination, in terms of the fuel -/

/-- A run `g`, as a function of the fuel it is given, ends: from some amount of
fuel on it gives one and the same outcome, and that outcome is a result or a
panic of the Go program, not a lack of fuel. -/
def Stable {α : Type} (g : Nat → Outcome α) : Prop :=
  ∃ N r, r ≠ Outcome.outOfFuel ∧ ∀ fuel, N ≤ fuel → g fuel = r

/-- A store none of whose values holds a `%`: the attribute values, the values
of the simple variables and the values of the stored conditions. -/
def PlainStore (st : Store) : Prop :=
  (∀ uid name v, st.fieldValue uid name = .ok v → '%' ∉ v) ∧
  (∀ fieldId uid vid v, st.simpleCondition fieldId uid vid = .ok v → '%' ∉ v) ∧
  (∀ vid cs c, st.conditions vid = .ok cs → c ∈ cs → '%' ∉ c.Value)

/-! ## The mail log, variables and fields: `Backoff` and `Validate` -/

/-- The `error` values that `Backoff` and `Validate` return: the sentinel errors
declared with `errors.New` in `maillog.go`, `variable.go` and `field.go`, or an
error handed up from the database layer. -/
inductive ModelError where
  | ErrMaxSendAttempts : ModelError
  | ErrVariableNameNotSpecified : ModelError
  | ErrNoConditionsSpecified : ModelError
  | ErrFieldNameNotSpecified : ModelError
  | ErrNoValuesSpecified : ModelError
  | db : GoError → ModelError
  deriving DecidableEq, Repr

/-- A Go `int64` (and `int` on the 64-bit targets) after an arithmetic operation:
the mathematical result wrapped into `[-2^63, 2^63)`. -/
def wrap64 (x : Int) : Int := (x + 2 ^ 63) % 2 ^ 64 - 2 ^ 63

/-- `MaxSendAttempts` of `maillog.go`. -/
def MaxSendAttempts : Int := 8

/-- `time.Minute`, in nanoseconds (a `time.Duration` is an `int64` count of
nanoseconds). -/
def Minute : Int := 60000000000

/-- `MailLog` of `maillog.go`, without the cached campaign.  `SendDate` is the
instant in nanoseconds; the range of `time.Time` is not modelled. -/
structure MailLog where
  Id : Int
  UserId : Int
  CampaignId : Int
  RId : Str
  SendDate : Int
  SendAttempt : Int
  Processing : Bool
  deriving DecidableEq, Repr

/-- The collaborators of `Backoff`: `GetResult` (only its error is looked at, the
result is handed on to `HandleEmailError` and `HandleEmailBackoff`), `db.Save` on
the mail log and `HandleEmailBackoff` on the result, each giving its error or
`none` for `nil`. -/
structure MailDb where
  getResult : Str → Option GoError
  save : MailLog → Option GoError
  handleEmailBackoff : Str → Int → Option GoError

/-- The conversion `time.Duration(math.Pow(2, float64(n)))`: `2^n` is exact in a
`float64` and in an `int64` for `0 ≤ n ≤ 62`; a negative `n` gives a fraction,
truncated to `0`; from `63` on the value does not fit an `int64` and the result
is left to the implementation (`-2^63` on amd64, which is what is used here). -/
def backoffDuration (n : Int) : Int :=
  if n < 0 then 0 else if n ≤ 62 then 2 ^ n.toNat else -(2 ^ 63)

/-- `MailLog.Unlock`: clears the processing flag and saves. -/
def MailLog.Unlock (db : MailDb) (m : MailLog) : MailLog × Option ModelError :=
  let m : MailLog := ⟨m.Id, m.UserId, m.CampaignId, m.RId, m.SendDate, m.SendAttempt, false⟩
  (m, (db.save m).map ModelError.db)

/-- `MailLog.Backoff`: returns the receiver as the call leaves it, and the
error. -/
def MailLog.Backoff (db : MailDb) (m : MailLog) : MailLog × Option ModelError :=
  match db.getResult m.RId with
  | some err => (m, some (.db err))
  | none =>
    if m.SendAttempt = MaxSendAttempts then (m, some .ErrMaxSendAttempts)
    else
      let m : MailLog :=
        ⟨m.Id, m.UserId, m.CampaignId, m.RId, m.SendDate, wrap64 (m.SendAttempt + 1),
          m.Processing⟩
      let d := backoffDuration m.SendAttempt
      let m : MailLog :=
        ⟨m.Id, m.UserId, m.CampaignId, m.RId, m.SendDate + wrap64 (Minute * d), m.SendAttempt,
          m.Processing⟩
      match db.save m with
      | some err => (m, some (.db err))
      | none =>
        match db.handleEmailBackoff m.RId m.SendDate with
        | some err => (m, some (.db err))
        | none => MailLog.Unlock db m

/-- `Condition` of `variable.go`. -/
structure Condition where
  VariableId : Int
  Condition : Str
  Value : Str
  deriving DecidableEq, Repr

/-- `FrontVariable` of `variable.go` (`ModifiedDate` as an instant in
nanoseconds). -/
structure FrontVariable where
  Id : Int
  Type' : Str
  FieldId : Int
  Field : Str
  UserId : Int
  Name : Str
  ModifiedDate : Int
  Conditions : List Condition
  deriving DecidableEq, Repr

/-- `FrontVariable.Validate`: returns the receiver as the call leaves it, and the
error. -/
def FrontVariable.Validate (v : FrontVariable) : FrontVariable × Option ModelError :=
  if v.Name = [] then (v, some .ErrVariableNameNotSpecified)
  else if len v.Conditions = 0 then (v, some .ErrNoConditionsSpecified)
  else
    (⟨v.Id, v.Type', v.FieldId, v.Field, v.UserId, ToLower v.Name, v.ModifiedDate, v.Conditions⟩,
      none)

/-- `FieldValue` of `field.go`. -/
structure FieldValue where
  FieldId : Int
  TargetId : Int
  Email : Str
  Value : Str
  deriving DecidableEq, Repr

/-- `Field` of `field.go` (`ModifiedDate` as an instant in nanoseconds). -/
structure Field where
  Id : Int
  UserId : Int
  Name : Str
  ModifiedDate : Int
  FieldValues : List FieldValue
  deriving DecidableEq, Repr

/-- `Field.Validate`: returns the receiver as the call leaves it, and the error. -/
def Field.Validate (f : Field) : Field × Option ModelError :=
  if f.Name = [] then (f, some .ErrFieldNameNotSpecified)
  else if len f.FieldValues = 0 then (f, some .ErrNoValuesSpecified)
  else (⟨f.Id, f.UserId, ToLower f.Name, f.ModifiedDate, f.FieldValues⟩, none)

/-! ## The `strings` functions against the list library -/

theorem hasPrefix_iff (s p : Str) : HasPrefix s p = true ↔ p <+: s := by
  induction s generalizing p with
  | nil => cases p <;> simp [HasPrefix]
  | cons c s ih =>
    cases p with
    | nil => simp [HasPrefix]
    | cons d p =>
      simp only [HasPrefix, Bool.and_eq_true, beq_iff_eq, ih, List.cons_prefix_cons]
      constructor
      · rintro ⟨h1, h2⟩; exact ⟨h1.symm, h2⟩
      · rintro ⟨h1, h2⟩; exact ⟨h1.symm, h2⟩

theorem contains_iff (s substr : Str) : Contains s substr = true ↔ substr <:+: s := by
  induction s with
  | nil =>
    simp only [Contains, hasPrefix_iff, List.prefix_nil, List.infix_nil]
  | cons c s ih =>
    simp only [Contains, Bool.or_eq_true, hasPrefix_iff, ih, List.infix_cons_iff]

theorem contains_singleton (s : Str) (c : Char) : Contains s [c] = true ↔ c ∈ s := by
  induction s with
  | nil => simp [Contains, HasPrefix]
  | cons d s ih =>
    simp only [Contains, HasPrefix, Bool.and_true, Bool.or_eq_true, beq_iff_eq, ih,
      List.mem_cons]
    constructor
    · rintro (h | h)
      · exact Or.inl h.symm
      · exact Or.inr h
    · rintro (h | h)
      · exact Or.inl h.symm
      · exact Or.inr h

/-! ## Lengths, indexing and slicing -/

theorem len_append {α : Type} (a b : List α) : len (a ++ b) = len a + len b := by
  simp [len]

theorem len_cons {α : Type} (a : α) (b : List α) : len (a :: b) = len b + 1 := by
  simp [len]

theorem len_nonneg {α : Type} (a : List α) : 0 ≤ len a := by
  simp [len]

theorem byteAt_append_cons {α : Type} (A : List α) (c : α) (C : List α) (i : Int)
    (hi : i = len A) : byteAt (A ++ c :: C) i = .ok c := by
  subst hi
  have h : (A ++ c :: C).get? A.length = some c := by
    rw [List.get?_eq_getElem?, List.getElem?_append_right (Nat.le_refl _)]
    simp
  unfold byteAt
  rw [if_pos (len_nonneg A)]
  simp only [len, Int.toNat_ofNat, h]

theorem slice_append_append {α : Type} (A B C : List α) (a b : Int)
    (ha : a = len A) (hb : b = len A + len B) : slice (A ++ B ++ C) a b = .ok B := by
  subst ha hb
  have h : (0 : Int) ≤ len A ∧ len A ≤ len A + len B ∧ len A + len B ≤ len (A ++ B ++ C) := by
    simp only [len, List.length_append]
    push_cast
    omega
  unfold slice
  rw [if_pos h]
  simp only [len, Int.toNat_ofNat]
  have : ((A.length : Int) + (B.length : Int)).toNat - A.length = B.length := by
    omega
  rw [this]
  simp [List.append_assoc]
/-! ## First-occurrence replacement -/

theorem hasPrefix_append_self (old rest : Str) : HasPrefix (old ++ rest) old = true :=
  (hasPrefix_iff _ _).2 (List.prefix_append _ _)

theorem replace1_first (P : Str) (c0 : Char) (o new rest : Str) (hP : c0 ∉ P) :
    Replace1 (P ++ (c0 :: o) ++ rest) (c0 :: o) new = P ++ new ++ rest := by
  induction P with
  | nil =>
    have h := hasPrefix_append_self (c0 :: o) rest
    simp only [List.cons_append] at h
    show Replace1 (c0 :: (o ++ rest)) (c0 :: o) new = [] ++ new ++ rest
    rw [Replace1, if_pos h]
    simp
  | cons c P ih =>
    have hc : c ≠ c0 := fun e => hP (by simp [e])
    have hP2 : c0 ∉ P := fun e => hP (by simp [e])
    have h : HasPrefix (c :: (P ++ (c0 :: o) ++ rest)) (c0 :: o) = false := by
      simp [HasPrefix, hc]
    have e : c :: P ++ c0 :: o ++ rest = c :: (P ++ (c0 :: o) ++ rest) := by simp
    rw [e, Replace1, h, ih hP2]
    simp

/-! ## The scanning loop of `ReplaceReferences` -/

theorem loop_end (st : Store) (uid text : Str) (fuel : Nat) (i : Int) (hi : len text ≤ i) :
    ReplaceReferences.loop st uid (fuel + 1) text i = .ok text := by
  unfold ReplaceReferences.loop
  rw [if_neg (by omega)]
  rfl

theorem loop_step_other (st : Store) (uid text : Str) (fuel : Nat) (i : Int) (c : Char)
    (hb : byteAt text i = .ok c) (hlt : i < len text) (hc : c ≠ '{') :
    ReplaceReferences.loop st uid (fuel + 1) text i
      = ReplaceReferences.loop st uid fuel text (i + 1) := by
  rw [ReplaceReferences.loop, if_pos hlt, hb]
  simp only [Outcome.ok_bind, if_neg hc]

theorem loop_step_block (st : Store) (uid text : Str) (fuel : Nat) (i : Int)
    (hb : byteAt text i = .ok '{') (hlt : i < len text) :
    ReplaceReferences.loop st uid (fuel + 1) text i
      = (ReplaceBlock st fuel text i uid >>= fun r =>
          ReplaceReferences.loop st uid fuel r.1 (r.2 + 1)) := by
  rw [ReplaceReferences.loop, if_pos hlt, hb]
  simp only [Outcome.ok_bind, if_true]

theorem loop_skip (st : Store) (uid : Str) (mid : Str) (hmid : '{' ∉ mid) :
    ∀ (pre rest : Str) (fuel : Nat) (i : Int), i = len pre →
      ReplaceReferences.loop st uid (fuel + mid.length) (pre ++ mid ++ rest) i
        = ReplaceReferences.loop st uid fuel (pre ++ mid ++ rest) (i + len mid) := by
  induction mid with
  | nil => intro pre rest fuel i _; simp [len]
  | cons c mid ih =>
    intro pre rest fuel i hi
    have hc : c ≠ '{' := fun e => hmid (by simp [e])
    have hmid2 : '{' ∉ mid := fun e => hmid (by simp [e])
    have e1 : fuel + (c :: mid).length = (fuel + mid.length) + 1 := by simp; omega
    have hlt : i < len (pre ++ c :: mid ++ rest) := by
      subst hi
      simp only [len, List.length_append, List.length_cons]
      push_cast
      omega
    have hb : byteAt (pre ++ c :: mid ++ rest) i = .ok c := by
      have := byteAt_append_cons pre c (mid ++ rest) i hi
      simpa using this
    rw [e1, loop_step_other st uid _ _ i c hb hlt hc]
    have e2 : pre ++ c :: mid ++ rest = (pre ++ [c]) ++ mid ++ rest := by simp
    have e3 : i + 1 + len mid = i + len (c :: mid) := by rw [len_cons]; omega
    rw [e2, ih hmid2 (pre ++ [c]) rest fuel (i + 1) (by rw [hi, len_append]; rfl), e3]
/-! ## Simple references -/

theorem replaceReference_loop_scan (st : Store) (fuel : Nat) (uid : Str) (start_ref : Int)
    (A S : Str) :
    ∀ (N2 N1 : Str) (n : Nat) (r : Int), Contains N2 "%\x7d".toList = false →
      r = len A + len N1 → N2.length + 1 ≤ n →
      ReplaceReference.loop st fuel (A ++ N1 ++ N2 ++ '%' :: '}' :: S) uid start_ref n r
        = ReplaceReference.found st fuel (A ++ N1 ++ N2 ++ '%' :: '}' :: S) uid start_ref
            (r + len N2) := by
  intro N2
  induction N2 with
  | nil =>
    intro N1 n r _ hr hn
    obtain ⟨m, rfl⟩ : ∃ m, n = m + 1 := ⟨n - 1, by omega⟩
    have hs : slice (A ++ N1 ++ [] ++ '%' :: '}' :: S) r (r + 2) = .ok "%\x7d".toList := by
      have := slice_append_append (A ++ N1) "%\x7d".toList S r (r + 2)
        (by rw [hr, len_append]) (by rw [hr, len_append]; rfl)
      simpa using this
    rw [ReplaceReference.loop, hs]
    simp [len]
  | cons c N2 ih =>
    intro N1 n r hc hr hn
    obtain ⟨m, rfl⟩ : ∃ m, n = m + 1 := ⟨n - 1, by simp at hn; omega⟩
    simp only [Contains, Bool.or_eq_false_iff] at hc
    obtain ⟨d, rest, hrest⟩ : ∃ d rest, N2 ++ '%' :: '}' :: S = d :: rest := by
      cases N2 with
      | nil => exact ⟨_, _, rfl⟩
      | cons d N2 => exact ⟨_, _, rfl⟩
    have hne : [c, d] ≠ "%\x7d".toList := by
      intro e
      simp only [String.toList, List.cons.injEq, and_true] at e
      obtain ⟨e1, e2⟩ := e
      subst e1 e2
      cases N2 with
      | nil => simp at hrest
      | cons d2 N2 =>
        simp at hrest
        have := hc.1
        rw [hrest.1] at this
        simp [HasPrefix] at this
    have htext : A ++ N1 ++ c :: N2 ++ '%' :: '}' :: S = (A ++ N1) ++ [c, d] ++ rest := by
      simp [← hrest]
    have hs : slice (A ++ N1 ++ c :: N2 ++ '%' :: '}' :: S) r (r + 2) = .ok [c, d] := by
      rw [htext]
      exact slice_append_append (A ++ N1) [c, d] rest r (r + 2)
        (by rw [hr, len_append]) (by rw [hr, len_append]; rfl)
    rw [ReplaceReference.loop, hs]
    simp only [Outcome.ok_bind, if_neg hne]
    have e2 : A ++ N1 ++ c :: N2 ++ '%' :: '}' :: S = A ++ (N1 ++ [c]) ++ N2 ++ '%' :: '}' :: S := by
      simp
    have e3 : r + 1 + len N2 = r + len (c :: N2) := by rw [len_cons]; omega
    rw [e2, ih (N1 ++ [c]) m (r + 1) hc.2 (by rw [hr, len_append]; simp [len]; omega)
      (by simp at hn; omega), e3]
theorem resolveName_attribute (st : Store) (fuel : Nat) (uid reference v : Str)
    (h : st.fieldValue uid (ToLower reference) = .ok v) (hv : v ≠ []) :
    resolveName st fuel uid reference = .ok v := by
  simp [resolveName, GetFieldValue, h, hv]

theorem resolveName_missing (st : Store) (fuel : Nat) (uid reference : Str) (e2 : GoError)
    (h1 : ∀ v, st.fieldValue uid (ToLower reference) = .ok v → v = [])
    (h2 : st.variableByName (ToLower reference) = .error e2) :
    resolveName st fuel uid reference = .ok [] := by
  cases hf : st.fieldValue uid (ToLower reference) with
  | error e1 => simp [resolveName, GetFieldValue, GetVariableValue, hf, h2]
  | ok v =>
    have := h1 v hf
    subst this
    simp [resolveName, GetFieldValue, GetVariableValue, hf, h2]

theorem replaceBlock_simple_ref (st : Store) (fuel : Nat) (P X uid : Str) :
    ReplaceBlock st (fuel + 1) (P ++ '{' :: '%' :: X) (len P) uid
      = ReplaceReference st fuel (P ++ '{' :: '%' :: X) uid (len P) := by
  have hb : byteAt (P ++ '{' :: '%' :: X) (len P + 1) = .ok '%' := by
    have := byteAt_append_cons (P ++ ['{']) '%' X (len P + 1) (by rw [len_append]; rfl)
    simpa using this
  rw [ReplaceBlock, hb]
  simp only [Outcome.ok_bind, if_true]

theorem replaceReference_closed (st : Store) (fuel : Nat) (uid P N S : Str)
    (hN : Contains N "%\x7d".toList = false) :
    ReplaceReference st fuel (P ++ '{' :: '%' :: (N ++ '%' :: '}' :: S)) uid (len P)
      = ReplaceReference.found st fuel (P ++ '{' :: '%' :: (N ++ '%' :: '}' :: S)) uid (len P)
          (len P + 2 + len N) := by
  have e : P ++ '{' :: '%' :: (N ++ '%' :: '}' :: S)
      = (P ++ ['{', '%']) ++ [] ++ N ++ '%' :: '}' :: S := by simp
  unfold ReplaceReference
  rw [e]
  apply replaceReference_loop_scan st fuel uid (len P) (P ++ ['{', '%']) S N [] _ _ hN
  · simp [len]
  · simp [len]
    omega

theorem found_with_space (st : Store) (fuel : Nat) (uid P N S : Str) (hN : ' ' ∈ N) :
    ReplaceReference.found st fuel (P ++ '{' :: '%' :: (N ++ '%' :: '}' :: S)) uid (len P)
          (len P + 2 + len N)
      = .ok (P ++ '{' :: '%' :: (N ++ '%' :: '}' :: S), len P + 2 + len N) := by
  have hs : slice (P ++ '{' :: '%' :: (N ++ '%' :: '}' :: S)) (len P + 2) (len P + 2 + len N)
      = .ok N := by
    have := slice_append_append (P ++ ['{', '%']) N ('%' :: '}' :: S) (len P + 2)
      (len P + 2 + len N) (by rw [len_append]; rfl) (by rw [len_append]; rfl)
    simpa using this
  have hc : Contains N " ".toList = true := (contains_singleton N ' ').2 hN
  rw [ReplaceReference.found, hs]
  simp only [Outcome.ok_bind, hc, not_true_eq_false, if_false, Outcome.pure_eq]

theorem found_without_space (st : Store) (fuel : Nat) (uid P N S value : Str) (hN : ' ' ∉ N)
    (hP : '{' ∉ P) (hv : resolveName st fuel uid N = .ok value) :
    ReplaceReference.found st fuel (P ++ '{' :: '%' :: (N ++ '%' :: '}' :: S)) uid (len P)
          (len P + 2 + len N)
      = .ok (P ++ value ++ S, len P + len value - 1) := by
  have hs : slice (P ++ '{' :: '%' :: (N ++ '%' :: '}' :: S)) (len P + 2) (len P + 2 + len N)
      = .ok N := by
    have := slice_append_append (P ++ ['{', '%']) N ('%' :: '}' :: S) (len P + 2)
      (len P + 2 + len N) (by rw [len_append]; rfl) (by rw [len_append]; rfl)
    simpa using this
  have ho : slice (P ++ '{' :: '%' :: (N ++ '%' :: '}' :: S)) (len P) (len P + 2 + len N + 2)
      = .ok ('{' :: ('%' :: (N ++ ['%', '}']))) := by
    have := slice_append_append P ('{' :: ('%' :: (N ++ ['%', '}']))) S (len P)
      (len P + 2 + len N + 2) rfl (by simp [len]; omega)
    simpa using this
  have hc : Contains N " ".toList = false := by
    cases h : Contains N " ".toList
    · rfl
    · exact absurd ((contains_singleton N ' ').1 h) hN
  have hr := replace1_first P '{' ('%' :: (N ++ ['%', '}'])) value S hP
  simp only [List.append_assoc, List.cons_append, List.nil_append] at hr
  rw [ReplaceReference.found, hs]
  simp only [Outcome.ok_bind, hc, Bool.false_eq_true, not_false_eq_true, if_true, hv, ho,
    Outcome.pure_eq, hr, List.append_assoc]
theorem refText_eq (P N S : Str) :
    P ++ "\x7b%".toList ++ N ++ "%\x7d".toList ++ S = P ++ '{' :: '%' :: (N ++ '%' :: '}' :: S) := by
  simp

theorem scan_simple_ref (st : Store) (uid P N S value : Str) (k : Nat)
    (hP : '{' ∉ P) (hS : '{' ∉ S) (hN1 : ' ' ∉ N) (hN2 : Contains N "%\x7d".toList = false)
    (hv : resolveName st (k + S.length) uid N = .ok value) :
    ReplaceReferences.loop st uid (k + S.length + 1 + 1 + P.length)
        (P ++ '{' :: '%' :: (N ++ '%' :: '}' :: S)) 0
      = .ok (P ++ value ++ S) := by
  have h1 := loop_skip st uid P hP [] ('{' :: '%' :: (N ++ '%' :: '}' :: S))
    (k + S.length + 1 + 1) 0 rfl
  simp only [List.nil_append, zero_add] at h1
  have hb : byteAt (P ++ '{' :: '%' :: (N ++ '%' :: '}' :: S)) (len P) = .ok '{' :=
    byteAt_append_cons P '{' _ _ rfl
  have hlt : len P < len (P ++ '{' :: '%' :: (N ++ '%' :: '}' :: S)) := by
    simp [len]; omega
  have h2 := loop_skip st uid S hS (P ++ value) [] (k + 1) (len P + len value - 1 + 1)
    (by rw [len_append]; omega)
  simp only [List.append_nil] at h2
  have ef : k + S.length + 1 = k + 1 + S.length := by omega
  rw [h1, loop_step_block st uid _ _ _ hb hlt, replaceBlock_simple_ref,
    replaceReference_closed st _ uid P N S hN2, found_without_space st _ uid P N S value hN1 hP hv]
  simp only [Outcome.ok_bind]
  rw [ef, h2]
  exact loop_end st uid _ k _ (by simp [len]; omega)

theorem scan_spaced_ref (st : Store) (uid P N S : Str) (k : Nat)
    (hP : '{' ∉ P) (hS : '{' ∉ S) (hN1 : ' ' ∈ N) (hN2 : Contains N "%\x7d".toList = false) :
    ReplaceReferences.loop st uid (k + (S.length + 1) + 1 + 1 + P.length)
        (P ++ '{' :: '%' :: (N ++ '%' :: '}' :: S)) 0
      = .ok (P ++ '{' :: '%' :: (N ++ '%' :: '}' :: S)) := by
  have h1 := loop_skip st uid P hP [] ('{' :: '%' :: (N ++ '%' :: '}' :: S))
    (k + (S.length + 1) + 1 + 1) 0 rfl
  simp only [List.nil_append, zero_add] at h1
  have hb : byteAt (P ++ '{' :: '%' :: (N ++ '%' :: '}' :: S)) (len P) = .ok '{' :=
    byteAt_append_cons P '{' _ _ rfl
  have hlt : len P < len (P ++ '{' :: '%' :: (N ++ '%' :: '}' :: S)) := by
    simp [len]; omega
  have hS2 : '{' ∉ '}' :: S := by
    simp only [List.mem_cons, not_or]
    exact ⟨by decide, hS⟩
  have h2 := loop_skip st uid ('}' :: S) hS2 (P ++ '{' :: '%' :: (N ++ ['%'])) [] (k + 1)
    (len P + 2 + len N + 1) (by simp [len]; omega)
  have e : P ++ '{' :: '%' :: (N ++ ['%']) ++ '}' :: S ++ []
      = P ++ '{' :: '%' :: (N ++ '%' :: '}' :: S) := by simp
  rw [e, List.length_cons] at h2
  have ef : k + (S.length + 1) + 1 = k + 1 + (S.length + 1) := by omega
  rw [h1, loop_step_block st uid _ _ _ hb hlt, replaceBlock_simple_ref,
    replaceReference_closed st _ uid P N S hN2, found_with_space st _ uid P N S hN1]
  simp only [Outcome.ok_bind]
  rw [ef, h2]
  exact loop_end st uid _ k _ (by simp [len]; omega)

/-! ## Recipient resolution is the only error (C4) -/

/-- C4: `ReplaceReferences` returns a non-nil error `e` together with a text `t`
exactly when the lookup of the recipient id fails with `e`, and then `t` is the
input text; this holds whatever the fuel and whatever the other tables of the
store hold, so nothing else is looked up. -/
theorem replaceReferences_error_iff_recipient_lookup_fails (st : Store) (fuel : Nat)
    (text email : Str) :
    (∀ t e, ReplaceReferences st fuel text email = .ok (t, some e) ↔
      (st.targetId email = .error e ∧ t = text)) ∧
    (∀ e fv vn sc cs, st.targetId email = .error e →
      ReplaceReferences ⟨st.targetId, fv, vn, sc, cs⟩ fuel text email = .ok (text, some e)) := by
  refine ⟨fun t e => ?_, fun e fv vn sc cs h => ?_⟩
  · unfold ReplaceReferences
    cases h : st.targetId email with
    | error err =>
      simp only [Outcome.pure_eq, Outcome.ok.injEq, Prod.mk.injEq, Option.some.injEq,
        Except.error.injEq]
      constructor
      · rintro ⟨h1, h2⟩; exact ⟨h2, h1.symm⟩
      · rintro ⟨h1, h2⟩; exact ⟨h2.symm, h1⟩
    | ok uid =>
      cases hl : ReplaceReferences.loop st uid fuel text 0 <;> simp [hl]
  · simp [ReplaceReferences, h]

/-- C4, on the demo store: an unknown address gives the text back with the error. -/
theorem replaceReferences_error_iff_recipient_lookup_fails_witness :
    ReplaceReferences demoStore 0 "Hello \x7b%firstname%\x7d!".toList "bob@example.org".toList
      = .ok ("Hello \x7b%firstname%\x7d!".toList, some .recordNotFound) :=
  ((replaceReferences_error_iff_recipient_lookup_fails demoStore 0
      "Hello \x7b%firstname%\x7d!".toList "bob@example.org".toList).1 _ _).2 ⟨rfl, rfl⟩

/-! ## Leaf terms of a condition (C7) -/

/-- C7: for a field name of ASCII bytes, `MatchCondition field "==" value` is
true iff the attribute of the lower-cased field exists and equals the literal
(`%20` restored to spaces, quote characters stripped); with `"!="` it is true iff
the attribute exists and differs from the literal; when the attribute lookup
fails the result is false whatever the operator.  (On ASCII names the
lower-cased field is `ToLower field`; the value and the recipient are
arbitrary.) -/
theorem matchCondition_leaf (st : Store) (field value uid : Str)
    (_hascii : isASCII field = true) :
    (MatchCondition st field "==".toList value uid = true ↔
      ∃ v, st.fieldValue uid (ToLower field) = .ok v ∧
        v = ReplaceAll (ReplaceAll value "%20".toList " ".toList) "\"".toList []) ∧
    (MatchCondition st field "!=".toList value uid = true ↔
      ∃ v, st.fieldValue uid (ToLower field) = .ok v ∧
        v ≠ ReplaceAll (ReplaceAll value "%20".toList " ".toList) "\"".toList []) ∧
    (∀ operator e, st.fieldValue uid (ToLower field) = .error e →
      MatchCondition st field operator value uid = false) := by
  refine ⟨?_, ?_, ?_⟩
  · unfold MatchCondition
    cases h : st.fieldValue uid (ToLower field) with
    | error e => simp
    | ok v => simp
  · unfold MatchCondition
    cases h : st.fieldValue uid (ToLower field) with
    | error e => simp
    | ok v => simp
  · intro operator e h
    simp [MatchCondition, h]

/-- C7, on the demo store: `City == "New%20York"` matches Alice, `!=` does not,
and the unknown attribute `zip` matches with neither operator. -/
theorem matchCondition_leaf_witness :
    MatchCondition demoStore "City".toList "==".toList "\"New%20York\"".toList "7".toList = true ∧
    MatchCondition demoStore "City".toList "!=".toList "\"New%20York\"".toList "7".toList = false ∧
    MatchCondition demoStore "zip".toList "==".toList "1".toList "7".toList = false ∧
    MatchCondition demoStore "zip".toList "!=".toList "1".toList "7".toList = false :=
  ⟨(matchCondition_leaf demoStore "City".toList "\"New%20York\"".toList "7".toList
      (by decide)).1.2 ⟨"New York".toList, rfl, by decide⟩,
    by decide,
    (matchCondition_leaf demoStore "zip".toList "1".toList "7".toList (by decide)).2.2 _
      .recordNotFound rfl,
    (matchCondition_leaf demoStore "zip".toList "1".toList "7".toList (by decide)).2.2 _
      .recordNotFound rfl⟩

/-! ## Simple substitution (C2) and whitespace-name rejection (C10) -/

/-- C2: on the text `P + "{%" + N + "%}" + S`, where `P` and `S` hold no `{` and
`N` is a name of ASCII bytes that holds no space and no `%}`, and once the
recipient id is resolved, `ReplaceReferences` returns `P + v + S` when the
recipient has the non-empty attribute value `v` for the lower-cased `N`, and
`P + S` when the lower-cased `N` resolves to neither an attribute (the lookup
fails or gives the empty value) nor a variable (the lookup fails).  (On ASCII
names the lower-cased `N` is `ToLower N`; `P`, `S` and the values are
arbitrary bytes.) -/
theorem simple_substitution (st : Store) (email uid P N S : Str) (fuel : Nat)
    (hid : st.targetId email = .ok uid) (hP : '{' ∉ P) (hS : '{' ∉ S) (hN1 : ' ' ∉ N)
    (hN2 : ¬ "%\x7d".toList <:+: N) (_hascii : isASCII N = true)
    (hfuel : P.length + S.length + 2 ≤ fuel) :
    (∀ v, st.fieldValue uid (ToLower N) = .ok v → v ≠ [] →
      ReplaceReferences st fuel (P ++ "\x7b%".toList ++ N ++ "%\x7d".toList ++ S) email
        = .ok (P ++ v ++ S, none)) ∧
    (∀ e, (∀ v, st.fieldValue uid (ToLower N) = .ok v → v = []) →
      st.variableByName (ToLower N) = .error e →
      ReplaceReferences st fuel (P ++ "\x7b%".toList ++ N ++ "%\x7d".toList ++ S) email
        = .ok (P ++ S, none)) := by
  have hc : Contains N "%\x7d".toList = false := by
    cases h : Contains N "%\x7d".toList
    · rfl
    · exact absurd ((contains_iff N _).1 h) hN2
  obtain ⟨k, rfl⟩ : ∃ k, fuel = k + S.length + 1 + 1 + P.length :=
    ⟨fuel - (P.length + S.length + 2), by omega⟩
  refine ⟨fun v hv hne => ?_, fun e h1 h2 => ?_⟩
  · have hr := resolveName_attribute st (k + S.length) uid N v hv hne
    rw [refText_eq, ReplaceReferences, hid]
    simp only [scan_simple_ref st uid P N S v k hP hS hN1 hc hr, Outcome.ok_bind,
      Outcome.pure_eq]
  · have hr := resolveName_missing st (k + S.length) uid N e h1 h2
    rw [refText_eq, ReplaceReferences, hid]
    simp only [scan_simple_ref st uid P N S [] k hP hS hN1 hc hr, Outcome.ok_bind,
      Outcome.pure_eq, List.append_nil]

/-- C2, on the demo store: `Hello {%firstname%}!` gives `Hello Alice!`, and
`Hello {%nickname%}!`, for a name that is neither an attribute nor a variable,
gives `Hello !`. -/
theorem simple_substitution_witness :
    ReplaceReferences demoStore 9 "Hello \x7b%firstname%\x7d!".toList "alice@example.org".toList
      = .ok ("Hello Alice!".toList, none) ∧
    ReplaceReferences demoStore 9 "Hello \x7b%nickname%\x7d!".toList "alice@example.org".toList
      = .ok ("Hello !".toList, none) :=
  ⟨(simple_substitution demoStore "alice@example.org".toList "7".toList "Hello ".toList
      "firstname".toList "!".toList 9 rfl (by decide) (by decide) (by decide) (by decide)
      (by decide) (by decide)).1 "Alice".toList rfl (by decide),
    (simple_substitution demoStore "alice@example.org".toList "7".toList "Hello ".toList
      "nickname".toList "!".toList 9 rfl (by decide) (by decide) (by decide) (by decide)
      (by decide) (by decide)).2 .recordNotFound
      (fun v h => by simp [demoStore, ToLower] at h) rfl⟩

/-- C10: on the text `P + "{%" + NAME + "%}" + S`, where `P` and `S` hold no `{`
and `NAME` holds a space and no `%}`, and once the recipient id is resolved,
`ReplaceReferences` returns the text unchanged; this holds for every store, so
the result does not depend on any lookup for `NAME`. -/
theorem whitespace_name_rejection (st : Store) (email uid P NAME S : Str) (fuel : Nat)
    (hid : st.targetId email = .ok uid) (hP : '{' ∉ P) (hS : '{' ∉ S) (hsp : ' ' ∈ NAME)
    (hN : ¬ "%\x7d".toList <:+: NAME) (hfuel : P.length + S.length + 3 ≤ fuel) :
    ReplaceReferences st fuel (P ++ "\x7b%".toList ++ NAME ++ "%\x7d".toList ++ S) email
      = .ok (P ++ "\x7b%".toList ++ NAME ++ "%\x7d".toList ++ S, none) := by
  have hc : Contains NAME "%\x7d".toList = false := by
    cases h : Contains NAME "%\x7d".toList
    · rfl
    · exact absurd ((contains_iff NAME _).1 h) hN
  obtain ⟨k, rfl⟩ : ∃ k, fuel = k + (S.length + 1) + 1 + 1 + P.length :=
    ⟨fuel - (P.length + S.length + 3), by omega⟩
  rw [refText_eq, ReplaceReferences, hid]
  simp only [scan_spaced_ref st uid P NAME S k hP hS hsp hc, Outcome.ok_bind, Outcome.pure_eq]

/-- C10, on the demo store: `{% first name %}` is returned unchanged. -/
theorem whitespace_name_rejection_witness :
    ReplaceReferences demoStore 3 "\x7b% first name %\x7d".toList "alice@example.org".toList
      = .ok ("\x7b% first name %\x7d".toList, none) :=
  whitespace_name_rejection demoStore "alice@example.org".toList "7".toList []
    " first name ".toList [] 3 rfl (by decide) (by decide) (by decide) (by decide) (by decide)

/-! ## Boolean left fold (C5) -/

theorem byteAt_zero_cons {α : Type} (a : α) (l : List α) : byteAt (a :: l) 0 = .ok a := rfl
theorem byteAt_one_cons {α : Type} (a b : α) (l : List α) : byteAt (a :: b :: l) 1 = .ok b := rfl
theorem byteAt_two_cons {α : Type} (a b c : α) (l : List α) : byteAt (a :: b :: c :: l) 2 = .ok c := rfl

theorem evaluateExpression_step_tokens (v0 op v : Str) (rest : List Str) :
    ∃ r, EvaluateExpression.step (v0 :: op :: v :: rest) = .ok (r :: rest) ∧
      tokenTruth r = applyOperator op (tokenTruth v0) (tokenTruth v) := by
  simp only [EvaluateExpression.step, byteAt_zero_cons, byteAt_one_cons, byteAt_two_cons,
    Outcome.ok_bind, Outcome.pure_eq, List.drop_succ_cons, List.drop_zero]
  refine ⟨_, rfl, ?_⟩
  unfold applyOperator tokenTruth
  split_ifs <;> simp_all

theorem evaluateExpression_tokenList (v0 : Str) (pairs : List (Str × Str)) (extra : Nat) :
    EvaluateExpression (pairs.length + 1 + extra) (tokenList v0 pairs)
      = .ok (leftFold (tokenTruth v0) pairs, none) := by
  induction pairs generalizing v0 with
  | nil =>
    have : (0 + 1 + extra) = extra + 1 := by omega
    simp only [List.length_nil, this, tokenList, List.flatMap_nil, EvaluateExpression, len,
      List.length_singleton, leftFold]
    simp only [gt_iff_lt, Nat.cast_one, lt_self_iff_false, ↓reduceIte, byteAt_zero_cons,
      Outcome.ok_bind, Outcome.pure_eq, tokenTruth]
    split_ifs <;> simp_all
  | cons p rest ih =>
    obtain ⟨op, v⟩ := p
    obtain ⟨r, hr, ht⟩ := evaluateExpression_step_tokens v0 op v (rest.flatMap (fun p => [p.1, p.2]))
    have e : ((op, v) :: rest).length + 1 + extra = (rest.length + 1 + extra) + 1 := by
      simp; omega
    rw [e]
    have hcons : tokenList v0 ((op, v) :: rest)
        = v0 :: op :: v :: rest.flatMap (fun p => [p.1, p.2]) := by
      simp [tokenList]
    have hl : len (v0 :: op :: v :: rest.flatMap (fun p => [p.1, p.2])) > 1 := by
      unfold len
      simp only [List.length_cons]
      push_cast
      omega
    rw [hcons]
    unfold EvaluateExpression
    rw [if_pos hl, hr]
    simp only [Outcome.ok_bind]
    have := ih r
    simp only [tokenList] at this
    rw [this, leftFold, ht]

/-- C5: on every token list `[v0, op1, v1, ..., opk, vk]`, with any fuel of at
least `k + 1`, `EvaluateExpression` returns the strict left-to-right fold, where
a token is true only if it is exactly `true`, `and` / `or` are matched in any
letter case and any other operator yields false; and `true OR false AND false`
evaluates to false, which is `(true OR false) AND false`. -/
theorem evaluateExpression_left_fold (v0 : Str) (pairs : List (Str × Str)) (extra : Nat)
    (st : Store) (uid : Str) :
    EvaluateExpression (pairs.length + 1 + extra) (tokenList v0 pairs)
      = .ok (leftFold (tokenTruth v0) pairs, none) ∧
    SplitComplexCondition st (extra + 7) "true OR false AND false".toList uid
      = .ok (false, none) ∧
    leftFold (tokenTruth "true".toList)
        [("OR".toList, "false".toList), ("AND".toList, "false".toList)]
      = ((true || false) && false) :=
  ⟨evaluateExpression_tokenList v0 pairs extra, rfl, by decide⟩

/-! ## `EvaluateExpression`: more fuel changes nothing, enough fuel ends the loop -/

theorem evaluateExpression_succ (fuel : Nat) (elements : List Str) :
    EvaluateExpression (fuel + 1) elements =
      if len elements > 1 then
        EvaluateExpression.step elements >>= fun e => EvaluateExpression fuel e
      else
        byteAt elements 0 >>= fun e0 =>
          if e0 = "true".toList then .ok (true, none) else .ok (false, none) := by
  rw [EvaluateExpression]
  rfl

theorem evaluateExpression_mono (fuel : Nat) :
    ∀ (elements : List Str) (r : Outcome (Bool × Option GoError)),
      EvaluateExpression fuel elements = r → r ≠ .outOfFuel →
      EvaluateExpression (fuel + 1) elements = r := by
  induction fuel with
  | zero => intro elements r h hr; rw [EvaluateExpression] at h; exact absurd h.symm hr
  | succ n ih =>
    intro elements r h hr
    rw [evaluateExpression_succ] at h ⊢
    by_cases hl : len elements > 1
    · rw [if_pos hl] at h ⊢
      cases hs : EvaluateExpression.step elements with
      | ok e =>
        rw [hs] at h
        simp only [Outcome.ok_bind] at h ⊢
        exact ih e r h hr
      | panic => rw [hs] at h; exact h
      | outOfFuel => rw [hs] at h; exact h
    · rw [if_neg hl] at h ⊢
      exact h

theorem evaluateExpression_step_length (elements e : List Str)
    (h : EvaluateExpression.step elements = .ok e) : e.length + 2 = elements.length := by
  match elements, h with
  | [], h => simp [EvaluateExpression.step, byteAt] at h
  | [_], h => simp [EvaluateExpression.step, byteAt] at h
  | [_, _], h => simp [EvaluateExpression.step, byteAt] at h
  | a :: b :: c :: rest, h =>
    simp only [EvaluateExpression.step, byteAt_zero_cons, byteAt_one_cons, byteAt_two_cons,
      Outcome.ok_bind, Outcome.pure_eq, List.drop_succ_cons, List.drop_zero,
      Outcome.ok.injEq] at h
    subst h
    simp

theorem evaluateExpression_step_ne (elements : List Str) :
    EvaluateExpression.step elements ≠ .outOfFuel := by
  match elements with
  | [] => simp [EvaluateExpression.step, byteAt]
  | [_] => simp [EvaluateExpression.step, byteAt]
  | [_, _] => simp [EvaluateExpression.step, byteAt]
  | a :: b :: c :: rest =>
    simp [EvaluateExpression.step, byteAt_zero_cons, byteAt_one_cons, byteAt_two_cons]

theorem byteAt_ne_outOfFuel {α : Type} (s : List α) (i : Int) : byteAt s i ≠ .outOfFuel := by
  unfold byteAt
  split_ifs
  · cases s.get? i.toNat <;> simp
  · simp

theorem slice_ne_outOfFuel {α : Type} (s : List α) (a b : Int) : slice s a b ≠ .outOfFuel := by
  unfold slice
  split_ifs <;> simp

theorem evaluateExpression_terminates (fuel : Nat) :
    ∀ (elements : List Str), elements.length < fuel →
      EvaluateExpression fuel elements ≠ .outOfFuel := by
  induction fuel with
  | zero => intro elements h; omega
  | succ n ih =>
    intro elements h
    rw [evaluateExpression_succ]
    by_cases hl : len elements > 1
    · rw [if_pos hl]
      cases hs : EvaluateExpression.step elements with
      | ok e =>
        simp only [Outcome.ok_bind]
        exact ih e (by have := evaluateExpression_step_length _ _ hs; omega)
      | panic => simp
      | outOfFuel => exact absurd hs (evaluateExpression_step_ne _)
    · rw [if_neg hl]
      cases hb : byteAt elements 0 with
      | ok e0 => simp only [Outcome.ok_bind]; split_ifs <;> simp
      | panic => simp
      | outOfFuel => exact absurd hb (byteAt_ne_outOfFuel _ _)

/-! ## The parenthesis-free branch of `SplitComplexCondition` -/

theorem byteAt_ok_bounds {α : Type} (s : List α) (i : Int) (c : α) (h : byteAt s i = .ok c) :
    0 ≤ i ∧ i < len s := by
  unfold byteAt at h
  by_cases h0 : 0 ≤ i
  · rw [if_pos h0] at h
    refine ⟨h0, ?_⟩
    cases hg : s.get? i.toNat with
    | none => rw [hg] at h; simp at h
    | some x =>
      have := List.get?_eq_some.1 hg
      obtain ⟨hlt, _⟩ := this
      unfold len
      omega
  · rw [if_neg h0] at h
    simp at h

theorem flatLoop_succ (st : Store) (uid : Str) (fuel : Nat) (elements : List Str) (i : Int) :
    SplitComplexCondition.flatLoop st uid (fuel + 1) elements i =
      if i < len elements then
        byteAt elements i >>= fun e =>
          if startsLeaf e then
            byteAt elements (i + 1) >>= fun operator =>
            byteAt elements (i + 2) >>= fun value =>
            SplitComplexCondition.flatLoop st uid fuel
              (elements.take i.toNat ++
                FormatBool (MatchCondition st e operator value uid) :: elements.drop (i.toNat + 3))
              (i + 1)
          else SplitComplexCondition.flatLoop st uid fuel elements (i + 1)
      else .ok elements := by
  rw [SplitComplexCondition.flatLoop]
  rfl

theorem flatLoop_mono (st : Store) (uid : Str) (fuel : Nat) :
    ∀ (elements : List Str) (i : Int) (r : Outcome (List Str)),
      SplitComplexCondition.flatLoop st uid fuel elements i = r → r ≠ .outOfFuel →
      SplitComplexCondition.flatLoop st uid (fuel + 1) elements i = r := by
  induction fuel with
  | zero =>
    intro elements i r h hr
    rw [SplitComplexCondition.flatLoop] at h
    exact absurd h.symm hr
  | succ n ih =>
    intro elements i r h hr
    rw [flatLoop_succ] at h ⊢
    by_cases hl : i < len elements
    · rw [if_pos hl] at h ⊢
      cases hb : byteAt elements i with
      | ok e =>
        rw [hb] at h
        simp only [Outcome.ok_bind] at h ⊢
        by_cases hleaf : startsLeaf e
        · rw [if_pos hleaf] at h ⊢
          cases hb1 : byteAt elements (i + 1) with
          | ok operator =>
            rw [hb1] at h
            simp only [Outcome.ok_bind] at h ⊢
            cases hb2 : byteAt elements (i + 2) with
            | ok value =>
              rw [hb2] at h
              simp only [Outcome.ok_bind] at h ⊢
              exact ih _ _ r h hr
            | panic => rw [hb2] at h; exact h
            | outOfFuel => rw [hb2] at h; exact h
          | panic => rw [hb1] at h; exact h
          | outOfFuel => rw [hb1] at h; exact h
        · rw [if_neg hleaf] at h ⊢
          exact ih _ _ r h hr
      | panic => rw [hb] at h; exact h
      | outOfFuel => rw [hb] at h; exact h
    · rw [if_neg hl] at h ⊢
      exact h

theorem flatLoop_terminates (st : Store) (uid : Str) (fuel : Nat) :
    ∀ (elements : List Str) (i : Int), len elements - i < fuel → 1 ≤ fuel →
      SplitComplexCondition.flatLoop st uid fuel elements i ≠ .outOfFuel ∧
      ∀ e, SplitComplexCondition.flatLoop st uid fuel elements i = .ok e →
        e.length ≤ elements.length := by
  induction fuel with
  | zero =>
    intro elements i _ h1
    omega
  | succ n ih =>
    intro elements i h _
    rw [flatLoop_succ]
    by_cases hl : i < len elements
    · rw [if_pos hl]
      cases hb : byteAt elements i with
      | ok e =>
        simp only [Outcome.ok_bind]
        by_cases hleaf : startsLeaf e
        · rw [if_pos hleaf]
          cases hb1 : byteAt elements (i + 1) with
          | ok operator =>
            simp only [Outcome.ok_bind]
            cases hb2 : byteAt elements (i + 2) with
            | ok value =>
              simp only [Outcome.ok_bind]
              have h0 := (byteAt_ok_bounds _ _ _ hb).1
              have h2 := (byteAt_ok_bounds _ _ _ hb2).2
              have hlen : (elements.take i.toNat ++
                  FormatBool (MatchCondition st e operator value uid) ::
                    elements.drop (i.toNat + 3)).length + 2 = elements.length := by
                unfold len at h2
                simp only [List.length_append, List.length_take, List.length_cons,
                  List.length_drop]
                omega
              have := ih (elements.take i.toNat ++
                  FormatBool (MatchCondition st e operator value uid) ::
                    elements.drop (i.toNat + 3)) (i + 1) (by unfold len at h h2 ⊢; omega)
                (by unfold len at h h2; omega)
              refine ⟨this.1, fun e2 he2 => ?_⟩
              have := this.2 e2 he2
              omega
            | panic => simp
            | outOfFuel => exact absurd hb2 (byteAt_ne_outOfFuel _ _)
          | panic => simp
          | outOfFuel => exact absurd hb1 (byteAt_ne_outOfFuel _ _)
        · rw [if_neg hleaf]
          exact ih elements (i + 1) (by omega) (by omega)
      | panic => simp
      | outOfFuel => exact absurd hb (byteAt_ne_outOfFuel _ _)
    · rw [if_neg hl]
      simp
theorem split_length (sep : Char) (s : Str) : (Split sep s).length ≤ s.length + 1 := by
  induction s with
  | nil => simp [Split]
  | cons c s ih =>
    rw [Split]
    split_ifs
    · simp; omega
    · cases h : Split sep s with
      | nil => simp
      | cons w ws => rw [h] at ih; simp at ih ⊢; omega

theorem split_flat_succ (st : Store) (uid : Str) (fuel : Nat) (condition : Str)
    (h : Count condition '(' = 0) :
    SplitComplexCondition st (fuel + 1) condition uid =
      (SplitComplexCondition.flatLoop st uid fuel (Split ' ' condition) 0 >>= fun elements =>
        EvaluateExpression fuel elements) := by
  rw [SplitComplexCondition, if_pos h]

theorem split_flat_mono (st : Store) (uid : Str) (fuel : Nat) (condition : Str)
    (h : Count condition '(' = 0) (r : Outcome (Bool × Option GoError))
    (hs : SplitComplexCondition st fuel condition uid = r) (hr : r ≠ .outOfFuel) :
    SplitComplexCondition st (fuel + 1) condition uid = r := by
  cases fuel with
  | zero => rw [SplitComplexCondition] at hs; exact absurd hs.symm hr
  | succ n =>
    rw [split_flat_succ st uid _ _ h] at hs ⊢
    cases hf : SplitComplexCondition.flatLoop st uid n (Split ' ' condition) 0 with
    | ok e =>
      rw [hf] at hs
      rw [flatLoop_mono st uid n _ _ _ hf (by simp)]
      simp only [Outcome.ok_bind] at hs ⊢
      exact evaluateExpression_mono n e r hs hr
    | panic =>
      rw [hf] at hs
      rw [flatLoop_mono st uid n _ _ _ hf (by simp)]
      exact hs
    | outOfFuel => rw [hf] at hs; exact absurd hs.symm hr

theorem split_flat_mono_le (st : Store) (uid : Str) (condition : Str)
    (h : Count condition '(' = 0) (r : Outcome (Bool × Option GoError)) (hr : r ≠ .outOfFuel)
    (f1 f2 : Nat) (hle : f1 ≤ f2)
    (hs : SplitComplexCondition st f1 condition uid = r) :
    SplitComplexCondition st f2 condition uid = r := by
  induction f2 with
  | zero =>
    have : f1 = 0 := by omega
    subst this
    exact hs
  | succ n ih =>
    by_cases e : f1 = n + 1
    · subst e; exact hs
    · exact split_flat_mono st uid n condition h r (ih (by omega)) hr

theorem split_flat_terminates (st : Store) (uid : Str) (fuel : Nat) (condition : Str)
    (h : Count condition '(' = 0) (hf : condition.length + 2 < fuel) :
    SplitComplexCondition st fuel condition uid ≠ .outOfFuel := by
  obtain ⟨n, rfl⟩ : ∃ n, fuel = n + 1 := ⟨fuel - 1, by omega⟩
  rw [split_flat_succ st uid _ _ h]
  have hl := split_length ' ' condition
  have ht := flatLoop_terminates st uid n (Split ' ' condition) 0
    (by unfold len; omega) (by omega)
  cases hfl : SplitComplexCondition.flatLoop st uid n (Split ' ' condition) 0 with
  | ok e =>
    simp only [Outcome.ok_bind]
    have := ht.2 e hfl
    exact evaluateExpression_terminates n e (by omega)
  | panic => simp
  | outOfFuel => exact absurd hfl ht.1

/-! ## The parenthesised loop of `SplitComplexCondition`, byte by byte -/

theorem parenLoop_succ (rec : Str → Outcome (Bool × Option GoError)) (fuel : Nat)
    (condition : Str) (i : Int) (stack : List Int) :
    SplitComplexCondition.parenLoop rec (fuel + 1) condition i stack =
      if i < len condition then
        byteAt condition i >>= fun c =>
          if c = '(' then
            SplitComplexCondition.parenLoop rec fuel condition (i + 1) (stack ++ [i])
          else if c = ')' then
            byteAt stack (len stack - 1) >>= fun start_block =>
            slice condition (start_block + 1) i >>= fun inner =>
            rec inner >>= fun p =>
            slice condition 0 start_block >>= fun pre =>
            slice condition (i + 1) (len condition) >>= fun post =>
            slice stack 0 (len stack - 1) >>= fun stack =>
            SplitComplexCondition.parenLoop rec fuel (pre ++ replacementOf p ++ post)
              ((if replacementOf p = "true".toList then start_block + 3 else start_block + 4) + 1)
              stack
          else SplitComplexCondition.parenLoop rec fuel condition (i + 1) stack
      else .ok (condition, stack) := by
  rw [SplitComplexCondition.parenLoop]
  rfl

theorem slice_append_left {α : Type} (s x : List α) (a b : Int) (hb : b ≤ len s) :
    slice (s ++ x) a b = slice s a b := by
  unfold slice
  by_cases h : 0 ≤ a ∧ a ≤ b ∧ b ≤ len s
  · have h2 : 0 ≤ a ∧ a ≤ b ∧ b ≤ len (s ++ x) := by
      refine ⟨h.1, h.2.1, ?_⟩
      rw [len_append]
      have := len_nonneg x
      omega
    rw [if_pos h, if_pos h2]
    congr 1
    have hbn : b.toNat ≤ s.length := by unfold len at hb; omega
    rw [List.drop_append_eq_append_drop, List.take_append_eq_append_take]
    have e1 : b.toNat - a.toNat - (List.drop a.toNat s).length = 0 := by
      simp only [List.length_drop]; omega
    have e2 : a.toNat - s.length = 0 := by
      obtain ⟨h0, h1, _⟩ := h
      unfold len at hb
      omega
    rw [e1, e2]
    simp
  · have h2 : ¬ (0 ≤ a ∧ a ≤ b ∧ b ≤ len (s ++ x)) := by
      intro h3
      exact h ⟨h3.1, h3.2.1, hb⟩
    rw [if_neg h, if_neg h2]

theorem slice_suffix {α : Type} (s x : List α) (a b : Int) (ha : a = len s)
    (hb : b = len (s ++ x)) : slice (s ++ x) a b = .ok x := by
  have := slice_append_append s x [] a b ha (by rw [hb, len_append])
  simpa using this

theorem slice_ok_length {α : Type} (s r : List α) (a b : Int) (h : slice s a b = .ok r) :
    0 ≤ a ∧ a ≤ b ∧ b ≤ len s ∧ len r = b - a := by
  unfold slice at h
  by_cases hc : 0 ≤ a ∧ a ≤ b ∧ b ≤ len s
  · rw [if_pos hc] at h
    simp only [Outcome.ok.injEq] at h
    subst h
    refine ⟨hc.1, hc.2.1, hc.2.2, ?_⟩
    obtain ⟨h0, h1, h2⟩ := hc
    unfold len at h2 ⊢
    simp only [List.length_take, List.length_drop]
    omega
  · rw [if_neg hc] at h
    simp at h

theorem replacementOf_cases (p : Bool × Option GoError) :
    replacementOf p = "true".toList ∨ replacementOf p = "false".toList := by
  unfold replacementOf FormatBool
  split_ifs <;> simp

theorem parenLoop_step (rec : Str → Outcome (Bool × Option GoError)) (fuel : Nat)
    (done todo : Str) (c : Char) (stack : List Int) :
    SplitComplexCondition.parenLoop rec (fuel + 1) (done ++ c :: todo) (len done) stack =
      (parenStep rec done stack c >>= fun s =>
        SplitComplexCondition.parenLoop rec fuel (s.1 ++ todo) (len s.1) s.2) := by
  have hlt : len done < len (done ++ c :: todo) := by
    simp [len]
  have hb : byteAt (done ++ c :: todo) (len done) = .ok c := byteAt_append_cons _ _ _ _ rfl
  have e1 : done ++ c :: todo = (done ++ [c]) ++ todo := by simp
  have e2 : len done + 1 = len (done ++ [c]) := by rw [len_append]; rfl
  rw [parenLoop_succ, if_pos hlt, hb]
  simp only [Outcome.ok_bind]
  unfold parenStep
  by_cases h1 : c = '('
  · rw [if_pos h1, if_pos h1]
    simp only [Outcome.ok_bind]
    rw [e1, e2]
  · rw [if_neg h1, if_neg h1]
    by_cases h2 : c = ')'
    · rw [if_pos h2, if_pos h2]
      cases hs : byteAt stack (len stack - 1) with
      | ok start_block =>
        simp only [Outcome.ok_bind]
        rw [slice_append_left done (c :: todo) _ _ (le_refl _)]
        cases hi : slice done (start_block + 1) (len done) with
        | ok inner =>
          simp only [Outcome.ok_bind]
          cases hr : rec inner with
          | ok p =>
            simp only [Outcome.ok_bind]
            have hbnd := slice_ok_length _ _ _ _ hi
            rw [slice_append_left done (c :: todo) 0 start_block (by omega)]
            cases hp : slice done 0 start_block with
            | ok pre =>
              simp only [Outcome.ok_bind]
              have hpost : slice (done ++ c :: todo) (len done + 1) (len (done ++ c :: todo))
                  = .ok todo := by
                rw [e1]
                exact slice_suffix (done ++ [c]) todo _ _ e2 rfl
              rw [hpost]
              simp only [Outcome.ok_bind]
              cases hst : slice stack 0 (len stack - 1) with
              | ok stack2 =>
                simp only [Outcome.ok_bind]
                have hpl := (slice_ok_length _ _ _ _ hp).2.2.2
                have hi2 : (if replacementOf p = "true".toList then start_block + 3
                    else start_block + 4) + 1 = len (pre ++ replacementOf p) := by
                  rw [len_append, hpl]
                  rcases replacementOf_cases p with h | h
                  · rw [h, if_pos rfl]; simp [len]; omega
                  · rw [h, if_neg (by decide)]; simp [len]; omega
                rw [hi2]
              | panic => simp
              | outOfFuel => simp
            | panic => simp
            | outOfFuel => simp
          | panic => simp
          | outOfFuel => simp
        | panic => simp
        | outOfFuel => simp
      | panic => simp
      | outOfFuel => simp
    · rw [if_neg h2, if_neg h2]
      simp only [Outcome.ok_bind]
      rw [e1, e2]

theorem parenLoop_eq_parenRun (rec : Str → Outcome (Bool × Option GoError)) :
    ∀ (todo done : Str) (stack : List Int) (fuel : Nat), todo.length < fuel →
      SplitComplexCondition.parenLoop rec fuel (done ++ todo) (len done) stack
        = parenRun rec done stack todo := by
  intro todo
  induction todo with
  | nil =>
    intro done stack fuel hf
    obtain ⟨n, rfl⟩ : ∃ n, fuel = n + 1 := ⟨fuel - 1, by simp at hf; omega⟩
    rw [parenLoop_succ, if_neg (by simp), parenRun]
    simp
  | cons c todo ih =>
    intro done stack fuel hf
    obtain ⟨n, rfl⟩ : ∃ n, fuel = n + 1 := ⟨fuel - 1, by simp at hf; omega⟩
    rw [parenLoop_step, parenRun]
    cases hs : parenStep rec done stack c with
    | ok s =>
      simp only [Outcome.ok_bind]
      exact ih s.1 s.2 n (by simp at hf; omega)
    | panic => simp
    | outOfFuel => simp

theorem parenRun_append (rec : Str → Outcome (Bool × Option GoError)) :
    ∀ (x y done : Str) (stack : List Int),
      parenRun rec done stack (x ++ y)
        = (parenRun rec done stack x >>= fun s => parenRun rec s.1 s.2 y) := by
  intro x
  induction x with
  | nil => intro y done stack; simp [parenRun]
  | cons c x ih =>
    intro y done stack
    rw [List.cons_append, parenRun, parenRun]
    cases hs : parenStep rec done stack c with
    | ok s => simp only [Outcome.ok_bind]; exact ih y s.1 s.2
    | panic => simp
    | outOfFuel => simp

theorem parenRun_plain (rec : Str → Outcome (Bool × Option GoError)) :
    ∀ (x done : Str) (stack : List Int), '(' ∉ x → ')' ∉ x →
      parenRun rec done stack x = .ok (done ++ x, stack) := by
  intro x
  induction x with
  | nil => intro done stack _ _; simp [parenRun]
  | cons c x ih =>
    intro done stack h1 h2
    have c1 : c ≠ '(' := fun e => h1 (by simp [e])
    have c2 : c ≠ ')' := fun e => h2 (by simp [e])
    have x1 : '(' ∉ x := fun e => h1 (by simp [e])
    have x2 : ')' ∉ x := fun e => h2 (by simp [e])
    rw [parenRun, parenStep, if_neg c1, if_neg c2]
    simp only [Outcome.ok_bind]
    rw [ih _ _ x1 x2]
    simp

theorem formatBool_plain (b : Bool) : '(' ∉ FormatBool b ∧ ')' ∉ FormatBool b := by
  cases b <;> simp [FormatBool]

theorem parenRun_group (rec : Str → Outcome (Bool × Option GoError)) (A done : Str)
    (stack : List Int) (b : Bool) (h1 : '(' ∉ A) (h2 : ')' ∉ A)
    (hA : rec A = .ok (b, none)) :
    parenRun rec done stack ('(' :: (A ++ [')'])) = .ok (done ++ FormatBool b, stack) := by
  have hstep : parenStep rec (done ++ '(' :: A) (stack ++ [len done]) ')'
      = .ok (done ++ FormatBool b, stack) := by
    have hb : byteAt (stack ++ [len done]) (len (stack ++ [len done]) - 1) = .ok (len done) :=
      byteAt_append_cons stack (len done) [] _ (by rw [len_append]; simp [len])
    have hi : slice (done ++ '(' :: A) (len done + 1) (len (done ++ '(' :: A)) = .ok A := by
      have := slice_suffix (done ++ ['(']) A (len done + 1) (len (done ++ '(' :: A))
        (by rw [len_append]; rfl) (by simp)
      simpa using this
    have hp : slice (done ++ '(' :: A) 0 (len done) = .ok done := by
      have := slice_append_append [] done ('(' :: A) 0 (len done) rfl (by simp [len])
      simpa using this
    have hs : slice (stack ++ [len done]) 0 (len (stack ++ [len done]) - 1) = .ok stack := by
      have := slice_append_append [] stack [len done] 0 (len (stack ++ [len done]) - 1) rfl
        (by rw [len_append]; simp [len])
      simpa using this
    rw [parenStep, if_neg (by decide), if_pos rfl, hb]
    simp only [Outcome.ok_bind, hi, hA, hp, hs, replacementOf]
    simp
  rw [parenRun, parenStep, if_pos rfl]
  simp only [Outcome.ok_bind]
  rw [parenRun_append, parenRun_plain rec A _ _ h1 h2]
  simp only [Outcome.ok_bind]
  have e : done ++ ['('] ++ A = done ++ '(' :: A := by simp
  rw [e]
  simp only [parenRun, hstep, Outcome.ok_bind]

theorem parenRun_reduction (rec : Str → Outcome (Bool × Option GoError)) (L A R done : Str)
    (stack : List Int) (b : Bool) (h1 : '(' ∉ A) (h2 : ')' ∉ A)
    (hA : rec A = .ok (b, none)) :
    parenRun rec done stack (L ++ '(' :: (A ++ [')']) ++ R)
      = parenRun rec done stack (L ++ FormatBool b ++ R) := by
  rw [List.append_assoc, parenRun_append, List.append_assoc L, parenRun_append rec L]
  cases hL : parenRun rec done stack L with
  | ok s =>
    simp only [Outcome.ok_bind]
    rw [parenRun_append, parenRun_group rec A s.1 s.2 b h1 h2 hA, parenRun_append,
      parenRun_plain rec (FormatBool b) s.1 s.2 (formatBool_plain b).1 (formatBool_plain b).2]
  | panic => simp
  | outOfFuel => simp

/-! ## A parenthesised group and its truth value -/

theorem count_eq_zero_iff (s : Str) (c : Char) : Count s c = 0 ↔ c ∉ s := by
  unfold Count
  rw [Int.natCast_eq_zero]
  exact List.count_eq_zero

theorem properlyNested_go_count :
    ∀ (s : Str) (d : Nat), properlyNested.go d s = true → '(' ∉ s → s.count ')' = d := by
  intro s
  induction s with
  | nil =>
    intro d h _
    simp only [properlyNested.go, beq_iff_eq] at h
    simp [h]
  | cons c s ih =>
    intro d h h1
    have c1 : c ≠ '(' := fun e => h1 (by simp [e])
    have s1 : '(' ∉ s := fun e => h1 (by simp [e])
    rw [properlyNested.go, if_neg c1] at h
    by_cases c2 : c = ')'
    · rw [if_pos c2] at h
      by_cases d0 : d = 0
      · rw [if_pos d0] at h
        simp at h
      · rw [if_neg d0] at h
        rw [c2, List.count_cons_self, ih (d - 1) h s1]
        omega
    · rw [if_neg c2] at h
      rw [List.count_cons_of_ne (fun e => c2 e.symm), ih d h s1]

theorem properlyNested_plain (s : Str) (h : properlyNested s = true) (h1 : '(' ∉ s) :
    ')' ∉ s :=
  List.count_eq_zero.1 (properlyNested_go_count s 0 h h1)

theorem split_paren_succ (st : Store) (uid : Str) (fuel : Nat) (condition : Str)
    (h : Count condition '(' ≠ 0) :
    SplitComplexCondition st (fuel + 1) condition uid =
      (SplitComplexCondition.parenLoop (fun c => SplitComplexCondition st fuel c uid)
          fuel condition 0 [] >>= fun p =>
        if len p.2 > 0 then .ok (false, none)
        else SplitComplexCondition st fuel p.1 uid) := by
  rw [SplitComplexCondition, if_neg h]
  rfl

theorem split_paren_run (st : Store) (uid : Str) (fuel : Nat) (condition : Str)
    (h : Count condition '(' ≠ 0) (hf : condition.length < fuel) :
    SplitComplexCondition st (fuel + 1) condition uid =
      (parenRun (fun c => SplitComplexCondition st fuel c uid) [] [] condition >>= fun p =>
        if len p.2 > 0 then .ok (false, none)
        else SplitComplexCondition st fuel p.1 uid) := by
  rw [split_paren_succ st uid fuel condition h]
  have := parenLoop_eq_parenRun (fun c => SplitComplexCondition st fuel c uid)
    condition [] [] fuel hf
  simp only [List.nil_append] at this
  rw [show (0 : Int) = len ([] : Str) from rfl, this]

theorem formatBool_length (b : Bool) : (FormatBool b).length ≤ 5 := by
  cases b <;> simp [FormatBool]

theorem split_reduction_eq (st : Store) (uid L A R : Str) (b : Bool) (fA F : Nat)
    (h1 : '(' ∉ A) (h2 : ')' ∉ A)
    (hA : SplitComplexCondition st fA A uid = .ok (b, none))
    (hLR : properlyNested (L ++ R) = true)
    (hF1 : fA ≤ F) (hF2 : L.length + A.length + R.length + 2 < F)
    (hF3 : L.length + R.length + 7 < F) :
    SplitComplexCondition st (F + 1) (L ++ '(' :: (A ++ [')']) ++ R) uid
      = SplitComplexCondition st (F + 1) (L ++ FormatBool b ++ R) uid := by
  have hAF : SplitComplexCondition st F A uid = .ok (b, none) :=
    split_flat_mono_le st uid A ((count_eq_zero_iff A '(').2 h1) _ (by simp) fA F hF1 hA
  have hlhs : Count (L ++ '(' :: (A ++ [')']) ++ R) '(' ≠ 0 := by
    rw [Ne, count_eq_zero_iff]
    simp
  have hb5 := formatBool_length b
  rw [split_paren_run st uid F _ hlhs (by simp; omega),
    parenRun_reduction (fun c => SplitComplexCondition st F c uid) L A R [] [] b h1 h2 hAF]
  by_cases hrhs : Count (L ++ FormatBool b ++ R) '(' = 0
  · have hmem := (count_eq_zero_iff _ _).1 hrhs
    have hL1 : '(' ∉ L := fun e => hmem (by simp [e])
    have hR1 : '(' ∉ R := fun e => hmem (by simp [e])
    have hLR2 : ')' ∉ L ++ R := properlyNested_plain (L ++ R) hLR
      (by simp only [List.mem_append, not_or]; exact ⟨hL1, hR1⟩)
    have hL2 : ')' ∉ L := fun e => hLR2 (by simp [e])
    have hR2 : ')' ∉ R := fun e => hLR2 (by simp [e])
    have hmem2 : ')' ∉ L ++ FormatBool b ++ R := by
      simp only [List.mem_append, not_or]
      exact ⟨⟨hL2, (formatBool_plain b).2⟩, hR2⟩
    rw [parenRun_plain _ _ _ _ hmem hmem2]
    simp only [Outcome.ok_bind, List.nil_append, len, List.length_nil, Nat.cast_zero,
      gt_iff_lt, lt_self_iff_false, if_false]
    have ht := split_flat_terminates st uid F (L ++ FormatBool b ++ R) hrhs
      (by simp; omega)
    exact (split_flat_mono st uid F _ hrhs _ rfl ht).symm
  · rw [split_paren_run st uid F _ hrhs (by simp; omega)]

/-! ## `SplitComplexCondition` ends on every condition -/

theorem parenInv_append (done : Str) (stack : List Int) (x : Str) (h : ParenInv done stack)
    (hx : '(' ∉ x) : ParenInv (done ++ x) stack := by
  cases h with
  | flat s hs =>
    exact ParenInv.flat _ (by simp only [List.mem_append, not_or]; exact ⟨hs, hx⟩)
  | opened d0 s0 seg h0 hseg =>
    have e : d0 ++ '(' :: seg ++ x = d0 ++ '(' :: (seg ++ x) := by simp
    rw [e]
    exact ParenInv.opened d0 s0 (seg ++ x) h0
      (by simp only [List.mem_append, not_or]; exact ⟨hseg, hx⟩)

theorem parenInv_nil_stack (done : Str) (h : ParenInv done []) : '(' ∉ done := by
  generalize hs : ([] : List Int) = stack at h
  cases h with
  | flat s h1 => exact h1
  | opened d0 s0 seg h0 hseg => simp at hs

theorem replacementOf_plain (p : Bool × Option GoError) : '(' ∉ replacementOf p := by
  rcases replacementOf_cases p with h | h <;> rw [h] <;> decide

theorem replacementOf_length (p : Bool × Option GoError) : (replacementOf p).length ≤ 5 := by
  rcases replacementOf_cases p with h | h <;> rw [h] <;> decide

theorem parenStep_close_opened (rec : Str → Outcome (Bool × Option GoError))
    (done seg : Str) (stack : List Int) :
    parenStep rec (done ++ '(' :: seg) (stack ++ [len done]) ')'
      = (rec seg >>= fun p => .ok (done ++ replacementOf p, stack)) := by
  have hb : byteAt (stack ++ [len done]) (len (stack ++ [len done]) - 1) = .ok (len done) :=
    byteAt_append_cons stack (len done) [] _ (by rw [len_append]; simp [len])
  have hi : slice (done ++ '(' :: seg) (len done + 1) (len (done ++ '(' :: seg)) = .ok seg := by
    have := slice_suffix (done ++ ['(']) seg (len done + 1) (len (done ++ '(' :: seg))
      (by rw [len_append]; rfl) (by simp)
    simpa using this
  have hp : slice (done ++ '(' :: seg) 0 (len done) = .ok done := by
    have := slice_append_append [] done ('(' :: seg) 0 (len done) rfl (by simp [len])
    simpa using this
  have hs : slice (stack ++ [len done]) 0 (len (stack ++ [len done]) - 1) = .ok stack := by
    have := slice_append_append [] stack [len done] 0 (len (stack ++ [len done]) - 1) rfl
      (by rw [len_append]; simp [len])
    simpa using this
  rw [parenStep, if_neg (by decide), if_pos rfl, hb]
  simp only [Outcome.ok_bind, hi]
  cases rec seg with
  | ok p => simp only [Outcome.ok_bind, hp, hs]
  | panic => simp
  | outOfFuel => simp

theorem parenStep_close_flat (rec : Str → Outcome (Bool × Option GoError)) (done : Str) :
    parenStep rec done [] ')' = .panic := by
  rw [parenStep, if_neg (by decide), if_pos rfl]
  rfl

theorem split_flat_stable (st : Store) (uid : Str) (condition : Str)
    (h : Count condition '(' = 0) (f1 f2 : Nat) (h1 : condition.length + 2 < f1)
    (h2 : condition.length + 2 < f2) :
    SplitComplexCondition st f1 condition uid = SplitComplexCondition st f2 condition uid := by
  rcases le_total f1 f2 with hle | hle
  · exact (split_flat_mono_le st uid condition h _
      (split_flat_terminates st uid f1 condition h h1) f1 f2 hle rfl).symm
  · exact split_flat_mono_le st uid condition h _
      (split_flat_terminates st uid f2 condition h h2) f2 f1 hle rfl

theorem parenRun_stable (st : Store) (uid : Str) (f1 f2 : Nat) :
    ∀ (todo done : Str) (stack : List Int), ParenInv done stack →
      done.length + 5 * todo.length + 2 < f1 → done.length + 5 * todo.length + 2 < f2 →
      parenRun (fun c => SplitComplexCondition st f1 c uid) done stack todo
        = parenRun (fun c => SplitComplexCondition st f2 c uid) done stack todo ∧
      parenRun (fun c => SplitComplexCondition st f1 c uid) done stack todo ≠ .outOfFuel ∧
      ∀ d s, parenRun (fun c => SplitComplexCondition st f1 c uid) done stack todo = .ok (d, s) →
        ParenInv d s ∧ d.length ≤ done.length + 5 * todo.length := by
  intro todo
  induction todo with
  | nil =>
    intro done stack hinv _ _
    simp only [parenRun, ne_eq, not_false_eq_true, Outcome.ok.injEq, Prod.mk.injEq,
      and_imp, true_and, reduceCtorEq]
    rintro d s rfl rfl
    exact ⟨hinv, by simp⟩
  | cons c todo ih =>
    intro done stack hinv hf1 hf2
    simp only [List.length_cons] at hf1 hf2
    by_cases c1 : c = '('
    · subst c1
      have hinv2 : ParenInv (done ++ ['(']) (stack ++ [len done]) :=
        ParenInv.opened done stack [] hinv (by simp)
      have := ih (done ++ ['(']) (stack ++ [len done]) hinv2
        (by simp; omega) (by simp; omega)
      simp only [parenRun, parenStep, if_true, Outcome.ok_bind]
      refine ⟨this.1, this.2.1, fun d s hds => ?_⟩
      have := this.2.2 d s hds
      refine ⟨this.1, ?_⟩
      have := this.2
      simp only [List.length_append, List.length_cons, List.length_nil] at this ⊢
      omega
    · by_cases c2 : c = ')'
      · subst c2
        cases hinv with
        | flat s0 hs0 =>
          simp only [parenRun, parenStep_close_flat, Outcome.panic_bind, ne_eq,
            not_false_eq_true, true_and, reduceCtorEq, false_implies, implies_true]
        | opened d0 s0 seg h0 hseg =>
          simp only [parenRun, parenStep_close_opened]
          have hlen : seg.length + 2 < f1 ∧ seg.length + 2 < f2 := by
            simp at hf1 hf2
            omega
          have hcnt := (count_eq_zero_iff seg '(').2 hseg
          have hst := split_flat_stable st uid seg hcnt f1 f2 hlen.1 hlen.2
          have htm := split_flat_terminates st uid f1 seg hcnt hlen.1
          rw [← hst]
          cases hr : SplitComplexCondition st f1 seg uid with
          | ok p =>
            simp only [Outcome.ok_bind]
            have hinv2 : ParenInv (d0 ++ replacementOf p) s0 :=
              parenInv_append d0 s0 _ h0 (replacementOf_plain p)
            have h5 := replacementOf_length p
            have := ih (d0 ++ replacementOf p) s0 hinv2
              (by simp at hf1 ⊢; omega) (by simp at hf2 ⊢; omega)
            refine ⟨this.1, this.2.1, fun d s hds => ?_⟩
            have := this.2.2 d s hds
            refine ⟨this.1, ?_⟩
            have := this.2
            simp at this ⊢
            omega
          | panic => simp
          | outOfFuel => exact absurd hr htm
      · have hinv2 : ParenInv (done ++ [c]) stack :=
          parenInv_append done stack [c] hinv (by simp; exact fun e => c1 e.symm)
        have := ih (done ++ [c]) stack hinv2 (by simp; omega) (by simp; omega)
        simp only [parenRun, parenStep, if_neg c1, if_neg c2, Outcome.ok_bind]
        refine ⟨this.1, this.2.1, fun d s hds => ?_⟩
        have := this.2.2 d s hds
        refine ⟨this.1, ?_⟩
        have := this.2
        simp only [List.length_append, List.length_cons, List.length_nil] at this ⊢
        omega

theorem split_stable (st : Store) (uid : Str) (condition : Str) (f1 f2 : Nat)
    (h1 : 5 * condition.length + 3 < f1) (h2 : 5 * condition.length + 3 < f2) :
    SplitComplexCondition st f1 condition uid = SplitComplexCondition st f2 condition uid ∧
    SplitComplexCondition st f1 condition uid ≠ .outOfFuel := by
  by_cases hc : Count condition '(' = 0
  · exact ⟨split_flat_stable st uid condition hc f1 f2 (by omega) (by omega),
      split_flat_terminates st uid f1 condition hc (by omega)⟩
  · obtain ⟨n1, rfl⟩ : ∃ n, f1 = n + 1 := ⟨f1 - 1, by omega⟩
    obtain ⟨n2, rfl⟩ : ∃ n, f2 = n + 1 := ⟨f2 - 1, by omega⟩
    rw [split_paren_run st uid n1 condition hc (by omega),
      split_paren_run st uid n2 condition hc (by omega)]
    have hrun := parenRun_stable st uid n1 n2 condition [] [] (ParenInv.flat [] (by simp))
      (by simp; omega) (by simp; omega)
    rw [← hrun.1]
    cases hr : parenRun (fun c => SplitComplexCondition st n1 c uid) [] [] condition with
    | ok p =>
      obtain ⟨d, s⟩ := p
      simp only [Outcome.ok_bind]
      have hds := hrun.2.2 d s hr
      by_cases hs : len s > 0
      · simp [hs]
      · rw [if_neg hs, if_neg hs]
        have hs0 : s = [] := by
          cases s with
          | nil => rfl
          | cons a s => exact absurd (by simp [len]) hs
        subst hs0
        have hflat := (count_eq_zero_iff d '(').2 (parenInv_nil_stack d hds.1)
        have hlen := hds.2
        simp at hlen
        exact ⟨split_flat_stable st uid d hflat n1 n2 (by omega) (by omega),
          split_flat_terminates st uid n1 d hflat (by omega)⟩
    | panic => simp
    | outOfFuel => exact absurd hr hrun.2.1

/-! ## Parenthesis reduction (C6) -/

/-- C6: let `A` hold no parenthesis and let `SplitComplexCondition` evaluate it
to the boolean `b`; let the parentheses of the surrounding context, `L` followed
by `R`, be properly nested (`L` may leave parentheses open that `R` closes, so
the group `(A)` may stand inside other groups).  Then, with enough fuel, `SplitComplexCondition` gives one and the same result (a
value or a panic, never a lack of fuel) on `L + "(" + A + ")" + R` and on
`L + lit(b) + R`, where `lit(b)` is `true` or `false`.  And
`true OR (false AND false)` evaluates to true. -/
theorem parenthesis_reduction_sound (st : Store) (uid L A R : Str) (b : Bool) (fA : Nat)
    (h1 : '(' ∉ A) (h2 : ')' ∉ A)
    (hA : SplitComplexCondition st fA A uid = .ok (b, none))
    (hLR : properlyNested (L ++ R) = true) :
    (∃ r, r ≠ .outOfFuel ∧
      ∀ fuel, fA + 5 * (L.length + A.length + R.length) + 40 ≤ fuel →
        SplitComplexCondition st fuel (L ++ "(".toList ++ A ++ ")".toList ++ R) uid = r ∧
        SplitComplexCondition st fuel (L ++ FormatBool b ++ R) uid = r) ∧
    (∀ extra, SplitComplexCondition st (extra + 27) "true OR (false AND false)".toList uid
      = .ok (true, none)) := by
  refine ⟨?_, fun extra => rfl⟩
  have hb5 := formatBool_length b
  have e : L ++ "(".toList ++ A ++ ")".toList ++ R = L ++ '(' :: (A ++ [')']) ++ R := by simp
  have hst := fun fuel (hf : fA + 5 * (L.length + A.length + R.length) + 40 ≤ fuel) =>
    split_stable st uid (L ++ FormatBool b ++ R) fuel
      (fA + 5 * (L.length + A.length + R.length) + 40)
      (by simp only [List.length_append]; omega) (by simp only [List.length_append]; omega)
  refine ⟨SplitComplexCondition st (fA + 5 * (L.length + A.length + R.length) + 40)
    (L ++ FormatBool b ++ R) uid, ?_, fun fuel hf => ?_⟩
  · rw [← (hst _ (le_refl _)).1]
    exact (hst _ (le_refl _)).2
  · obtain ⟨F, rfl⟩ : ∃ F, fuel = F + 1 := ⟨fuel - 1, by omega⟩
    rw [e, split_reduction_eq st uid L A R b fA F h1 h2 hA hLR (by omega) (by omega)
      (by omega)]
    exact ⟨(hst _ hf).1, (hst _ hf).1⟩

/-- C6, on the demo store: `true OR (false AND false)` and `true OR false` have
the same result with enough fuel, and so have `(false OR (true AND true))`,
where the group stands inside another group, and `(false OR true)`. -/
theorem parenthesis_reduction_sound_witness :
    (∃ r, r ≠ .outOfFuel ∧
      ∀ fuel, 7 + 5 * ("true OR ".toList.length + "false AND false".toList.length
          + ([] : Str).length) + 40 ≤ fuel →
        SplitComplexCondition demoStore fuel
          ("true OR ".toList ++ "(".toList ++ "false AND false".toList ++ ")".toList ++ [])
          "7".toList = r ∧
        SplitComplexCondition demoStore fuel
          ("true OR ".toList ++ FormatBool false ++ []) "7".toList = r) ∧
    (∃ r, r ≠ .outOfFuel ∧
      ∀ fuel, 7 + 5 * ("(false OR ".toList.length + "true AND true".toList.length
          + ")".toList.length) + 40 ≤ fuel →
        SplitComplexCondition demoStore fuel
          ("(false OR ".toList ++ "(".toList ++ "true AND true".toList ++ ")".toList
            ++ ")".toList) "7".toList = r ∧
        SplitComplexCondition demoStore fuel
          ("(false OR ".toList ++ FormatBool true ++ ")".toList) "7".toList = r) :=
  ⟨(parenthesis_reduction_sound demoStore "7".toList "true OR ".toList
      "false AND false".toList [] false 7 (by decide) (by decide) rfl rfl).1,
    (parenthesis_reduction_sound demoStore "7".toList "(false OR ".toList
      "true AND true".toList ")".toList true 7 (by decide) (by decide) rfl rfl).1⟩

/-! ## Text without recognised syntax -/

theorem replaceBlock_unrecognized (st : Store) (fuel : Nat) (done post uid : Str)
    (h4 : 4 ≤ post.length) (h1 : ¬ "%".toList <+: post) (h2 : ¬ "if(%".toList <+: post) :
    ReplaceBlock st (fuel + 1) (done ++ '{' :: post) (len done) uid
      = .ok (done ++ '{' :: post, len done) := by
  obtain ⟨a, b, c, d, rest, rfl⟩ : ∃ a b c d rest, post = a :: b :: c :: d :: rest := by
    match post, h4 with
    | a :: b :: c :: d :: rest, _ => exact ⟨a, b, c, d, rest, rfl⟩
  have ha : a ≠ '%' := by
    intro e
    apply h1
    rw [e]
    exact ⟨b :: c :: d :: rest, rfl⟩
  have hb : byteAt (done ++ '{' :: a :: b :: c :: d :: rest) (len done + 1) = .ok a := by
    have := byteAt_append_cons (done ++ ['{']) a (b :: c :: d :: rest) (len done + 1)
      (by rw [len_append]; rfl)
    simpa using this
  have hs : slice (done ++ '{' :: a :: b :: c :: d :: rest) (len done + 1) (len done + 5)
      = .ok [a, b, c, d] := by
    have := slice_append_append (done ++ ['{']) [a, b, c, d] rest (len done + 1)
      (len done + 5) (by rw [len_append]; rfl) (by rw [len_append]; simp [len]; omega)
    simpa using this
  have hne : [a, b, c, d] ≠ "if(%".toList := by
    intro e
    apply h2
    rw [← e]
    exact ⟨rest, rfl⟩
  rw [ReplaceBlock, hb]
  simp only [Outcome.ok_bind, if_neg ha, hs, if_neg hne, Outcome.pure_eq]

theorem loop_unrecognized (st : Store) (uid : Str) :
    ∀ (todo done : Str) (fuel : Nat),
      (∀ pre post, todo = pre ++ '{' :: post →
        4 ≤ post.length ∧ ¬ "%".toList <+: post ∧ ¬ "if(%".toList <+: post) →
      ReplaceReferences.loop st uid (fuel + 1 + todo.length) (done ++ todo) (len done)
        = .ok (done ++ todo) := by
  intro todo
  induction todo with
  | nil =>
    intro done fuel _
    simpa using loop_end st uid done fuel (len done) (le_refl _)
  | cons c todo ih =>
    intro done fuel h
    have hlt : len done < len (done ++ c :: todo) := by simp [len]
    have hb : byteAt (done ++ c :: todo) (len done) = .ok c := byteAt_append_cons _ _ _ _ rfl
    have e1 : done ++ c :: todo = (done ++ [c]) ++ todo := by simp
    have e2 : len done + 1 = len (done ++ [c]) := by rw [len_append]; rfl
    have htl : ∀ pre post, todo = pre ++ '{' :: post →
        4 ≤ post.length ∧ ¬ "%".toList <+: post ∧ ¬ "if(%".toList <+: post :=
      fun pre post e => h (c :: pre) post (by rw [e]; rfl)
    have ef : fuel + 1 + (c :: todo).length = (fuel + 1 + todo.length) + 1 := by
      simp only [List.length_cons]; omega
    rw [ef]
    by_cases hc : c = '{'
    · subst hc
      have hp := h [] todo rfl
      obtain ⟨n, hn⟩ : ∃ n, fuel + 1 + todo.length = n + 1 := ⟨fuel + todo.length, by omega⟩
      rw [loop_step_block st uid _ _ _ hb hlt]
      conv_lhs => rw [hn, replaceBlock_unrecognized st n done todo uid hp.1 hp.2.1 hp.2.2, ← hn]
      simp only [Outcome.ok_bind]
      rw [e1, e2]
      exact ih (done ++ ['{']) fuel htl
    · rw [loop_step_other st uid _ _ _ c hb hlt hc, e1, e2]
      exact ih (done ++ [c]) fuel htl

/-- A text in which every `{` is followed by at least four bytes that begin
neither `%` nor `if(%` is returned unchanged, once the recipient id is resolved. -/
theorem unrecognized_text_unchanged (st : Store) (email uid text : Str) (fuel : Nat)
    (hid : st.targetId email = .ok uid)
    (h : ∀ pre post, text = pre ++ '{' :: post →
      4 ≤ post.length ∧ ¬ "%".toList <+: post ∧ ¬ "if(%".toList <+: post)
    (hfuel : text.length + 1 ≤ fuel) :
    ReplaceReferences st fuel text email = .ok (text, none) := by
  obtain ⟨k, rfl⟩ : ∃ k, fuel = k + 1 + text.length := ⟨fuel - (text.length + 1), by omega⟩
  have := loop_unrecognized st uid text [] k h
  simp only [List.nil_append] at this
  rw [ReplaceReferences, hid]
  simp only [show (0 : Int) = len ([] : Str) from rfl, this, Outcome.ok_bind, Outcome.pure_eq]

/-! ## Inputs on which the engine panics (C1, C3, C8, C9) -/

/-- C1: with `age = "25"`, the text `{if(%age%){Adult}{No}}`, whose else
statement has fewer than four characters, makes `ReplaceReferences` panic (the
slice `text[start_else:start_else+7]` is out of range) instead of returning
`Adult`; on the example of the specification, whose else statement is long
enough, the true statement is chosen for `age = "25"` and the else statement for
an absent name. -/
theorem conditional_short_else_panics (fuel : Nat) :
    ReplaceReferences demoStore (fuel + 9) "\x7bif(%age%)\x7bAdult\x7d\x7bNo\x7d\x7d".toList
      "alice@example.org".toList = .panic ∧
    ReplaceReferences demoStore (fuel + 16)
      "\x7bif(%age%)\x7bAdult content\x7d\x7bMinor content\x7d\x7d".toList
      "alice@example.org".toList = .ok ("Adult content".toList, none) ∧
    ReplaceReferences demoStore (fuel + 16)
      "\x7bif(%height%)\x7bAdult content\x7d\x7bMinor content\x7d\x7d".toList
      "alice@example.org".toList = .ok ("Minor content".toList, none) :=
  ⟨rfl, rfl, rfl⟩

/-- C3: once the recipient id is resolved, whatever the store, the text `{`
makes `ReplaceReferences` panic (index `text[start_block+1]` out of range), and
so does the unclosed reference `Hello {%name` (slice `text[r:r+2]` out of range). -/
theorem personalization_panics_on_syntax (st : Store) (email uid : Str) (fuel : Nat)
    (hid : st.targetId email = .ok uid) :
    ReplaceReferences st (fuel + 2) "\x7b".toList email = .panic ∧
    ReplaceReferences st (fuel + 9) "Hello \x7b%name".toList email = .panic := by
  constructor
  · unfold ReplaceReferences
    rw [hid]
    rfl
  · unfold ReplaceReferences
    rw [hid]
    rfl

/-- C3, on the demo store. -/
theorem personalization_panics_on_syntax_witness :
    ReplaceReferences demoStore 2 "\x7b".toList "alice@example.org".toList = .panic ∧
    ReplaceReferences demoStore 9 "Hello \x7b%name".toList "alice@example.org".toList = .panic :=
  personalization_panics_on_syntax demoStore "alice@example.org".toList "7".toList 0 rfl

/-- The loop over the stored conditions, one condition unfolded. -/
theorem condLoop_cons (st : Store) (fuel : Nat) (uid : Str) (c : Cond) (conditions : List Cond) :
    GetVariableValue.condLoop st fuel uid (c :: conditions) =
      (evalCondition st fuel uid c >>= fun r =>
        if r.2 ≠ none then .ok ([], r.2)
        else if r.1 = true then .ok (c.Value, none)
        else GetVariableValue.condLoop st fuel uid conditions) := by
  rw [GetVariableValue.condLoop, evalCondition]
  by_cases h : Count c.Condition '(' = Count c.Condition ')'
  · rw [if_pos h, if_pos h]
    cases ReplaceValueSpaces fuel c.Condition with
    | ok condition => rfl
    | panic => rfl
    | outOfFuel => rfl
  · rw [if_neg h, if_neg h]
    rfl

/-- The order of the stored conditions decides: when the conditions before `c`
evaluate to false and `c` evaluates to true, the loop returns the value of `c`;
when all evaluate to false it returns the empty string and no error. -/
theorem condLoop_first_match (st : Store) (fuel : Nat) (uid : Str) (before : List Cond)
    (hb : ∀ x ∈ before, evalCondition st fuel uid x = .ok (false, none)) :
    (∀ c after, evalCondition st fuel uid c = .ok (true, none) →
      GetVariableValue.condLoop st fuel uid (before ++ c :: after) = .ok (c.Value, none)) ∧
    GetVariableValue.condLoop st fuel uid before = .ok ([], none) := by
  induction before with
  | nil =>
    refine ⟨fun c after hc => ?_, rfl⟩
    rw [List.nil_append, condLoop_cons, hc]
    rfl
  | cons x before ih =>
    have hx := hb x (by simp)
    have ih2 := ih (fun y hy => hb y (by simp [hy]))
    refine ⟨fun c after hc => ?_, ?_⟩
    · rw [List.cons_append, condLoop_cons, hx]
      exact ih2.1 c after hc
    · rw [condLoop_cons, hx]
      exact ih2.2

/-- C8: the complex variable `discount` of the demo store, whose first stored
condition is `age=="25"` and whose second is `true`, makes `GetVariableValue`
panic (index `elements[i+1]` out of range in `SplitComplexCondition`) instead of
returning a value; the variable `tier`, whose conditions are `age == 30`,
`age == 25`, `true`, gets the value of the second, the first that holds. -/
theorem getVariableValue_panics_on_condition (fuel : Nat) :
    GetVariableValue demoStore (fuel + 12) "7".toList "discount".toList = .panic ∧
    GetVariableValue demoStore (fuel + 12) "7".toList "tier".toList
      = .ok ("gold".toList, none) :=
  ⟨rfl, rfl⟩

/-- C9: once the recipient id is resolved, whatever the store, the text `h1 {}`,
which holds neither `{%` nor `{if(%`, makes `ReplaceReferences` panic (slice
`text[start_block+1:start_block+5]` out of range) instead of being returned
unchanged. -/
theorem no_syntax_text_panics (st : Store) (email uid : Str) (fuel : Nat)
    (hid : st.targetId email = .ok uid) :
    Contains "h1 \x7b\x7d".toList "\x7b%".toList = false ∧
    Contains "h1 \x7b\x7d".toList "\x7bif(%".toList = false ∧
    ReplaceReferences st (fuel + 5) "h1 \x7b\x7d".toList email = .panic := by
  refine ⟨by decide, by decide, ?_⟩
  unfold ReplaceReferences
  rw [hid]
  rfl

/-- C9, on the demo store. -/
theorem no_syntax_text_panics_witness :
    ReplaceReferences demoStore 5 "h1 \x7b\x7d".toList "alice@example.org".toList = .panic :=
  (no_syntax_text_panics demoStore "alice@example.org".toList "7".toList 0 rfl).2.2

/-! ## Condition blocks: the stages of `ReplaceBlock` on well-formed text -/

theorem slice_cons_head {α : Type} (A : List α) (x : α) (Y : List α) (i j : Int)
    (hi : i = len A) (hj : i < j) (hj2 : j ≤ len (A ++ x :: Y)) :
    ∃ s, slice (A ++ x :: Y) i j = .ok (x :: s) := by
  subst hi
  have h : (0 : Int) ≤ len A ∧ len A ≤ j ∧ j ≤ len (A ++ x :: Y) :=
    ⟨len_nonneg A, by omega, hj2⟩
  unfold slice
  rw [if_pos h]
  obtain ⟨m, hm⟩ : ∃ m, j.toNat - (len A).toNat = m + 1 :=
    ⟨j.toNat - (len A).toNat - 1, by unfold len at hj ⊢; omega⟩
  rw [hm]
  refine ⟨Y.take m, ?_⟩
  simp [len]

theorem findChars_loop_skip (c0 : Char) (m B : Str) (start : Int) :
    ∀ (X A : Str) (n : Nat), c0 ∉ X → X.length + 1 ≤ n →
      FindChars.loop (A ++ X ++ c0 :: m ++ B) (c0 :: m) start n (len A)
        = .ok (len A + len X) := by
  intro X
  induction X with
  | nil =>
    intro A n _ hn
    obtain ⟨k, rfl⟩ : ∃ k, n = k + 1 := ⟨n - 1, by simp at hn; omega⟩
    have hle : len A + len (c0 :: m) ≤ len (A ++ [] ++ c0 :: m ++ B) := by
      simp only [len, List.length_append, List.length_cons, List.length_nil]
      push_cast
      omega
    have hs : slice (A ++ [] ++ c0 :: m ++ B) (len A) (len A + len (c0 :: m))
        = .ok (c0 :: m) := by
      have := slice_append_append A (c0 :: m) B (len A) (len A + len (c0 :: m)) rfl rfl
      simpa using this
    rw [FindChars.loop, if_pos hle, hs]
    simp [len]
  | cons x X ih =>
    intro A n hX hn
    obtain ⟨k, rfl⟩ : ∃ k, n = k + 1 := ⟨n - 1, by simp at hn; omega⟩
    have hx : x ≠ c0 := fun e => hX (by simp [e])
    have hX2 : c0 ∉ X := fun e => hX (by simp [e])
    have e1 : A ++ x :: X ++ c0 :: m ++ B = (A ++ [x]) ++ X ++ c0 :: m ++ B := by simp
    have e2 : len A + 1 = len (A ++ [x]) := by rw [len_append]; rfl
    have e3 : len (A ++ [x]) + len X = len A + len (x :: X) := by
      rw [len_append, len_cons]; simp [len]; omega
    have hle : len A + len (c0 :: m) ≤ len (A ++ x :: X ++ c0 :: m ++ B) := by
      simp only [len, List.length_append, List.length_cons]
      push_cast
      omega
    have e0 : A ++ x :: X ++ c0 :: m ++ B = A ++ x :: (X ++ c0 :: m ++ B) := by simp
    obtain ⟨s, hs⟩ := slice_cons_head A x (X ++ c0 :: m ++ B) (len A)
      (len A + len (c0 :: m)) rfl (by simp [len]) (by rw [← e0]; exact hle)
    rw [FindChars.loop, if_pos hle, e0, hs]
    have hne : x :: s ≠ c0 :: m := by
      intro e
      exact hx (List.cons.inj e).1
    simp only [Outcome.ok_bind, if_neg hne]
    rw [← e0, e1, e2, ih (A ++ [x]) k hX2 (by simp at hn; omega), e3]

theorem findChars_skip (c0 : Char) (m B X A : Str) (start : Int) (hs : start = len A)
    (hX : c0 ∉ X) :
    FindChars (A ++ X ++ c0 :: m ++ B) (c0 :: m) start = .ok (len A + len X) := by
  subst hs
  unfold FindChars
  apply findChars_loop_skip c0 m B (len A) X A _ hX
  simp only [len, List.length_append, List.length_cons]
  omega

theorem findChars_here (c0 : Char) (m B A : Str) (start : Int) (hs : start = len A) :
    FindChars (A ++ c0 :: m ++ B) (c0 :: m) start = .ok (len A) := by
  have := findChars_skip c0 m B [] A start hs (by simp)
  simpa [len] using this

theorem findChars_none (text m : Str) (start : Int) (hs : len text ≤ start) :
    FindChars text m start = .ok start := by
  unfold FindChars
  have : (len text - start).toNat = 0 := by omega
  rw [this]
  rfl

theorem contains_false_of_not_mem_first (s p : Str) (c0 : Char) (h : c0 ∉ s) :
    Contains s (c0 :: p) = false := by
  cases hc : Contains s (c0 :: p) with
  | false => rfl
  | true =>
    have := (contains_iff s _).1 hc
    exact absurd (this.subset (by simp)) h

theorem contains_false_of_not_mem_second (s p : Str) (c0 c1 : Char) (h : c1 ∉ s) :
    Contains s (c0 :: c1 :: p) = false := by
  cases hc : Contains s (c0 :: c1 :: p) with
  | false => rfl
  | true =>
    have := (contains_iff s _).1 hc
    exact absurd (this.subset (by simp)) h

theorem contains_false_iff_not_mem (s : Str) (c : Char) : Contains s [c] = false ↔ c ∉ s := by
  rw [← contains_singleton]
  cases Contains s [c] <;> simp

theorem replace1_skip (c0 : Char) (o new t : Str) :
    ∀ X : Str, c0 ∉ X → Replace1 (X ++ t) (c0 :: o) new = X ++ Replace1 t (c0 :: o) new := by
  intro X
  induction X with
  | nil => intro _; rfl
  | cons x X ih =>
    intro h
    have hx : x ≠ c0 := fun e => h (by simp [e])
    have hX : c0 ∉ X := fun e => h (by simp [e])
    have hp : HasPrefix (x :: (X ++ t)) (c0 :: o) = false := by simp [HasPrefix, hx]
    rw [List.cons_append, Replace1, hp, ih hX]
    simp

theorem replace1_first2 (c0 c1 : Char) (o new rest : Str) :
    ∀ P : Str, Contains (P ++ [c0]) [c0, c1] = false →
      Replace1 (P ++ c0 :: c1 :: o ++ rest) (c0 :: c1 :: o) new = P ++ new ++ rest := by
  intro P
  induction P with
  | nil =>
    intro _
    exact replace1_first [] c0 (c1 :: o) new rest (by simp)
  | cons x P ih =>
    intro h
    rw [List.cons_append, Contains, Bool.or_eq_false_iff] at h
    have hp : HasPrefix (x :: (P ++ c0 :: c1 :: o ++ rest)) (c0 :: c1 :: o) = false := by
      have h1 := h.1
      cases P with
      | nil =>
        simp only [List.nil_append, HasPrefix, Bool.and_true, Bool.and_eq_false_imp,
          beq_iff_eq] at h1 ⊢
        intro e
        have := h1 e
        simp only [beq_eq_false_iff_ne, ne_eq] at this
        intro e2
        exact absurd e2 this
      | cons y P =>
        simp only [List.cons_append, HasPrefix, Bool.and_true, Bool.and_eq_false_imp,
          beq_iff_eq] at h1 ⊢
        intro e
        have := h1 e
        simp only [beq_eq_false_iff_ne, ne_eq] at this
        intro e2
        exact absurd e2 this
    have e : x :: P ++ c0 :: c1 :: o ++ rest = x :: (P ++ c0 :: c1 :: o ++ rest) := by simp
    rw [e, Replace1, hp, ih h.2]
    simp

theorem replaceBlock_condition (st : Store) (fuel : Nat) (uid P a rest va : Str)
    (ha0 : a ≠ []) (ha1 : ' ' ∉ a) (ha2 : '%' ∉ a)
    (hP : Contains (P ++ ['{', 'i', 'f', '(']) ['(', '%'] = false)
    (hres : resolveName st fuel uid a = .ok va) :
    ReplaceBlock.condition st fuel
        (P ++ '{' :: 'i' :: 'f' :: '(' :: '%' :: (a ++ '%' :: ')' :: '{' :: rest)) (len P) uid
      = .ok (P ++ '{' :: 'i' :: 'f' :: '(' :: '$' :: (a ++ '$' :: ')' :: '{' :: rest), a, va,
          len P + 7 + len a) := by
  have hlen : 0 < len a := by
    cases a with
    | nil => exact absurd rfl ha0
    | cons x a => simp [len]
  have hf : FindChars (P ++ '{' :: 'i' :: 'f' :: '(' :: '%' :: (a ++ '%' :: ')' :: '{' :: rest))
      ['%', ')'] (len P + 5) = .ok (len P + 5 + len a) := by
    have := findChars_skip '%' [')'] ('{' :: rest) a (P ++ ['{', 'i', 'f', '(', '%'])
      (len P + 5) (by rw [len_append]; rfl) ha2
    rw [len_append] at this
    simpa using this
  have hr : slice (P ++ '{' :: 'i' :: 'f' :: '(' :: '%' :: (a ++ '%' :: ')' :: '{' :: rest))
      (len P + 5) (len P + 5 + len a) = .ok a := by
    have := slice_append_append (P ++ ['{', 'i', 'f', '(', '%']) a ('%' :: ')' :: '{' :: rest)
      (len P + 5) (len P + 5 + len a) (by rw [len_append]; rfl) (by rw [len_append]; rfl)
    simpa using this
  have ho : slice (P ++ '{' :: 'i' :: 'f' :: '(' :: '%' :: (a ++ '%' :: ')' :: '{' :: rest))
      (len P + 3) (len P + 5 + len a + 2) = .ok ('(' :: '%' :: (a ++ ['%', ')'])) := by
    have := slice_append_append (P ++ ['{', 'i', 'f']) ('(' :: '%' :: (a ++ ['%', ')']))
      ('{' :: rest) (len P + 3) (len P + 5 + len a + 2) (by rw [len_append]; rfl)
      (by rw [len_append]; simp [len]; omega)
    simpa using this
  have hrep : Replace1 (P ++ '{' :: 'i' :: 'f' :: '(' :: '%' :: (a ++ '%' :: ')' :: '{' :: rest))
      ('(' :: '%' :: (a ++ ['%', ')'])) ('(' :: '$' :: (a ++ ['$', ')']))
      = P ++ '{' :: 'i' :: 'f' :: '(' :: '$' :: (a ++ '$' :: ')' :: '{' :: rest) := by
    have := replace1_first2 '(' '%' (a ++ ['%', ')']) ('(' :: '$' :: (a ++ ['$', ')']))
      ('{' :: rest) (P ++ ['{', 'i', 'f']) (by simpa using hP)
    simpa using this
  have hc : Contains a " ".toList = false := (contains_false_iff_not_mem a ' ').2 ha1
  have hf2 : FindChars (P ++ '{' :: 'i' :: 'f' :: '(' :: '$' :: (a ++ '$' :: ')' :: '{' :: rest))
      ['{'] (len P + 5 + len a + 2) = .ok (len P + 7 + len a) := by
    have := findChars_here '{' [] rest (P ++ '{' :: 'i' :: 'f' :: '(' :: '$' :: (a ++ ['$', ')']))
      (len P + 5 + len a + 2) (by simp [len]; omega)
    rw [len_append] at this
    simp only [List.append_assoc, List.cons_append, List.nil_append] at this
    rw [this]
    simp [len]
    omega
  have e1 : "%)".toList = ['%', ')'] := rfl
  have e2 : "($".toList ++ a ++ "$)".toList = '(' :: '$' :: (a ++ ['$', ')']) := by simp
  have e3 : "\x7b".toList = ['{'] := rfl
  unfold ReplaceBlock.condition
  simp only [e1, e2, e3, hf, Outcome.ok_bind, hr, ho, hrep, hc, hres, hf2, Outcome.pure_eq]
  have g1 : len P + 5 + len a > len P + 5 := by omega
  have g2 : len P + 7 + len a > len P + 5 + len a + 1 := by omega
  simp [g1, g2]

theorem subRefs_loop_succ (st : Store) (uid : Str) (start_search : Int) (reference value : Str)
    (fuel : Nat) (text : Str) (i : Int) (buff_value : Str) :
    ReplaceSubReferences.loop st uid start_search reference value (fuel + 1) text i buff_value =
      if i < len text then
        byteAt text i >>= fun c =>
          if c = '%' then
            ReplaceSubReference st fuel text uid i reference value buff_value >>= fun r =>
              ReplaceSubReferences.loop st uid start_search reference value fuel r.1
                (r.2.2 + 1) r.2.1
          else if c = '}' then .ok (text, i, buff_value)
          else
            ReplaceSubReferences.loop st uid start_search reference value fuel text (i + 1)
              buff_value
      else .ok (text, start_search, buff_value) := by
  rw [ReplaceSubReferences.loop]
  rfl

theorem subRefs_loop_plain (st : Store) (uid : Str) (start_search : Int)
    (reference value buff_value B : Str) :
    ∀ (T A : Str) (fuel : Nat) (i : Int), '%' ∉ T → '}' ∉ T → i = len A →
      T.length + 1 ≤ fuel →
      ReplaceSubReferences.loop st uid start_search reference value fuel
          (A ++ T ++ '}' :: B) i buff_value
        = .ok (A ++ T ++ '}' :: B, len A + len T, buff_value) := by
  intro T
  induction T with
  | nil =>
    intro A fuel i _ _ hi hf
    obtain ⟨k, rfl⟩ : ∃ k, fuel = k + 1 := ⟨fuel - 1, by simp at hf; omega⟩
    have hlt : i < len (A ++ [] ++ '}' :: B) := by subst hi; simp [len]
    have hb : byteAt (A ++ [] ++ '}' :: B) i = .ok '}' := by
      have := byteAt_append_cons A '}' B i hi
      simpa using this
    rw [subRefs_loop_succ, if_pos hlt, hb]
    simp only [Outcome.ok_bind, if_neg (show ¬ ('}' = '%') by decide), if_true]
    subst hi
    simp [len]
  | cons c T ih =>
    intro A fuel i h1 h2 hi hf
    obtain ⟨k, rfl⟩ : ∃ k, fuel = k + 1 := ⟨fuel - 1, by simp at hf; omega⟩
    have c1 : c ≠ '%' := fun e => h1 (by simp [e])
    have c2 : c ≠ '}' := fun e => h2 (by simp [e])
    have t1 : '%' ∉ T := fun e => h1 (by simp [e])
    have t2 : '}' ∉ T := fun e => h2 (by simp [e])
    have hlt : i < len (A ++ c :: T ++ '}' :: B) := by subst hi; simp [len]; omega
    have hb : byteAt (A ++ c :: T ++ '}' :: B) i = .ok c := by
      have := byteAt_append_cons A c (T ++ '}' :: B) i hi
      simpa using this
    have e1 : A ++ c :: T ++ '}' :: B = (A ++ [c]) ++ T ++ '}' :: B := by simp
    have e2 : len (A ++ [c]) + len T = len A + len (c :: T) := by
      rw [len_append, len_cons]; simp [len]; omega
    rw [subRefs_loop_succ, if_pos hlt, hb]
    simp only [Outcome.ok_bind, if_neg c1, if_neg c2]
    rw [e1, ih (A ++ [c]) k (i + 1) t1 t2 (by rw [hi, len_append]; rfl)
      (by simp at hf; omega), e2]

theorem subRefs_plain (st : Store) (fuel : Nat) (uid reference value buff_value A T B : Str)
    (start : Int) (h1 : '%' ∉ T) (h2 : '}' ∉ T) (hs : start = len A)
    (hf : T.length + 1 ≤ fuel) :
    ReplaceSubReferences st fuel (A ++ T ++ '}' :: B) uid start reference value buff_value
      = .ok (A ++ T ++ '}' :: B, len A + len T, buff_value) := by
  unfold ReplaceSubReferences
  exact subRefs_loop_plain st uid start reference value buff_value B T A fuel start h1 h2 hs hf

theorem plain_statement_head (A T B : Str) (hT : '{' ∉ T) (hlen : 5 ≤ T.length + B.length) :
    ∃ s, slice (A ++ '{' :: (T ++ '}' :: B)) (len A) (len A + 7) = .ok s ∧
      s ≠ "\x7b \x7bif(%".toList := by
  have h : (0 : Int) ≤ len A ∧ len A ≤ len A + 7 ∧
      len A + 7 ≤ len (A ++ '{' :: (T ++ '}' :: B)) := by
    refine ⟨len_nonneg A, by omega, ?_⟩
    simp only [len, List.length_append, List.length_cons]
    push_cast
    omega
  unfold slice
  rw [if_pos h]
  refine ⟨_, rfl, ?_⟩
  have e : (len A + 7).toNat - (len A).toNat = 7 := by unfold len; omega
  rw [e]
  simp only [len, Int.toNat_ofNat, List.drop_left]
  match T, hT with
  | [], _ => simp
  | [t], _ => simp
  | t1 :: t2 :: T, hT =>
    have : t2 ≠ '{' := fun e => hT (by simp [e])
    simp
    intro _ h2
    exact absurd h2 this

theorem scanStatement_plain (st : Store) (fuel : Nat) (rb : Str → Int → Outcome (Str × Int))
    (uid reference value buff_value A T B : Str) (start_if : Int)
    (h0 : '{' ∉ T) (h1 : '%' ∉ T) (h2 : '}' ∉ T) (hs : start_if = len A)
    (hlen : 5 ≤ T.length + B.length) (hf : T.length + 1 ≤ fuel) :
    ReplaceBlock.scanStatement st fuel rb uid reference value (A ++ '{' :: (T ++ '}' :: B))
        start_if buff_value
      = .ok (A ++ '{' :: (T ++ '}' :: B), len A + 1 + len T, buff_value) := by
  subst hs
  obtain ⟨s, hs, hne⟩ := plain_statement_head A T B h0 hlen
  have hsub := subRefs_plain st fuel uid reference value buff_value (A ++ ['{']) T B
    (len A + 1) h1 h2 (by rw [len_append]; rfl) hf
  have e : A ++ ['{'] ++ T ++ '}' :: B = A ++ '{' :: (T ++ '}' :: B) := by simp
  rw [e, len_append] at hsub
  rw [ReplaceBlock.scanStatement, hs]
  simp only [Outcome.ok_bind, if_neg hne, hsub]
  rfl

theorem statement_plain (st : Store) (fuel : Nat) (rb : Str → Int → Outcome (Str × Int))
    (uid reference value buff_value A T B : Str) (start_if : Int)
    (h0 : '{' ∉ T) (h1 : '%' ∉ T) (h2 : '}' ∉ T) (hs : start_if = len A) (hpos : 0 < start_if)
    (hlen : 5 ≤ T.length + B.length) (hf : T.length + 1 ≤ fuel) :
    ReplaceBlock.statement st fuel rb uid reference value (A ++ '{' :: (T ++ '}' :: B))
        start_if buff_value
      = .ok (A ++ '{' :: (T ++ '}' :: B), len A + 1 + len T, buff_value) := by
  have hgt : len A + 1 + len T > start_if := by
    have := len_nonneg T
    omega
  rw [ReplaceBlock.statement, if_pos hpos,
    scanStatement_plain st fuel rb uid reference value buff_value A T B start_if h0 h1 h2 hs
      hlen hf]
  simp only [Outcome.ok_bind, Outcome.pure_eq, if_pos hgt]

theorem next_here (A B : Str) (c : Char) (after : Int) (hpos : 0 < after)
    (ha : after + 1 = len A) :
    ReplaceBlock.next (A ++ c :: B) [c] after = .ok (len A) := by
  have hf := findChars_here c [] B A (after + 1) ha
  simp only [List.nil_append] at hf
  have hgt : len A > after := by omega
  have hc : A ++ c :: B = A ++ [c] ++ B := by simp
  rw [ReplaceBlock.next, if_pos hpos, hc, hf]
  simp only [Outcome.ok_bind, Outcome.pure_eq, if_pos hgt]

theorem branch_text (A T B : Str) (s e : Int) (hs : s = len A) (he : e = s + 1 + len T) :
    (if e - s > 1 then slice (A ++ '{' :: (T ++ B)) (s + 1) e else pure [])
      = Outcome.ok T := by
  by_cases h : e - s > 1
  · rw [if_pos h]
    have := slice_append_append (A ++ ['{']) T B (s + 1) e (by rw [hs, len_append]; rfl)
      (by rw [he, hs, len_append]; rfl)
    simpa using this
  · rw [if_neg h]
    have h0 : len T = 0 := by
      have := len_nonneg T
      omega
    have : T = [] := by
      unfold len at h0
      exact List.length_eq_zero.1 (by omega)
    rw [this]
    rfl

theorem finish_eq (P H T E S value : Str) (sb si ei se ee eb : Int)
    (hR : ∀ new, Replace1 (P ++ (H ++ '{' :: (T ++ '}' :: '{' :: (E ++ ['}', '}']))) ++ S)
        (H ++ '{' :: (T ++ '}' :: '{' :: (E ++ ['}', '}']))) new = P ++ new ++ S)
    (h1 : sb = len P) (h2 : si = len P + len H) (h3 : ei = si + 1 + len T) (h4 : se = ei + 1)
    (h5 : ee = se + 1 + len E) (h6 : eb = ee + 1) :
    ReplaceBlock.finish (P ++ (H ++ '{' :: (T ++ '}' :: '{' :: (E ++ ['}', '}']))) ++ S) sb value
        si ei se ee eb
      = .ok (P ++ (if value ≠ [] then T else E) ++ S,
          len P + len (if value ≠ [] then T else E) - 1) := by
  have hpos : eb > 0 := by
    have := len_nonneg P
    have := len_nonneg H
    have := len_nonneg T
    have := len_nonneg E
    omega
  have eT : P ++ (H ++ '{' :: (T ++ '}' :: '{' :: (E ++ ['}', '}']))) ++ S
      = (P ++ H) ++ '{' :: (T ++ ('}' :: '{' :: (E ++ '}' :: '}' :: S))) := by simp
  have eE : P ++ (H ++ '{' :: (T ++ '}' :: '{' :: (E ++ ['}', '}']))) ++ S
      = (P ++ H ++ '{' :: (T ++ ['}'])) ++ '{' :: (E ++ ('}' :: '}' :: S)) := by simp
  have hT := branch_text (P ++ H) T ('}' :: '{' :: (E ++ '}' :: '}' :: S)) si ei
    (by rw [h2, len_append]) h3
  have hE := branch_text (P ++ H ++ '{' :: (T ++ ['}'])) E ('}' :: '}' :: S) se ee
    (by
      rw [h4, h3, h2]
      simp only [len, List.length_append, List.length_cons, List.length_nil]
      push_cast
      omega) h5
  rw [← eT] at hT
  rw [← eE] at hE
  have ho : slice (P ++ (H ++ '{' :: (T ++ '}' :: '{' :: (E ++ ['}', '}']))) ++ S) sb (eb + 1)
      = .ok (H ++ '{' :: (T ++ '}' :: '{' :: (E ++ ['}', '}']))) := by
    apply slice_append_append P _ S sb (eb + 1) h1
    rw [h6, h5, h4, h3, h2]
    simp only [len, List.length_append, List.length_cons, List.length_nil]
    push_cast
    omega
  rw [ReplaceBlock.finish, if_pos hpos]
  by_cases hv : value ≠ []
  · rw [if_pos hv, if_pos hv, hT, ho]
    simp only [Outcome.ok_bind, hR, Outcome.pure_eq, h1]
  · rw [if_neg hv, if_neg hv, hE, ho]
    simp only [Outcome.ok_bind, hR, Outcome.pure_eq, h1]

theorem replaceBlock_plain (st : Store) (fuel : Nat) (uid P a T E S va : Str)
    (ha0 : a ≠ []) (ha1 : ' ' ∉ a) (ha2 : '%' ∉ a)
    (hT0 : '{' ∉ T) (hT1 : '%' ∉ T) (hT2 : '}' ∉ T)
    (hE0 : '{' ∉ E) (hE1 : '%' ∉ E) (hE2 : '}' ∉ E)
    (hlen : 4 ≤ E.length + S.length)
    (hP : Contains (P ++ ['{', 'i', 'f', '(']) ['(', '%'] = false)
    (hR : ∀ new, Replace1
        (P ++ (('{' :: 'i' :: 'f' :: '(' :: '$' :: (a ++ ['$', ')'])) ++
          '{' :: (T ++ '}' :: '{' :: (E ++ ['}', '}']))) ++ S)
        (('{' :: 'i' :: 'f' :: '(' :: '$' :: (a ++ ['$', ')'])) ++
          '{' :: (T ++ '}' :: '{' :: (E ++ ['}', '}']))) new = P ++ new ++ S)
    (hres : resolveName st fuel uid a = .ok va)
    (hf1 : T.length + 1 ≤ fuel) (hf2 : E.length + 1 ≤ fuel) :
    ReplaceBlock st (fuel + 1)
        (P ++ '{' :: 'i' :: 'f' :: '(' :: '%' ::
          (a ++ '%' :: ')' :: '{' :: (T ++ '}' :: '{' :: (E ++ '}' :: '}' :: S)))) (len P) uid
      = .ok (P ++ (if va ≠ [] then T else E) ++ S,
          len P + len (if va ≠ [] then T else E) - 1) := by
  have hb : byteAt (P ++ '{' :: 'i' :: 'f' :: '(' :: '%' ::
      (a ++ '%' :: ')' :: '{' :: (T ++ '}' :: '{' :: (E ++ '}' :: '}' :: S)))) (len P + 1)
      = .ok 'i' := by
    have := byteAt_append_cons (P ++ ['{']) 'i' ('f' :: '(' :: '%' ::
      (a ++ '%' :: ')' :: '{' :: (T ++ '}' :: '{' :: (E ++ '}' :: '}' :: S)))) (len P + 1)
      (by rw [len_append]; rfl)
    simpa using this
  have hs : slice (P ++ '{' :: 'i' :: 'f' :: '(' :: '%' ::
      (a ++ '%' :: ')' :: '{' :: (T ++ '}' :: '{' :: (E ++ '}' :: '}' :: S)))) (len P + 1)
      (len P + 5) = .ok "if(%".toList := by
    have := slice_append_append (P ++ ['{']) "if(%".toList
      (a ++ '%' :: ')' :: '{' :: (T ++ '}' :: '{' :: (E ++ '}' :: '}' :: S))) (len P + 1)
      (len P + 5) (by rw [len_append]; rfl) (by rw [len_append]; simp [len]; omega)
    simpa using this
  have hc := replaceBlock_condition st fuel uid P a
    (T ++ '}' :: '{' :: (E ++ '}' :: '}' :: S)) va ha0 ha1 ha2 hP hres
  -- the text after the condition, in the shapes the later stages use
  have e0 : P ++ '{' :: 'i' :: 'f' :: '(' :: '$' ::
        (a ++ '$' :: ')' :: '{' :: (T ++ '}' :: '{' :: (E ++ '}' :: '}' :: S)))
      = P ++ (('{' :: 'i' :: 'f' :: '(' :: '$' :: (a ++ ['$', ')'])) ++
          '{' :: (T ++ '}' :: '{' :: (E ++ ['}', '}']))) ++ S := by simp
  have eT : P ++ (('{' :: 'i' :: 'f' :: '(' :: '$' :: (a ++ ['$', ')'])) ++
          '{' :: (T ++ '}' :: '{' :: (E ++ ['}', '}']))) ++ S
      = (P ++ '{' :: 'i' :: 'f' :: '(' :: '$' :: (a ++ ['$', ')'])) ++
          '{' :: (T ++ '}' :: ('{' :: (E ++ '}' :: '}' :: S))) := by simp
  have eN : P ++ (('{' :: 'i' :: 'f' :: '(' :: '$' :: (a ++ ['$', ')'])) ++
          '{' :: (T ++ '}' :: '{' :: (E ++ ['}', '}']))) ++ S
      = (P ++ '{' :: 'i' :: 'f' :: '(' :: '$' :: (a ++ ['$', ')']) ++ '{' :: (T ++ ['}'])) ++
          '{' :: (E ++ '}' :: ('}' :: S)) := by simp
  have eM : P ++ (('{' :: 'i' :: 'f' :: '(' :: '$' :: (a ++ ['$', ')'])) ++
          '{' :: (T ++ '}' :: '{' :: (E ++ ['}', '}']))) ++ S
      = (P ++ '{' :: 'i' :: 'f' :: '(' :: '$' :: (a ++ ['$', ')']) ++ '{' :: (T ++ ['}']) ++
          '{' :: (E ++ ['}'])) ++ '}' :: S := by simp
  have lH : len (P ++ '{' :: 'i' :: 'f' :: '(' :: '$' :: (a ++ ['$', ')'])) = len P + 7 + len a := by
    simp only [len, List.length_append, List.length_cons, List.length_nil]
    push_cast
    omega
  have lN : len (P ++ '{' :: 'i' :: 'f' :: '(' :: '$' :: (a ++ ['$', ')']) ++ '{' :: (T ++ ['}']))
      = len P + 7 + len a + 1 + len T + 1 := by
    simp only [len, List.length_append, List.length_cons, List.length_nil]
    push_cast
    omega
  have lM : len (P ++ '{' :: 'i' :: 'f' :: '(' :: '$' :: (a ++ ['$', ')']) ++ '{' :: (T ++ ['}']) ++
          '{' :: (E ++ ['}'])) = len P + 7 + len a + 1 + len T + 1 + 1 + len E + 1 := by
    simp only [len, List.length_append, List.length_cons, List.length_nil]
    push_cast
    omega
  have p0 := len_nonneg P
  have p1 := len_nonneg a
  have p2 := len_nonneg T
  have p3 := len_nonneg E
  have hst1 : ∀ rb, ReplaceBlock.statement st fuel rb uid a va
      (P ++ (('{' :: 'i' :: 'f' :: '(' :: '$' :: (a ++ ['$', ')'])) ++
          '{' :: (T ++ '}' :: '{' :: (E ++ ['}', '}']))) ++ S) (len P + 7 + len a) va
      = .ok (P ++ (('{' :: 'i' :: 'f' :: '(' :: '$' :: (a ++ ['$', ')'])) ++
          '{' :: (T ++ '}' :: '{' :: (E ++ ['}', '}']))) ++ S, len P + 7 + len a + 1 + len T, va) := by
    intro rb
    rw [eT, ← lH]
    exact statement_plain st fuel rb uid a va va _ T _ _ hT0 hT1 hT2 rfl (by rw [lH]; omega)
      (by simp; omega) hf1
  have hn1 : ReplaceBlock.next (P ++ (('{' :: 'i' :: 'f' :: '(' :: '$' :: (a ++ ['$', ')'])) ++
          '{' :: (T ++ '}' :: '{' :: (E ++ ['}', '}']))) ++ S) "\x7b".toList
        (len P + 7 + len a + 1 + len T) = .ok (len P + 7 + len a + 1 + len T + 1) := by
    rw [eN, ← lN]
    exact next_here _ _ '{' _ (by omega) (by rw [lN])
  have hst2 : ∀ rb, ReplaceBlock.statement st fuel rb uid a va
      (P ++ (('{' :: 'i' :: 'f' :: '(' :: '$' :: (a ++ ['$', ')'])) ++
          '{' :: (T ++ '}' :: '{' :: (E ++ ['}', '}']))) ++ S) (len P + 7 + len a + 1 + len T + 1) va
      = .ok (P ++ (('{' :: 'i' :: 'f' :: '(' :: '$' :: (a ++ ['$', ')'])) ++
          '{' :: (T ++ '}' :: '{' :: (E ++ ['}', '}']))) ++ S,
          len P + 7 + len a + 1 + len T + 1 + 1 + len E, va) := by
    intro rb
    rw [eN, ← lN]
    exact statement_plain st fuel rb uid a va va _ E _ _ hE0 hE1 hE2 rfl (by rw [lN]; omega)
      (by simp; omega) hf2
  have hn2 : ReplaceBlock.next (P ++ (('{' :: 'i' :: 'f' :: '(' :: '$' :: (a ++ ['$', ')'])) ++
          '{' :: (T ++ '}' :: '{' :: (E ++ ['}', '}']))) ++ S) "\x7d".toList
        (len P + 7 + len a + 1 + len T + 1 + 1 + len E)
        = .ok (len P + 7 + len a + 1 + len T + 1 + 1 + len E + 1) := by
    rw [eM, ← lM]
    exact next_here _ _ '}' _ (by omega) (by rw [lM])
  have hfin := finish_eq P ('{' :: 'i' :: 'f' :: '(' :: '$' :: (a ++ ['$', ')'])) T E S va
    (len P) (len P + 7 + len a) (len P + 7 + len a + 1 + len T)
    (len P + 7 + len a + 1 + len T + 1) (len P + 7 + len a + 1 + len T + 1 + 1 + len E)
    (len P + 7 + len a + 1 + len T + 1 + 1 + len E + 1) hR rfl
    (by simp only [len, List.length_append, List.length_cons, List.length_nil]; push_cast; omega)
    rfl rfl rfl rfl
  rw [e0] at hc
  rw [ReplaceBlock, hb]
  simp only [Outcome.ok_bind, if_neg (show ¬ ('i' = '%') by decide), hs, if_true, hc, hst1, hn1,
    hst2, hn2, hfin]

/-! ## A conditional nested at the start of the true branch -/

theorem contains_skip (c0 : Char) (p Y : Str) :
    ∀ X : Str, c0 ∉ X → Contains (X ++ Y) (c0 :: p) = Contains Y (c0 :: p) := by
  intro X
  induction X with
  | nil => intro _; rfl
  | cons x X ih =>
    intro h
    have hx : x ≠ c0 := fun e => h (by simp [e])
    have hX : c0 ∉ X := fun e => h (by simp [e])
    show Contains (x :: (X ++ Y)) (c0 :: p) = _
    rw [Contains, ih hX]
    simp [HasPrefix, hx]

theorem replace1_miss (c : Char) (t old new : Str) (h : HasPrefix (c :: t) old = false) :
    Replace1 (c :: t) old new = c :: Replace1 t old new := by
  rw [Replace1, h]
  rfl

theorem hasPrefix_first_diff (c d e : Char) (X Y T : Str) (hd : d ∉ T) (hde : d ≠ e) :
    ∀ u v : Str, c ∉ u → c ∉ v →
      HasPrefix (u ++ c :: d :: X) (v ++ c :: (T ++ e :: Y)) = false := by
  intro u
  induction u with
  | nil =>
    intro v _ hv
    cases v with
    | nil =>
      cases T with
      | nil => simp [HasPrefix, hde]
      | cons t T =>
        have : d ≠ t := fun e => hd (by simp [e])
        simp [HasPrefix, this]
    | cons y v =>
      have : c ≠ y := fun e => hv (by simp [e])
      simp [HasPrefix, this]
  | cons x u ih =>
    intro v hu hv
    have hx : x ≠ c := fun e => hu (by simp [e])
    have hu2 : c ∉ u := fun e => hu (by simp [e])
    cases v with
    | nil => simp [HasPrefix, hx]
    | cons y v =>
      have hv2 : c ∉ v := fun e => hv (by simp [e])
      have := ih v hu2 hv2
      show (x == y && HasPrefix (u ++ c :: d :: X) (v ++ c :: (T ++ e :: Y))) = false
      rw [this, Bool.and_false]

theorem replace1_inner_block (P a b T Y S new : Str) (hP : '{' ∉ P) (ha : '{' ∉ a)
    (hb : '{' ∉ b) (hT : '{' ∉ T) :
    Replace1
        (P ++ '{' :: 'i' :: 'f' :: '(' :: '$' :: (a ++ '$' :: ')' :: '{' ::
          '{' :: 'i' :: 'f' :: '(' :: '$' :: (b ++ '$' :: ')' :: '{' :: (T ++ '}' :: (Y ++ S)))))
        ('{' :: 'i' :: 'f' :: '(' :: '$' :: (b ++ '$' :: ')' :: '{' :: (T ++ '}' :: Y))) new
      = P ++ '{' :: 'i' :: 'f' :: '(' :: '$' :: (a ++ '$' :: ')' :: '{' :: (new ++ S)) := by
  have hmiss1 : HasPrefix
      ('{' :: 'i' :: 'f' :: '(' :: '$' :: (a ++ '$' :: ')' :: '{' ::
          '{' :: 'i' :: 'f' :: '(' :: '$' :: (b ++ '$' :: ')' :: '{' :: (T ++ '}' :: (Y ++ S)))))
      ('{' :: 'i' :: 'f' :: '(' :: '$' :: (b ++ '$' :: ')' :: '{' :: (T ++ '}' :: Y))) = false := by
    have h := hasPrefix_first_diff '{' '{' '}'
      ('i' :: 'f' :: '(' :: '$' :: (b ++ '$' :: ')' :: '{' :: (T ++ '}' :: (Y ++ S)))) Y T hT
      (by decide) (a ++ ['$', ')']) (b ++ ['$', ')'])
      (by simp [ha]) (by simp [hb])
    simp only [List.append_assoc, List.cons_append, List.nil_append] at h
    simp only [HasPrefix, beq_self_eq_true, Bool.true_and]
    exact h
  have hmiss2 : HasPrefix
      ('{' :: '{' :: 'i' :: 'f' :: '(' :: '$' :: (b ++ '$' :: ')' :: '{' :: (T ++ '}' :: (Y ++ S))))
      ('{' :: 'i' :: 'f' :: '(' :: '$' :: (b ++ '$' :: ')' :: '{' :: (T ++ '}' :: Y))) = false := by
    simp [HasPrefix]
  have hhit := replace1_first [] '{'
    ('i' :: 'f' :: '(' :: '$' :: (b ++ '$' :: ')' :: '{' :: (T ++ '}' :: Y))) new S (by simp)
  simp only [List.append_assoc, List.cons_append, List.nil_append] at hhit
  have hskip2 := replace1_skip '{'
    ('i' :: 'f' :: '(' :: '$' :: (b ++ '$' :: ')' :: '{' :: (T ++ '}' :: Y))) new
    ('{' :: '{' :: 'i' :: 'f' :: '(' :: '$' :: (b ++ '$' :: ')' :: '{' :: (T ++ '}' :: (Y ++ S))))
    ('i' :: 'f' :: '(' :: '$' :: (a ++ ['$', ')'])) (by simp [ha])
  simp only [List.append_assoc, List.cons_append, List.nil_append] at hskip2
  rw [replace1_skip '{' _ new _ P hP, replace1_miss _ _ _ _ hmiss1, hskip2,
    replace1_miss _ _ _ _ hmiss2, hhit]

theorem block_tail (st : Store) (fuel : Nat) (uid reference value buff P H T E S : Str)
    (hE0 : '{' ∉ E) (hE1 : '%' ∉ E) (hE2 : '}' ∉ E) (hlen : 4 ≤ E.length + S.length)
    (hH : 0 < H.length)
    (hR : ∀ new, Replace1 (P ++ (H ++ '{' :: (T ++ '}' :: '{' :: (E ++ ['}', '}']))) ++ S)
        (H ++ '{' :: (T ++ '}' :: '{' :: (E ++ ['}', '}']))) new = P ++ new ++ S)
    (hf : E.length + 1 ≤ fuel) :
    ReplaceBlock.next (P ++ (H ++ '{' :: (T ++ '}' :: '{' :: (E ++ ['}', '}']))) ++ S)
        "\x7b".toList (len P + len H + 1 + len T) = .ok (len P + len H + 1 + len T + 1) ∧
    (∀ rb, ReplaceBlock.statement st fuel rb uid reference value
        (P ++ (H ++ '{' :: (T ++ '}' :: '{' :: (E ++ ['}', '}']))) ++ S)
        (len P + len H + 1 + len T + 1) buff
      = .ok (P ++ (H ++ '{' :: (T ++ '}' :: '{' :: (E ++ ['}', '}']))) ++ S,
          len P + len H + 1 + len T + 1 + 1 + len E, buff)) ∧
    ReplaceBlock.next (P ++ (H ++ '{' :: (T ++ '}' :: '{' :: (E ++ ['}', '}']))) ++ S)
        "\x7d".toList (len P + len H + 1 + len T + 1 + 1 + len E)
      = .ok (len P + len H + 1 + len T + 1 + 1 + len E + 1) ∧
    ReplaceBlock.finish (P ++ (H ++ '{' :: (T ++ '}' :: '{' :: (E ++ ['}', '}']))) ++ S) (len P)
        value (len P + len H) (len P + len H + 1 + len T) (len P + len H + 1 + len T + 1)
        (len P + len H + 1 + len T + 1 + 1 + len E) (len P + len H + 1 + len T + 1 + 1 + len E + 1)
      = .ok (P ++ (if value ≠ [] then T else E) ++ S,
          len P + len (if value ≠ [] then T else E) - 1) := by
  have eN : P ++ (H ++ '{' :: (T ++ '}' :: '{' :: (E ++ ['}', '}']))) ++ S
      = (P ++ H ++ '{' :: (T ++ ['}'])) ++ '{' :: (E ++ '}' :: ('}' :: S)) := by simp
  have eM : P ++ (H ++ '{' :: (T ++ '}' :: '{' :: (E ++ ['}', '}']))) ++ S
      = (P ++ H ++ '{' :: (T ++ ['}']) ++ '{' :: (E ++ ['}'])) ++ '}' :: S := by simp
  have lN : len (P ++ H ++ '{' :: (T ++ ['}'])) = len P + len H + 1 + len T + 1 := by
    simp only [len, List.length_append, List.length_cons, List.length_nil]
    push_cast
    omega
  have lM : len (P ++ H ++ '{' :: (T ++ ['}']) ++ '{' :: (E ++ ['}']))
      = len P + len H + 1 + len T + 1 + 1 + len E + 1 := by
    simp only [len, List.length_append, List.length_cons, List.length_nil]
    push_cast
    omega
  have p0 := len_nonneg P
  have p1 : 0 < len H := by unfold len; omega
  have p2 := len_nonneg T
  have p3 := len_nonneg E
  refine ⟨?_, ?_, ?_, ?_⟩
  · rw [eN, ← lN]
    exact next_here _ _ '{' _ (by omega) (by rw [lN])
  · intro rb
    rw [eN, ← lN]
    exact statement_plain st fuel rb uid reference value buff _ E _ _ hE0 hE1 hE2 rfl
      (by rw [lN]; omega) (by simp; omega) hf
  · rw [eM, ← lM]
    exact next_here _ _ '}' _ (by omega) (by rw [lM])
  · exact finish_eq P H T E S value _ _ _ _ _ _ hR rfl rfl (by omega) rfl rfl rfl

theorem replaceBlock_nested (st : Store) (k : Nat) (uid P a b A B R E S va vb : Str)
    (hP0 : '{' ∉ P) (hP1 : '%' ∉ P)
    (ha0 : a ≠ []) (ha1 : ' ' ∉ a) (ha2 : '%' ∉ a) (ha3 : '{' ∉ a)
    (hb0 : b ≠ []) (hb1 : ' ' ∉ b) (hb2 : '%' ∉ b) (hb3 : '{' ∉ b)
    (hA0 : '{' ∉ A) (hA1 : '%' ∉ A) (hA2 : '}' ∉ A)
    (hB0 : '{' ∉ B) (hB1 : '%' ∉ B) (hB2 : '}' ∉ B)
    (hR1 : '%' ∉ R) (hR2 : '}' ∉ R)
    (hE0 : '{' ∉ E) (hE1 : '%' ∉ E) (hE2 : '}' ∉ E)
    (hlen : 4 ≤ E.length + S.length)
    (hra : resolveName st (k + 1) uid a = .ok va) (hrb : resolveName st k uid b = .ok vb)
    (hfA : A.length + 1 ≤ k) (hfB : B.length + 1 ≤ k) (hfR : R.length ≤ k)
    (hfE : E.length ≤ k) :
    ReplaceBlock st (k + 2)
        (P ++ '{' :: 'i' :: 'f' :: '(' :: '%' :: (a ++ '%' :: ')' :: '{' ::
          (' ' :: '{' :: 'i' :: 'f' :: '(' :: '%' :: (b ++ '%' :: ')' :: '{' ::
            (A ++ '}' :: '{' :: (B ++ '}' :: '}' ::
              (R ++ '}' :: '{' :: (E ++ '}' :: '}' :: S)))))))) (len P) uid
      = .ok (P ++ (if va ≠ [] then (if vb ≠ [] then A else B) ++ R else E) ++ S,
          len P + len (if va ≠ [] then (if vb ≠ [] then A else B) ++ R else E) - 1) := by
  have p0 := len_nonneg P
  have p1 := len_nonneg a
  have hb : byteAt (P ++ '{' :: 'i' :: 'f' :: '(' :: '%' :: (a ++ '%' :: ')' :: '{' ::
      (' ' :: '{' :: 'i' :: 'f' :: '(' :: '%' :: (b ++ '%' :: ')' :: '{' ::
        (A ++ '}' :: '{' :: (B ++ '}' :: '}' ::
          (R ++ '}' :: '{' :: (E ++ '}' :: '}' :: S)))))))) (len P + 1) = .ok 'i' := by
    have := byteAt_append_cons (P ++ ['{']) 'i' ('f' :: '(' :: '%' :: (a ++ '%' :: ')' :: '{' ::
      (' ' :: '{' :: 'i' :: 'f' :: '(' :: '%' :: (b ++ '%' :: ')' :: '{' ::
        (A ++ '}' :: '{' :: (B ++ '}' :: '}' ::
          (R ++ '}' :: '{' :: (E ++ '}' :: '}' :: S)))))))) (len P + 1)
      (by rw [len_append]; rfl)
    simpa using this
  have hs : slice (P ++ '{' :: 'i' :: 'f' :: '(' :: '%' :: (a ++ '%' :: ')' :: '{' ::
      (' ' :: '{' :: 'i' :: 'f' :: '(' :: '%' :: (b ++ '%' :: ')' :: '{' ::
        (A ++ '}' :: '{' :: (B ++ '}' :: '}' ::
          (R ++ '}' :: '{' :: (E ++ '}' :: '}' :: S)))))))) (len P + 1) (len P + 5)
      = .ok "if(%".toList := by
    have := slice_append_append (P ++ ['{']) "if(%".toList (a ++ '%' :: ')' :: '{' ::
      (' ' :: '{' :: 'i' :: 'f' :: '(' :: '%' :: (b ++ '%' :: ')' :: '{' ::
        (A ++ '}' :: '{' :: (B ++ '}' :: '}' ::
          (R ++ '}' :: '{' :: (E ++ '}' :: '}' :: S))))))) (len P + 1)
      (len P + 5) (by rw [len_append]; rfl) (by rw [len_append]; simp [len]; omega)
    simpa using this
  have hPc : Contains (P ++ ['{', 'i', 'f', '(']) ['(', '%'] = false :=
    contains_false_of_not_mem_second _ _ _ _ (by simp [hP1])
  have hc := replaceBlock_condition st (k + 1) uid P a
    (' ' :: '{' :: 'i' :: 'f' :: '(' :: '%' :: (b ++ '%' :: ')' :: '{' ::
        (A ++ '}' :: '{' :: (B ++ '}' :: '}' ::
          (R ++ '}' :: '{' :: (E ++ '}' :: '}' :: S)))))) va ha0 ha1 ha2 hPc hra
  -- the nested block is replaced first
  have hsl : slice (P ++ '{' :: 'i' :: 'f' :: '(' :: '$' :: (a ++ '$' :: ')' :: '{' ::
      (' ' :: '{' :: 'i' :: 'f' :: '(' :: '%' :: (b ++ '%' :: ')' :: '{' ::
        (A ++ '}' :: '{' :: (B ++ '}' :: '}' ::
          (R ++ '}' :: '{' :: (E ++ '}' :: '}' :: S)))))))) (len P + 7 + len a)
      (len P + 7 + len a + 7) = .ok "\x7b \x7bif(%".toList := by
    have := slice_append_append (P ++ '{' :: 'i' :: 'f' :: '(' :: '$' :: (a ++ ['$', ')']))
      "\x7b \x7bif(%".toList (b ++ '%' :: ')' :: '{' ::
        (A ++ '}' :: '{' :: (B ++ '}' :: '}' ::
          (R ++ '}' :: '{' :: (E ++ '}' :: '}' :: S))))) (len P + 7 + len a)
      (len P + 7 + len a + 7)
      (by simp only [len, List.length_append, List.length_cons, List.length_nil]; push_cast; omega)
      (by simp only [len, List.length_append, List.length_cons, List.length_nil, String.toList,
            String.length]; push_cast; simp; omega)
    simpa using this
  have hcp : Contains ((P ++ '{' :: 'i' :: 'f' :: '(' :: '$' :: (a ++ ['$', ')'])) ++ ['{'])
      ['{', ' '] = false := by
    have e : (P ++ '{' :: 'i' :: 'f' :: '(' :: '$' :: (a ++ ['$', ')'])) ++ ['{']
        = P ++ ('{' :: (('i' :: 'f' :: '(' :: '$' :: (a ++ ['$', ')'])) ++ ['{'])) := by simp
    rw [e, contains_skip '{' [' '] _ P hP0, Contains,
      contains_skip '{' [' '] _ ('i' :: 'f' :: '(' :: '$' :: (a ++ ['$', ')'])) (by simp [ha3])]
    simp [HasPrefix, Contains]
  have hrep := replace1_first2 '{' ' ' "\x7bif(%".toList "\x7b\x7bif(%".toList
    (b ++ '%' :: ')' :: '{' :: (A ++ '}' :: '{' :: (B ++ '}' :: '}' ::
      (R ++ '}' :: '{' :: (E ++ '}' :: '}' :: S)))))
    (P ++ '{' :: 'i' :: 'f' :: '(' :: '$' :: (a ++ ['$', ')'])) hcp
  simp only [String.toList, List.append_assoc, List.cons_append, List.nil_append] at hrep
  have hin := replaceBlock_plain st k uid
    (P ++ '{' :: 'i' :: 'f' :: '(' :: '$' :: (a ++ ['$', ')', '{'])) b A B
    (R ++ '}' :: '{' :: (E ++ '}' :: '}' :: S)) vb hb0 hb1 hb2 hA0 hA1 hA2 hB0 hB1 hB2
    (by simp; omega)
    (contains_false_of_not_mem_second _ _ _ _ (by simp [hP1, ha2]))
    (by
      intro new
      have := replace1_inner_block P a b A ('{' :: (B ++ ['}', '}']))
        (R ++ '}' :: '{' :: (E ++ '}' :: '}' :: S)) new hP0 ha3 hb3 hA0
      simpa using this)
    hrb hfA hfB
  have lP2 : len (P ++ '{' :: 'i' :: 'f' :: '(' :: '$' :: (a ++ ['$', ')', '{']))
      = len P + 7 + len a + 1 := by
    simp only [len, List.length_append, List.length_cons, List.length_nil]
    push_cast
    omega
  rw [lP2] at hin
  simp only [List.append_assoc, List.cons_append, List.nil_append] at hin
  obtain ⟨X, hX⟩ : ∃ X, X = if vb ≠ [] then A else B := ⟨_, rfl⟩
  rw [← hX] at hin
  rw [← hX]
  have p2 := len_nonneg X
  have p3 := len_nonneg R
  have hsub := subRefs_plain st (k + 1) uid a va va
    (P ++ '{' :: 'i' :: 'f' :: '(' :: '$' :: (a ++ ['$', ')', '{']) ++ X) R
    ('{' :: (E ++ '}' :: '}' :: S)) (len P + 7 + len a + 1 + len X - 1 + 1) hR1 hR2
    (by simp only [len, List.length_append, List.length_cons, List.length_nil]; push_cast; omega)
    (by omega)
  have lP3 : len (P ++ '{' :: 'i' :: 'f' :: '(' :: '$' :: (a ++ ['$', ')', '{']) ++ X)
      = len P + 7 + len a + 1 + len X := by
    simp only [len, List.length_append, List.length_cons, List.length_nil]
    push_cast
    omega
  rw [lP3] at hsub
  simp only [List.append_assoc, List.cons_append, List.nil_append] at hsub
  have hscan : ReplaceBlock.scanStatement st (k + 1) (fun t s => ReplaceBlock st (k + 1) t s uid)
      uid a va
      (P ++ '{' :: 'i' :: 'f' :: '(' :: '$' :: (a ++ '$' :: ')' :: '{' ::
        (' ' :: '{' :: 'i' :: 'f' :: '(' :: '%' :: (b ++ '%' :: ')' :: '{' ::
          (A ++ '}' :: '{' :: (B ++ '}' :: '}' ::
            (R ++ '}' :: '{' :: (E ++ '}' :: '}' :: S)))))))) (len P + 7 + len a) va
      = .ok (P ++ '{' :: 'i' :: 'f' :: '(' :: '$' :: (a ++ '$' :: ')' :: '{' ::
          (X ++ (R ++ '}' :: '{' :: (E ++ '}' :: '}' :: S)))),
          len P + 7 + len a + 1 + len X + len R, va) := by
    have hrep2 : Replace1
        (P ++ '{' :: 'i' :: 'f' :: '(' :: '$' :: (a ++ '$' :: ')' :: '{' ::
          (' ' :: '{' :: 'i' :: 'f' :: '(' :: '%' :: (b ++ '%' :: ')' :: '{' ::
            (A ++ '}' :: '{' :: (B ++ '}' :: '}' ::
              (R ++ '}' :: '{' :: (E ++ '}' :: '}' :: S))))))))
        "\x7b \x7bif(%".toList "\x7b\x7bif(%".toList
        = P ++ '{' :: 'i' :: 'f' :: '(' :: '$' :: (a ++ '$' :: ')' :: '{' :: '{' :: 'i' :: 'f' ::
            '(' :: '%' :: (b ++ '%' :: ')' :: '{' :: (A ++ '}' :: '{' :: (B ++ '}' :: '}' ::
              (R ++ '}' :: '{' :: (E ++ '}' :: '}' :: S)))))) := hrep
    have e1 : len P + 7 + len a + 1 + len X - 1 + 1 = len P + 7 + len a + 1 + len X := by omega
    rw [e1] at hsub
    rw [ReplaceBlock.scanStatement, hsl]
    simp only [Outcome.ok_bind, if_true, hrep2, hin, e1, hsub]
  have hgt : len P + 7 + len a + 1 + len X + len R > len P + 7 + len a := by omega
  have hstmt : ReplaceBlock.statement st (k + 1) (fun t s => ReplaceBlock st (k + 1) t s uid)
      uid a va
      (P ++ '{' :: 'i' :: 'f' :: '(' :: '$' :: (a ++ '$' :: ')' :: '{' ::
        (' ' :: '{' :: 'i' :: 'f' :: '(' :: '%' :: (b ++ '%' :: ')' :: '{' ::
          (A ++ '}' :: '{' :: (B ++ '}' :: '}' ::
            (R ++ '}' :: '{' :: (E ++ '}' :: '}' :: S)))))))) (len P + 7 + len a) va
      = .ok (P ++ '{' :: 'i' :: 'f' :: '(' :: '$' :: (a ++ '$' :: ')' :: '{' ::
          (X ++ (R ++ '}' :: '{' :: (E ++ '}' :: '}' :: S)))),
          len P + 7 + len a + 1 + len X + len R, va) := by
    rw [ReplaceBlock.statement, if_pos (by omega), hscan]
    simp only [Outcome.ok_bind, Outcome.pure_eq, if_pos hgt]
  have e3 : P ++ '{' :: 'i' :: 'f' :: '(' :: '$' :: (a ++ '$' :: ')' :: '{' ::
          (X ++ (R ++ '}' :: '{' :: (E ++ '}' :: '}' :: S))))
      = P ++ (('{' :: 'i' :: 'f' :: '(' :: '$' :: (a ++ ['$', ')'])) ++
          '{' :: ((X ++ R) ++ '}' :: '{' :: (E ++ ['}', '}']))) ++ S := by simp
  have lH : len ('{' :: 'i' :: 'f' :: '(' :: '$' :: (a ++ ['$', ')'])) = 7 + len a := by
    simp only [len, List.length_append, List.length_cons, List.length_nil]
    push_cast
    omega
  have e4 : len P + 7 + len a + 1 + len X + len R
      = len P + len ('{' :: 'i' :: 'f' :: '(' :: '$' :: (a ++ ['$', ')'])) + 1 + len (X ++ R) := by
    rw [lH, len_append]
    omega
  have e5 : len P + 7 + len a
      = len P + len ('{' :: 'i' :: 'f' :: '(' :: '$' :: (a ++ ['$', ')'])) := by
    rw [lH]
    omega
  obtain ⟨t1, t2, t3, t4⟩ := block_tail st (k + 1) uid a va va P
    ('{' :: 'i' :: 'f' :: '(' :: '$' :: (a ++ ['$', ')'])) (X ++ R) E S hE0 hE1 hE2 hlen
    (by simp)
    (by
      intro new
      have := replace1_first P '{' (('i' :: 'f' :: '(' :: '$' :: (a ++ ['$', ')'])) ++
          '{' :: ((X ++ R) ++ '}' :: '{' :: (E ++ ['}', '}']))) new S hP0
      simpa using this)
    (by omega)
  rw [e3, e4] at hstmt
  rw [ReplaceBlock, hb]
  simp only [Outcome.ok_bind, if_neg (show ¬ ('i' = '%') by decide), hs, if_true, hc, hstmt, t1,
    t2, t3]
  rw [e5, t4]

/-! ## Blocks with a missing delimiter (C11, C13) and a name with a space (C19) -/

/-- C11: with `age = "25"`, the text `{if(%age%){Adult content}{Minor content}`,
whose final closing brace is missing, makes `ReplaceReferences` panic (`FindChars`
gives back its start index when it finds nothing, the test
`match_index > end_else` passes and `text[start_block:end_block+1]` is out of
range); followed by ` Bye` the block is replaced all the same and one byte of the
tail is lost. -/
theorem conditional_without_final_brace (fuel : Nat) :
    ReplaceReferences demoStore (fuel + 16)
      "\x7bif(%age%)\x7bAdult content\x7d\x7bMinor content\x7d".toList
      "alice@example.org".toList = .panic ∧
    ReplaceReferences demoStore (fuel + 21)
      "Dear \x7bif(%age%)\x7bAdult content\x7d\x7bMinor content\x7d Bye".toList
      "alice@example.org".toList = .ok ("Dear Adult contentBye".toList, none) :=
  ⟨rfl, rfl⟩

/-- C13: with `age = "25"`, the text `{if(%age%){Welcome}}` makes
`ReplaceReferences` panic (`text[start_else:start_else+7]` is out of range), and
on `{if(%age%){Welcome}} to the club` two bytes of the text after the block are
lost; with the absent name `zip` the result is `o the club`. -/
theorem conditional_without_else (fuel : Nat) :
    ReplaceReferences demoStore (fuel + 10) "\x7bif(%age%)\x7bWelcome\x7d\x7d".toList
      "alice@example.org".toList = .panic ∧
    ReplaceReferences demoStore (fuel + 15)
      "\x7bif(%age%)\x7bWelcome\x7d\x7d to the club".toList
      "alice@example.org".toList = .ok ("Welcomeo the club".toList, none) ∧
    ReplaceReferences demoStore (fuel + 15)
      "\x7bif(%zip%)\x7bWelcome\x7d\x7d to the club".toList
      "alice@example.org".toList = .ok ("o the club".toList, none) :=
  ⟨rfl, rfl, rfl⟩

/-- C19: once the recipient id is resolved, whatever the store, the text
`{if(%first name%){Hello there}{Hi you}}` comes back with the `%` marks of the
condition rewritten to `$`, not unchanged. -/
theorem conditional_name_with_space (st : Store) (email uid : Str) (fuel : Nat)
    (hid : st.targetId email = .ok uid) :
    ReplaceReferences st (fuel + 40)
        "\x7bif(%first name%)\x7bHello there\x7d\x7bHi you\x7d\x7d".toList email
      = .ok ("\x7bif($first name$)\x7bHello there\x7d\x7bHi you\x7d\x7d".toList, none) ∧
    "\x7bif($first name$)\x7bHello there\x7d\x7bHi you\x7d\x7d".toList
      ≠ "\x7bif(%first name%)\x7bHello there\x7d\x7bHi you\x7d\x7d".toList := by
  refine ⟨?_, by decide⟩
  unfold ReplaceReferences
  rw [hid]
  rfl

/-- C19, on the demo store. -/
theorem conditional_name_with_space_witness :
    ReplaceReferences demoStore 40
        "\x7bif(%first name%)\x7bHello there\x7d\x7bHi you\x7d\x7d".toList
        "alice@example.org".toList
      = .ok ("\x7bif($first name$)\x7bHello there\x7d\x7bHi you\x7d\x7d".toList, none) :=
  (conditional_name_with_space demoStore "alice@example.org".toList "7".toList 0 rfl).1

/-! ## Sub-references (C14, C20) -/

/-- C14: with `age = "25"` and `offer = "50%% off"`, the text
`{if(%age%){Now %offer% and %% !}{Nothing}}` gives `Now 5050%% off off and %% !`:
the replacement of `%%` hits the first `%%` of the text, which is inside the value
just inserted, and the shortcut itself stays; with `city = "New York"` in the
place of `offer` the shortcut repeats the value. -/
theorem shortcut_hits_inserted_value (fuel : Nat) :
    ReplaceReferences quirkStore (fuel + 16)
      "\x7bif(%age%)\x7bNow %offer% and %% !\x7d\x7bNothing\x7d\x7d".toList
      "bob@example.org".toList = .ok ("Now 5050%% off off and %% !".toList, none) ∧
    ReplaceReferences quirkStore (fuel + 16)
      "\x7bif(%age%)\x7bNow %city% and %% !\x7d\x7bNothing\x7d\x7d".toList
      "bob@example.org".toList = .ok ("Now New York and New York !".toList, none) :=
  ⟨rfl, rfl⟩

/-- C20: on the demo store, whose names are all lower-case, the texts
`{if(%age%){%city% %age% %%}{Nobody}}` and `{if(%age%){%city% %AGE% %%}{Nobody}}`,
which differ only in the letter case of one sub-reference name, give
`New York 25 New York` and `New York 25 25`. -/
theorem letter_case_changes_output (fuel : Nat) :
    ReplaceReferences demoStore (fuel + 9)
      "\x7bif(%age%)\x7b%city% %age% %%\x7d\x7bNobody\x7d\x7d".toList
      "alice@example.org".toList = .ok ("New York 25 New York".toList, none) ∧
    ReplaceReferences demoStore (fuel + 9)
      "\x7bif(%age%)\x7b%city% %AGE% %%\x7d\x7bNobody\x7d\x7d".toList
      "alice@example.org".toList = .ok ("New York 25 25".toList, none) :=
  ⟨rfl, rfl⟩

/-! ## Conditions with parentheses out of order or tokens without spaces (C17, C18) -/

/-- C17: the condition `age == 25) OR (age == 30` has as many `(` as `)`, in the
wrong order; whatever the store, `SplitComplexCondition` panics on it (the stack
of open parentheses is empty at the first `)`), and so does `GetVariableValue` on
the variable `level` of the second store, whose first condition it is, instead of
going on to the next condition. -/
theorem misordered_parentheses_panic (st : Store) (uid : Str) (fuel : Nat) :
    Count "age == 25) OR (age == 30".toList '(' = Count "age == 25) OR (age == 30".toList ')' ∧
    properlyNested "age == 25) OR (age == 30".toList = false ∧
    SplitComplexCondition st (fuel + 11) "age == 25) OR (age == 30".toList uid = .panic ∧
    GetVariableValue quirkStore (fuel + 25) "9".toList "level".toList = .panic :=
  ⟨by decide, by decide, rfl, rfl⟩

theorem silver_gold_replaceValueSpaces (fuel : Nat) :
    ReplaceValueSpaces (fuel + 46)
        "(\"silver\"==\"silver\") AND (\"gold\"==\"platinum\")".toList
      = .ok "(\"silver\"==\"silver\") AND (\"gold\"==\"platinum\")".toList := by
  rfl

theorem silver_gold_removeSpaces :
    RemoveSpaces "(\"silver\"==\"silver\") AND (\"gold\"==\"platinum\")".toList
      = "(\"silver\"==\"silver\") AND (\"gold\"==\"platinum\")".toList := by
  decide

theorem silver_gold_split (st : Store) (uid : Str) (fuel : Nat) :
    SplitComplexCondition st (fuel + 21)
        "(\"silver\"==\"silver\") AND (\"gold\"==\"platinum\")".toList uid = .panic := by
  rfl

/-- C18: whatever the store and the recipient, the condition
`("silver"=="silver") AND ("gold"=="platinum")`, normalised and evaluated as the
loop of `GetVariableValue` does, panics: the token `"silver"=="silver"` is taken
for the field of a leaf and `elements[i+1]` is out of range. -/
theorem parenthesis_example_panics (st : Store) (uid value : Str) (fuel : Nat) :
    evalCondition st (fuel + 46) uid
      ⟨"(\"silver\"==\"silver\") AND (\"gold\"==\"platinum\")".toList, value⟩ = .panic := by
  have hc : Count "(\"silver\"==\"silver\") AND (\"gold\"==\"platinum\")".toList '('
      = Count "(\"silver\"==\"silver\") AND (\"gold\"==\"platinum\")".toList ')' := by
    decide
  unfold evalCondition
  rw [if_pos hc]
  simp only [silver_gold_replaceValueSpaces fuel, Outcome.ok_bind, silver_gold_removeSpaces]
  exact silver_gold_split st uid (fuel + 25)

/-! ## Nested conditional (C12) -/

/-- C12: for names `a`, `b` (non-empty, without space, `%` or `{`) whose values by
the resolver are `va` and `vb`, and plain texts `A`, `B`, `R`, `E` (none of `{`,
`}`, `%`) with `E` of at least four bytes, `ReplaceReferences` with enough fuel
turns `{if(%a%){ {if(%b%){A}{B}}R}{E}}` into `X ++ R` when `va` is not empty, where
`X` is `A` when `vb` is not empty and `B` otherwise, and into `E` when `va` is
empty; the output is exactly that plain text, so none of `{`, `}`, `%` is left
over. -/
theorem nested_conditional (st : Store) (email uid a b A B R E va vb : Str) (F : Nat)
    (hid : st.targetId email = .ok uid)
    (ha0 : a ≠ []) (ha1 : ' ' ∉ a) (ha2 : '%' ∉ a) (ha3 : '{' ∉ a)
    (hb0 : b ≠ []) (hb1 : ' ' ∉ b) (hb2 : '%' ∉ b) (hb3 : '{' ∉ b)
    (hA0 : '{' ∉ A) (hA1 : '%' ∉ A) (hA2 : '}' ∉ A)
    (hB0 : '{' ∉ B) (hB1 : '%' ∉ B) (hB2 : '}' ∉ B)
    (hR0 : '{' ∉ R) (hR1 : '%' ∉ R) (hR2 : '}' ∉ R)
    (hE0 : '{' ∉ E) (hE1 : '%' ∉ E) (hE2 : '}' ∉ E) (hlen : 4 ≤ E.length)
    (hra : ∀ f, F ≤ f → resolveName st f uid a = .ok va)
    (hrb : ∀ f, F ≤ f → resolveName st f uid b = .ok vb)
    (fuel : Nat) (hfuel : F + A.length + B.length + R.length + E.length + 4 ≤ fuel) :
    ReplaceReferences st fuel
        ("\x7bif(%".toList ++ a ++ "%)\x7b \x7bif(%".toList ++ b ++ "%)\x7b".toList ++ A ++
          "\x7d\x7b".toList ++ B ++ "\x7d\x7d".toList ++ R ++ "\x7d\x7b".toList ++ E ++
          "\x7d\x7d".toList) email
      = .ok (if va ≠ [] then (if vb ≠ [] then A else B) ++ R else E, none) ∧
    '{' ∉ (if va ≠ [] then (if vb ≠ [] then A else B) ++ R else E) ∧
    '}' ∉ (if va ≠ [] then (if vb ≠ [] then A else B) ++ R else E) ∧
    '%' ∉ (if va ≠ [] then (if vb ≠ [] then A else B) ++ R else E) := by
  refine ⟨?_, ?_, ?_, ?_⟩
  · obtain ⟨k, rfl⟩ : ∃ k, fuel = k + 3 := ⟨fuel - 3, by omega⟩
    have e : "\x7bif(%".toList ++ a ++ "%)\x7b \x7bif(%".toList ++ b ++ "%)\x7b".toList ++ A ++
          "\x7d\x7b".toList ++ B ++ "\x7d\x7d".toList ++ R ++ "\x7d\x7b".toList ++ E ++
          "\x7d\x7d".toList
        = [] ++ '{' :: 'i' :: 'f' :: '(' :: '%' :: (a ++ '%' :: ')' :: '{' ::
          (' ' :: '{' :: 'i' :: 'f' :: '(' :: '%' :: (b ++ '%' :: ')' :: '{' ::
            (A ++ '}' :: '{' :: (B ++ '}' :: '}' ::
              (R ++ '}' :: '{' :: (E ++ '}' :: '}' :: []))))))) := by simp
    have hblock := replaceBlock_nested st k uid [] a b A B R E [] va vb (by simp) (by simp)
      ha0 ha1 ha2 ha3 hb0 hb1 hb2 hb3 hA0 hA1 hA2 hB0 hB1 hB2 hR1 hR2 hE0 hE1 hE2
      (by simp; omega) (hra (k + 1) (by omega)) (hrb k (by omega)) (by omega) (by omega)
      (by omega) (by omega)
    obtain ⟨out, hout⟩ : ∃ out, out = if va ≠ [] then (if vb ≠ [] then A else B) ++ R else E :=
      ⟨_, rfl⟩
    rw [← hout] at hblock
    rw [← hout, e]
    simp only [List.append_nil] at hblock
    have hlen0 : len ([] : Str) = 0 := rfl
    rw [hlen0] at hblock
    have hb0 : byteAt ([] ++ '{' :: 'i' :: 'f' :: '(' :: '%' :: (a ++ '%' :: ')' :: '{' ::
          (' ' :: '{' :: 'i' :: 'f' :: '(' :: '%' :: (b ++ '%' :: ')' :: '{' ::
            (A ++ '}' :: '{' :: (B ++ '}' :: '}' ::
              (R ++ '}' :: '{' :: (E ++ '}' :: '}' :: [])))))))) 0 = .ok '{' :=
      byteAt_append_cons [] '{' _ 0 rfl
    unfold ReplaceReferences
    rw [hid]
    simp only []
    rw [loop_step_block st uid _ (k + 2) 0 hb0 (by simp [len]; omega), hblock]
    simp only [Outcome.ok_bind, List.nil_append]
    rw [loop_end st uid out (k + 1) _ (by omega)]
    rfl
  · split_ifs <;> simp_all
  · split_ifs <;> simp_all
  · split_ifs <;> simp_all

/-- C12, on the demo store (`age = "25"`, `city = "New York"`): both names resolve
non-empty, so the inner true branch and the rest of the outer one are kept. -/
theorem nested_conditional_witness :
    ReplaceReferences demoStore 40
        "\x7bif(%age%)\x7b \x7bif(%city%)\x7bAdult in town\x7d\x7bAdult\x7d\x7d, hello\x7d\x7bMinor\x7d\x7d".toList
        "alice@example.org".toList
      = .ok ("Adult in town, hello".toList, none) :=
  (nested_conditional demoStore "alice@example.org".toList "7".toList "age".toList
    "city".toList "Adult in town".toList "Adult".toList ", hello".toList "Minor".toList
    "25".toList "New York".toList 0 rfl (by decide) (by decide) (by decide) (by decide)
    (by decide) (by decide) (by decide) (by decide) (by decide) (by decide) (by decide)
    (by decide) (by decide) (by decide) (by decide) (by decide) (by decide) (by decide)
    (by decide) (by decide) (by decide)
    (fun f _ => resolveName_attribute demoStore f _ _ _ rfl (by decide))
    (fun f _ => resolveName_attribute demoStore f _ _ _ rfl (by decide)) 40 (by decide)).1

/-! ## Attribute before variable (C15) -/

theorem resolveName_empty_attribute (st : Store) (fuel : Nat) (uid reference : Str)
    (h : st.fieldValue uid (ToLower reference) = .ok []) :
    resolveName st fuel uid reference
      = (GetVariableValue st fuel uid (ToLower reference) >>= fun r => pure r.1) := by
  simp [resolveName, GetFieldValue, h]

/-- C15, the counterexample: for recipient `9` of the second store the attribute
lookup for `nick` succeeds with the empty value, and yet the name resolves to
`Bobby`, the value of the variable `nick`: `{%nick%}` becomes `Bobby` and the
conditional on `nick` takes its true branch. -/
theorem empty_attribute_consults_variable :
    quirkStore.fieldValue "9".toList (ToLower "nick".toList) = .ok [] ∧
    resolveName quirkStore 1 "9".toList "nick".toList = .ok "Bobby".toList ∧
    ReplaceReferences quirkStore 3 "\x7b%nick%\x7d".toList "bob@example.org".toList
      = .ok ("Bobby".toList, none) ∧
    ReplaceReferences quirkStore 12 "\x7bif(%nick%)\x7bHello\x7d\x7bNobody\x7d\x7d".toList
        "bob@example.org".toList
      = .ok ("Hello".toList, none) :=
  ⟨rfl, rfl, rfl, rfl⟩

/-- C15, amended: for every name `N` of ASCII bytes (non-empty, without space or
`%`) whose attribute lookup for the recipient, made with the lower-cased name,
succeeds with a non-empty value `v`, the name resolves to `v`, the text `{%N%}`
becomes `v`, and the selector value that `ReplaceBlock` computes for
`{if(%N%){...` is `v`, whatever the variable tables of the store hold: the
variable of the same name is not consulted. -/
theorem attribute_priority (st : Store) (vn : Str → Except GoError Var)
    (sc : Str → Str → Str → Except GoError Str) (cs : Str → Except GoError (List Cond))
    (email uid N v rest : Str) (fuel : Nat)
    (hid : st.targetId email = .ok uid)
    (hN0 : N ≠ []) (hN1 : ' ' ∉ N) (hN2 : '%' ∉ N) (_hascii : isASCII N = true)
    (hv : st.fieldValue uid (ToLower N) = .ok v) (hne : v ≠ []) (hfuel : 2 ≤ fuel) :
    resolveName (withVariables st vn sc cs) fuel uid N = .ok v ∧
    ReplaceReferences (withVariables st vn sc cs) fuel
        ("\x7b%".toList ++ N ++ "%\x7d".toList) email = .ok (v, none) ∧
    ReplaceBlock.condition (withVariables st vn sc cs) fuel
        ("\x7bif(%".toList ++ N ++ "%)\x7b".toList ++ rest) 0 uid
      = .ok ("\x7bif($".toList ++ N ++ "$)\x7b".toList ++ rest, N, v, 7 + len N) := by
  have hv2 : (withVariables st vn sc cs).fieldValue uid (ToLower N) = .ok v := hv
  have hr : ∀ f, resolveName (withVariables st vn sc cs) f uid N = .ok v :=
    fun f => resolveName_attribute _ f uid N v hv2 hne
  refine ⟨hr fuel, ?_, ?_⟩
  · obtain ⟨k, rfl⟩ : ∃ k, fuel = k + 2 := ⟨fuel - 2, by omega⟩
    have hc : Contains N "%\x7d".toList = false := contains_false_of_not_mem_first N _ _ hN2
    have h := scan_simple_ref (withVariables st vn sc cs) uid [] N [] v k (by simp) (by simp)
      hN1 hc (hr _)
    have hid2 : (withVariables st vn sc cs).targetId email = .ok uid := hid
    have e : "\x7b%".toList ++ N ++ "%\x7d".toList = [] ++ '{' :: '%' :: (N ++ '%' :: '}' :: []) := by
      simp
    simp only [List.length_nil, Nat.add_zero, List.append_nil, List.nil_append] at h
    rw [e, ReplaceReferences, hid2]
    simp only [List.nil_append, h, Outcome.ok_bind, Outcome.pure_eq]
  · have h := replaceBlock_condition (withVariables st vn sc cs) fuel uid [] N rest v hN0 hN1 hN2
      (by decide) (hr fuel)
    have e1 : "\x7bif(%".toList ++ N ++ "%)\x7b".toList ++ rest
        = [] ++ '{' :: 'i' :: 'f' :: '(' :: '%' :: (N ++ '%' :: ')' :: '{' :: rest) := by simp
    have e2 : "\x7bif($".toList ++ N ++ "$)\x7b".toList ++ rest
        = [] ++ '{' :: 'i' :: 'f' :: '(' :: '$' :: (N ++ '$' :: ')' :: '{' :: rest) := by simp
    have e3 : (7 : Int) + len N = len ([] : Str) + 7 + len N := by simp [len]
    have e4 : (0 : Int) = len ([] : Str) := rfl
    rw [e1, e2, e3]
    rw [e4]
    exact h

/-- C15, on the demo store with the variable tables of the second store: `{%city%}`
becomes `New York`. -/
theorem attribute_priority_witness :
    ReplaceReferences (withVariables demoStore quirkStore.variableByName
        quirkStore.simpleCondition quirkStore.conditions) 2
        "\x7b%city%\x7d".toList "alice@example.org".toList = .ok ("New York".toList, none) :=
  (attribute_priority demoStore quirkStore.variableByName quirkStore.simpleCondition
    quirkStore.conditions "alice@example.org".toList "7".toList "city".toList "New York".toList
    [] 2 rfl (by decide) (by decide) (by decide) (by decide) rfl (by decide) (by decide)).2.1

/-! ## Spaces inside a quoted literal: encoding and decoding -/

theorem replaceAll_go_encode : ∀ (s : Str) (n : Nat), s.length ≤ n →
    ReplaceAll.go [' '] ['%', '2', '0'] n s = encodeSpaces s := by
  intro s
  induction s with
  | nil => intro n _; cases n <;> rfl
  | cons c s ih =>
    intro n hn
    obtain ⟨m, rfl⟩ : ∃ m, n = m + 1 := ⟨n - 1, by simp at hn; omega⟩
    have hm : s.length ≤ m := by simp at hn; omega
    by_cases hc : c = ' '
    · subst hc
      simp [ReplaceAll.go, HasPrefix, encodeSpaces, ih m hm]
    · simp [ReplaceAll.go, HasPrefix, encodeSpaces, hc, ih m hm]

theorem replaceAll_encode (s : Str) :
    ReplaceAll s [' '] ['%', '2', '0'] = encodeSpaces s := by
  have : ReplaceAll s [' '] ['%', '2', '0'] = ReplaceAll.go [' '] ['%', '2', '0'] s.length s := by
    rw [ReplaceAll, if_neg (by decide)]
  rw [this, replaceAll_go_encode s s.length (Nat.le_refl _)]

theorem replaceAll_go_none (old new : Str) : ∀ (s : Str) (n : Nat),
    Contains s old = false → ReplaceAll.go old new n s = s := by
  intro s
  induction s with
  | nil => intro n _; cases n <;> rfl
  | cons c s ih =>
    intro n h
    cases n with
    | zero => rfl
    | succ m =>
      simp only [Contains, Bool.or_eq_false_iff] at h
      rw [ReplaceAll.go, if_neg (by simp [h.1]), ih m h.2]

theorem replaceAll_none (s old new : Str) (hold : old ≠ []) (h : Contains s old = false) :
    ReplaceAll s old new = s := by
  rw [ReplaceAll, if_neg hold, replaceAll_go_none old new s _ h]

theorem encodeSpaces_append (a b : Str) :
    encodeSpaces (a ++ b) = encodeSpaces a ++ encodeSpaces b := by
  induction a with
  | nil => rfl
  | cons c a ih =>
    by_cases hc : c = ' '
    · simp [encodeSpaces, hc, ih]
    · simp [encodeSpaces, hc, ih]

theorem encodeSpaces_no_space (s : Str) : ' ' ∉ encodeSpaces s := by
  induction s with
  | nil => simp [encodeSpaces]
  | cons c s ih =>
    by_cases hc : c = ' '
    · simp [encodeSpaces, hc, ih]
    · simp only [encodeSpaces, if_neg hc, List.mem_cons, not_or]
      exact ⟨fun e => hc e.symm, ih⟩

theorem encodeSpaces_not_mem (c : Char) (s : Str) (h : c ∉ s) (h1 : c ≠ '%') (h2 : c ≠ '2')
    (h3 : c ≠ '0') : c ∉ encodeSpaces s := by
  induction s with
  | nil => simp [encodeSpaces]
  | cons d s ih =>
    have hd : c ≠ d := fun e => h (by simp [e])
    have hs : c ∉ s := fun e => h (by simp [e])
    by_cases hc : d = ' '
    · simp [encodeSpaces, hc, ih hs, h1, h2, h3]
    · simp [encodeSpaces, hc, ih hs, hd]

theorem encodeSpaces_length (s : Str) :
    len (encodeSpaces s) = len s + 2 * Count s ' ' := by
  induction s with
  | nil => rfl
  | cons c s ih =>
    unfold len Count at ih ⊢
    by_cases hc : c = ' '
    · subst hc
      simp only [encodeSpaces, if_true, List.length_cons, List.count_cons_self]
      push_cast
      omega
    · have : (c == ' ') = false := by simp [hc]
      simp only [encodeSpaces, if_neg hc, List.length_cons, List.count_cons, this]
      push_cast
      simp
      omega

theorem hasPrefix_encoded_tail (x : Char) (L : Str) (hx : x ≠ ' ')
    (h : HasPrefix (x :: L) ['%', '2', '0'] = false) :
    HasPrefix (x :: (encodeSpaces L ++ ['"'])) ['%', '2', '0'] = false := by
  by_cases hp : x = '%'
  · subst hp
    match L, h with
    | [], _ => simp [HasPrefix, encodeSpaces]
    | [y], _ =>
      by_cases hy : y = ' '
      · simp [HasPrefix, encodeSpaces, hy]
      · by_cases hy2 : y = '2'
        · simp [HasPrefix, encodeSpaces, hy, hy2]
        · simp [HasPrefix, encodeSpaces, hy, hy2]
    | y :: z :: L, h =>
      by_cases hy : y = ' '
      · simp [HasPrefix, encodeSpaces, hy]
      · by_cases hy2 : y = '2'
        · subst hy2
          by_cases hz : z = ' '
          · simp [HasPrefix, encodeSpaces, hz]
          · have hz0 : z ≠ '0' := by
              intro e
              subst e
              simp [HasPrefix] at h
            simp [HasPrefix, encodeSpaces, hz, hz0]
        · simp [HasPrefix, encodeSpaces, hy, hy2]
  · simp [HasPrefix, hp]

theorem replaceAll_go_decode : ∀ (L : Str) (n : Nat), Contains L ['%', '2', '0'] = false →
    (encodeSpaces L).length + 1 ≤ n →
    ReplaceAll.go ['%', '2', '0'] [' '] n (encodeSpaces L ++ ['"']) = L ++ ['"'] := by
  intro L
  induction L with
  | nil =>
    intro n _ hn
    obtain ⟨m, rfl⟩ : ∃ m, n = m + 1 := ⟨n - 1, by omega⟩
    cases m <;> simp [encodeSpaces, ReplaceAll.go, HasPrefix]
  | cons c L ih =>
    intro n h hn
    obtain ⟨m, rfl⟩ : ∃ m, n = m + 1 := ⟨n - 1, by omega⟩
    simp only [Contains, Bool.or_eq_false_iff] at h
    by_cases hc : c = ' '
    · subst hc
      have hm : (encodeSpaces L).length + 1 ≤ m := by
        simp [encodeSpaces] at hn
        omega
      have := ih m h.2 hm
      simp [encodeSpaces, ReplaceAll.go, HasPrefix, this]
    · have hm : (encodeSpaces L).length + 1 ≤ m := by
        simp [encodeSpaces, hc] at hn
        omega
      have hp := hasPrefix_encoded_tail c L hc h.1
      have e : encodeSpaces (c :: L) ++ ['"'] = c :: (encodeSpaces L ++ ['"']) := by
        simp [encodeSpaces, hc]
      rw [e, ReplaceAll.go, if_neg (by simp [hp]), ih m h.2 hm]
      rfl

theorem replaceAll_go_strip (c : Char) : ∀ (s : Str) (n : Nat), s.length ≤ n →
    ReplaceAll.go [c] [] n s = s.filter (fun x => x != c) := by
  intro s
  induction s with
  | nil => intro n _; cases n <;> rfl
  | cons d s ih =>
    intro n hn
    obtain ⟨m, rfl⟩ : ∃ m, n = m + 1 := ⟨n - 1, by simp at hn; omega⟩
    have hm : s.length ≤ m := by simp at hn; omega
    by_cases hd : d = c
    · subst hd
      simp [ReplaceAll.go, HasPrefix, ih m hm]
    · simp [ReplaceAll.go, HasPrefix, hd, ih m hm]

theorem decode_quoted (L : Str) (h1 : '"' ∉ L) (h2 : Contains L ['%', '2', '0'] = false) :
    ReplaceAll (ReplaceAll ('"' :: (encodeSpaces L ++ ['"'])) ['%', '2', '0'] [' '])
      ['"'] [] = L := by
  have e1 : ReplaceAll ('"' :: (encodeSpaces L ++ ['"'])) ['%', '2', '0'] [' ']
      = '"' :: (L ++ ['"']) := by
    rw [ReplaceAll, if_neg (by decide)]
    have hl : ('"' :: (encodeSpaces L ++ ['"'])).length = ((encodeSpaces L).length + 1) + 1 := by
      simp
    rw [hl, ReplaceAll.go, if_neg (by simp [HasPrefix]),
      replaceAll_go_decode L _ h2 (Nat.le_refl _)]
  have e2 : ReplaceAll ('"' :: (L ++ ['"'])) ['"'] [] = L := by
    rw [ReplaceAll, if_neg (by decide)]
    have := replaceAll_go_strip '"' ('"' :: (L ++ ['"'])) _ (Nat.le_refl _)
    rw [this]
    simp only [List.filter_cons, bne_self_eq_false, Bool.false_eq_true, if_false,
      List.filter_append, List.filter_nil, List.append_nil]
    rw [List.filter_eq_self]
    intro x hx
    simp only [bne_iff_ne, ne_eq]
    intro e
    exact h1 (e ▸ hx)
  rw [e1, e2]

theorem matchCondition_quoted (st : Store) (uid NAME L : Str) (h1 : '"' ∉ L)
    (h2 : Contains L ['%', '2', '0'] = false) :
    MatchCondition st NAME ['=', '='] ('"' :: (encodeSpaces L ++ ['"'])) uid = true ↔
      st.fieldValue uid (ToLower NAME) = .ok L := by
  have hd := decode_quoted L h1 h2
  unfold MatchCondition
  cases h : st.fieldValue uid (ToLower NAME) with
  | error e => simp
  | ok v => simp [hd]

theorem rvs_loop_end (fuel : Nat) (condition : Str) (i : Int) (hi : len condition ≤ i) :
    ReplaceValueSpaces.loop (fuel + 1) condition i = .ok condition := by
  rw [ReplaceValueSpaces.loop, if_neg (by omega)]
  rfl

theorem rvs_loop_other (fuel : Nat) (condition : Str) (i : Int) (c : Char)
    (hlt : i < len condition) (hb : byteAt condition i = .ok c) (hc : c ≠ '"') :
    ReplaceValueSpaces.loop (fuel + 1) condition i
      = ReplaceValueSpaces.loop fuel condition (i + 1) := by
  rw [ReplaceValueSpaces.loop, if_pos hlt, hb]
  simp only [Outcome.ok_bind, if_neg hc]

theorem rvs_loop_skip (X : Str) (hX : '"' ∉ X) :
    ∀ (pre rest : Str) (fuel : Nat) (i : Int), i = len pre →
      ReplaceValueSpaces.loop (fuel + X.length) (pre ++ X ++ rest) i
        = ReplaceValueSpaces.loop fuel (pre ++ X ++ rest) (i + len X) := by
  induction X with
  | nil => intro pre rest fuel i _; simp [len]
  | cons c X ih =>
    intro pre rest fuel i hi
    have hc : c ≠ '"' := fun e => hX (by simp [e])
    have hX2 : '"' ∉ X := fun e => hX (by simp [e])
    have e1 : fuel + (c :: X).length = (fuel + X.length) + 1 := by simp; omega
    have hlt : i < len (pre ++ c :: X ++ rest) := by
      subst hi
      simp only [len, List.length_append, List.length_cons]
      push_cast
      omega
    have hb : byteAt (pre ++ c :: X ++ rest) i = .ok c := by
      have := byteAt_append_cons pre c (X ++ rest) i hi
      simpa using this
    rw [e1, rvs_loop_other _ _ i c hlt hb hc]
    have e2 : pre ++ c :: X ++ rest = (pre ++ [c]) ++ X ++ rest := by simp
    have e3 : i + 1 + len X = i + len (c :: X) := by rw [len_cons]; omega
    rw [e2, ih hX2 (pre ++ [c]) rest fuel (i + 1) (by rw [hi, len_append]; rfl), e3]

theorem rvs_inner_scan (pre : Str) :
    ∀ (L2 L1 : Str) (n : Nat) (j : Int), '"' ∉ L2 → j = len pre + 1 + len L1 →
      L2.length + 1 ≤ n →
      ReplaceValueSpaces.inner (pre ++ '"' :: (L1 ++ L2 ++ ['"'])) (len pre) n j
        = .ok (pre ++ encodeSpaces ('"' :: (L1 ++ L2 ++ ['"'])),
            if Count ('"' :: (L1 ++ L2 ++ ['"'])) ' ' = 0 then j + len L2
            else j + len L2 + 2 * Count ('"' :: (L1 ++ L2 ++ ['"'])) ' ') := by
  intro L2
  induction L2 with
  | nil =>
    intro L1 n j _ hj hn
    obtain ⟨m, rfl⟩ : ∃ m, n = m + 1 := ⟨n - 1, by omega⟩
    have hb : byteAt (pre ++ '"' :: (L1 ++ [] ++ ['"'])) j = .ok '"' := by
      have := byteAt_append_cons (pre ++ '"' :: L1) '"' [] j
        (by rw [hj, len_append, len_cons]; omega)
      simpa using this
    have hq : slice (pre ++ '"' :: (L1 ++ [] ++ ['"'])) (len pre) (j + 1)
        = .ok ('"' :: (L1 ++ [] ++ ['"'])) := by
      have := slice_append_append pre ('"' :: (L1 ++ [] ++ ['"'])) [] (len pre) (j + 1) rfl
        (by rw [hj]; simp [len]; omega)
      simpa using this
    have hp : slice (pre ++ '"' :: (L1 ++ [] ++ ['"'])) 0 (len pre) = .ok pre := by
      have := slice_append_append [] pre ('"' :: (L1 ++ [] ++ ['"'])) 0 (len pre) rfl
        (by simp [len])
      simpa using this
    have hpost : slice (pre ++ '"' :: (L1 ++ [] ++ ['"'])) (j + 1)
        (len (pre ++ '"' :: (L1 ++ [] ++ ['"']))) = .ok [] := by
      have := slice_suffix (pre ++ '"' :: (L1 ++ [] ++ ['"'])) [] (j + 1)
        (len (pre ++ '"' :: (L1 ++ [] ++ ['"'])))
        (by rw [hj]; simp [len]; omega) (by simp)
      simpa using this
    have hr : ReplaceAll ('"' :: (L1 ++ [] ++ ['"'])) " ".toList "%20".toList
        = encodeSpaces ('"' :: (L1 ++ [] ++ ['"'])) := replaceAll_encode _
    rw [ReplaceValueSpaces.inner, hb]
    simp only [Outcome.ok_bind, if_true, hq, hp, hpost]
    rw [hr]
    have hl : len ([] : Str) = 0 := rfl
    simp only [Outcome.pure_eq, List.append_nil, hl, add_zero]
    split_ifs <;> rfl
  | cons c L2 ih =>
    intro L1 n j hL hj hn
    obtain ⟨m, rfl⟩ : ∃ m, n = m + 1 := ⟨n - 1, by omega⟩
    have hc : c ≠ '"' := fun e => hL (by simp [e])
    have hL2 : '"' ∉ L2 := fun e => hL (by simp [e])
    have hb : byteAt (pre ++ '"' :: (L1 ++ c :: L2 ++ ['"'])) j = .ok c := by
      have := byteAt_append_cons (pre ++ '"' :: L1) c (L2 ++ ['"']) j
        (by rw [hj, len_append, len_cons]; omega)
      simpa using this
    have e2 : L1 ++ c :: L2 = (L1 ++ [c]) ++ L2 := by simp
    have e3 : j + 1 + len L2 = j + len (c :: L2) := by rw [len_cons]; omega
    rw [ReplaceValueSpaces.inner, hb]
    simp only [Outcome.ok_bind, if_neg hc]
    rw [e2, ih (L1 ++ [c]) m (j + 1) hL2 (by rw [hj, len_append]; simp [len]; omega)
      (by simp at hn; omega), e3]

theorem encodeSpaces_quoted (L : Str) :
    encodeSpaces ('"' :: (L ++ ['"'])) = '"' :: (encodeSpaces L ++ ['"']) := by
  have h := encodeSpaces_append L ['"']
  have h2 : encodeSpaces ['"'] = ['"'] := by decide
  rw [h2] at h
  rw [encodeSpaces, if_neg (by decide), h]

theorem replaceValueSpaces_quoted (pre L : Str) (fuel : Nat) (hpre : '"' ∉ pre) (hL : '"' ∉ L)
    (hf : pre.length + 2 ≤ fuel) :
    ReplaceValueSpaces fuel (pre ++ '"' :: (L ++ ['"']))
      = .ok (pre ++ '"' :: (encodeSpaces L ++ ['"'])) := by
  obtain ⟨k, rfl⟩ : ∃ k, fuel = (k + 2) + pre.length := ⟨fuel - (pre.length + 2), by omega⟩
  have hskip := rvs_loop_skip pre hpre [] ('"' :: (L ++ ['"'])) (k + 2) 0 rfl
  simp only [List.nil_append, zero_add] at hskip
  have hb : byteAt (pre ++ '"' :: (L ++ ['"'])) (len pre) = .ok '"' :=
    byteAt_append_cons pre '"' _ _ rfl
  have hlt : len pre < len (pre ++ '"' :: (L ++ ['"'])) := by
    simp [len]
    omega
  have p0 := len_nonneg pre
  have p1 := len_nonneg L
  unfold ReplaceValueSpaces
  rw [hskip, ReplaceValueSpaces.loop, if_pos hlt, hb]
  simp only [Outcome.ok_bind, if_true]
  cases L with
  | nil =>
    have hd : byteAt (pre ++ '"' :: ([] ++ ['"'])) (len pre + 1) = .ok '"' := by
      have := byteAt_append_cons (pre ++ ['"']) '"' [] (len pre + 1) (by rw [len_append]; rfl)
      simpa using this
    rw [hd]
    simp only [Outcome.ok_bind, ne_eq, not_true_eq_false, if_false]
    rw [rvs_loop_end k _ _ (by simp [len]; omega)]
    rfl
  | cons c L =>
    have hc : c ≠ '"' := fun e => hL (by simp [e])
    have hd : byteAt (pre ++ '"' :: (c :: L ++ ['"'])) (len pre + 1) = .ok c := by
      have := byteAt_append_cons (pre ++ ['"']) c (L ++ ['"']) (len pre + 1)
        (by rw [len_append]; rfl)
      simpa using this
    have hin := rvs_inner_scan pre (c :: L) []
      (len (pre ++ '"' :: (c :: L ++ ['"'])) - (len pre + 1)).toNat (len pre + 1) hL
      (by simp [len])
      (by
        simp only [len, List.length_append, List.length_cons, List.length_nil]
        push_cast
        omega)
    simp only [List.nil_append] at hin
    rw [hd]
    simp only [Outcome.ok_bind, ne_eq, hc, not_false_eq_true, if_true, hin]
    have hlen := encodeSpaces_length ('"' :: (c :: L ++ ['"']))
    have hend : len (pre ++ encodeSpaces ('"' :: (c :: L ++ ['"'])))
        ≤ (if Count ('"' :: (c :: L ++ ['"'])) ' ' = 0 then len pre + 1 + len (c :: L)
            else len pre + 1 + len (c :: L) + 2 * Count ('"' :: (c :: L ++ ['"'])) ' ') + 1 := by
      rw [len_append, hlen]
      have e : len ('"' :: (c :: L ++ ['"'])) = len (c :: L) + 2 := by
        simp only [len, List.length_append, List.length_cons, List.length_nil]
        push_cast
        omega
      rw [e]
      split_ifs with h0
      · rw [h0]; omega
      · omega
    rw [rvs_loop_end k _ _ hend, encodeSpaces_quoted]

theorem hasPrefix_head_false (c : Char) (p Q : Str) (h : c ∉ Q) :
    HasPrefix Q (c :: p) = false := by
  cases Q with
  | nil => rfl
  | cons d Q =>
    have : d ≠ c := fun e => h (by simp [e])
    simp [HasPrefix, this]

theorem removeSpaces_leaf (NAME Q : Str) (hN1 : ' ' ∉ NAME) (hN2 : '(' ∉ NAME)
    (hQ1 : ' ' ∉ Q) (hQ2 : '(' ∉ Q) (hQ3 : ')' ∉ Q) :
    RemoveSpaces (NAME ++ ' ' :: '=' :: '=' :: ' ' :: Q) = NAME ++ ' ' :: '=' :: '=' :: ' ' :: Q := by
  have h1 : Contains (NAME ++ ' ' :: '=' :: '=' :: ' ' :: Q) [' ', ' '] = false := by
    rw [contains_skip ' ' [' '] _ NAME hN1, Contains, Contains, Contains, Contains]
    have a1 := hasPrefix_head_false ' ' [] Q hQ1
    have a2 := contains_false_of_not_mem_first Q [' '] ' ' hQ1
    simp [HasPrefix, a1, a2]
  have h2 : Contains (NAME ++ ' ' :: '=' :: '=' :: ' ' :: Q) ['(', ' '] = false :=
    contains_false_of_not_mem_first _ _ _ (by simp [hN2, hQ2])
  have h3 : Contains (NAME ++ ' ' :: '=' :: '=' :: ' ' :: Q) [' ', ')'] = false := by
    rw [contains_skip ' ' [')'] _ NAME hN1, Contains, Contains, Contains, Contains]
    have a1 := hasPrefix_head_false ')' [] Q hQ3
    have a2 := contains_false_of_not_mem_first Q [')'] ' ' hQ1
    simp [HasPrefix, a1, a2]
  unfold RemoveSpaces
  simp only []
  rw [show "  ".toList = [' ', ' '] from rfl, show "( ".toList = ['(', ' '] from rfl,
    show " )".toList = [' ', ')'] from rfl,
    replaceAll_none _ _ _ (by simp) h1, replaceAll_none _ _ _ (by simp) h2,
    replaceAll_none _ _ _ (by simp) h3]

theorem split_no_sep (sep : Char) : ∀ s : Str, sep ∉ s → Split sep s = [s] := by
  intro s
  induction s with
  | nil => intro _; rfl
  | cons c s ih =>
    intro h
    have hc : c ≠ sep := fun e => h (by simp [e])
    have hs : sep ∉ s := fun e => h (by simp [e])
    rw [Split, if_neg hc, ih hs]

theorem split_append_sep (sep : Char) (rest : Str) :
    ∀ a : Str, sep ∉ a → Split sep (a ++ sep :: rest) = a :: Split sep rest := by
  intro a
  induction a with
  | nil => intro _; simp [Split]
  | cons c a ih =>
    intro h
    have hc : c ≠ sep := fun e => h (by simp [e])
    have hs : sep ∉ a := fun e => h (by simp [e])
    show Split sep (c :: (a ++ sep :: rest)) = _
    rw [Split, if_neg hc, ih hs]

theorem split_leaf (NAME Q : Str) (hN : ' ' ∉ NAME) (hQ : ' ' ∉ Q) :
    Split ' ' (NAME ++ ' ' :: '=' :: '=' :: ' ' :: Q) = [NAME, ['=', '='], Q] := by
  have h := split_append_sep ' ' Q ['=', '='] (by decide)
  simp only [List.cons_append, List.nil_append] at h
  rw [split_append_sep ' ' _ NAME hN, h, split_no_sep ' ' Q hQ]

theorem splitComplexCondition_leaf (st : Store) (uid condition NAME op Q : Str) (fuel : Nat)
    (hc : Count condition '(' = 0) (hs : Split ' ' condition = [NAME, op, Q])
    (hN : startsLeaf NAME) :
    SplitComplexCondition st (fuel + 3) condition uid
      = .ok (MatchCondition st NAME op Q uid, none) := by
  have h1 : SplitComplexCondition.flatLoop st uid (fuel + 2) [NAME, op, Q] 0
      = .ok [FormatBool (MatchCondition st NAME op Q uid)] := by
    rw [flatLoop_succ, if_pos (by simp [len])]
    simp only [byteAt_zero_cons, Outcome.ok_bind, if_pos hN]
    have e1 : byteAt [NAME, op, Q] ((0 : Int) + 1) = .ok op := rfl
    have e2 : byteAt [NAME, op, Q] ((0 : Int) + 2) = .ok Q := rfl
    rw [e1, e2]
    simp only [Outcome.ok_bind]
    rw [flatLoop_succ, if_neg (by simp [len])]
    rfl
  rw [SplitComplexCondition, if_pos hc]
  simp only [hs, h1, Outcome.ok_bind]
  rw [evaluateExpression_succ, if_neg (by simp [len])]
  simp only [byteAt_zero_cons, Outcome.ok_bind]
  cases MatchCondition st NAME op Q uid <;> simp [FormatBool]

/-! ## Quoted literals with spaces (C16) -/

/-- The round trip of a quoted literal when the name is not a word of the
evaluator: for an ASCII name `NAME` that starts a leaf (not empty, not `true`,
`false`, `and`, `or`) and holds no space, quote or parenthesis, and a literal `L`
without quote, parenthesis or the substring `%20` (spaces are allowed anywhere in
`L`), the stored condition `NAME == "L"`, taken through the parenthesis count,
`ReplaceValueSpaces`, `RemoveSpaces` and `SplitComplexCondition` as
`GetVariableValue` does, gives with enough fuel a truth value without error, and
that value is true iff the attribute of the lower-cased `NAME` exists and is
exactly `L`. -/
theorem quoted_literal_round_trip (st : Store) (uid NAME L v : Str) (fuel : Nat)
    (hN0 : startsLeaf NAME) (hN1 : ' ' ∉ NAME) (hN2 : '"' ∉ NAME) (hN3 : '(' ∉ NAME)
    (hN4 : ')' ∉ NAME) (_hascii : isASCII NAME = true)
    (hL1 : '"' ∉ L) (hL2 : '(' ∉ L) (hL3 : ')' ∉ L)
    (hL4 : ¬ "%20".toList <:+: L) (hfuel : NAME.length + 6 ≤ fuel) :
    ∃ b, evalCondition st fuel uid ⟨NAME ++ " == \"".toList ++ L ++ "\"".toList, v⟩
        = .ok (b, none) ∧
      (b = true ↔ st.fieldValue uid (ToLower NAME) = .ok L) := by
  have hL5 : Contains L ['%', '2', '0'] = false := by
    cases h : Contains L ['%', '2', '0']
    · rfl
    · exact absurd ((contains_iff L _).1 h) hL4
  have e : NAME ++ " == \"".toList ++ L ++ "\"".toList
      = (NAME ++ [' ', '=', '=', ' ']) ++ '"' :: (L ++ ['"']) := by simp
  have hcount : Count ((NAME ++ [' ', '=', '=', ' ']) ++ '"' :: (L ++ ['"'])) '('
      = Count ((NAME ++ [' ', '=', '=', ' ']) ++ '"' :: (L ++ ['"'])) ')' := by
    have a1 : Count ((NAME ++ [' ', '=', '=', ' ']) ++ '"' :: (L ++ ['"'])) '(' = 0 :=
      (count_eq_zero_iff _ _).2 (by simp [hN3, hL2])
    have a2 : Count ((NAME ++ [' ', '=', '=', ' ']) ++ '"' :: (L ++ ['"'])) ')' = 0 :=
      (count_eq_zero_iff _ _).2 (by simp [hN4, hL3])
    rw [a1, a2]
  have hrvs := replaceValueSpaces_quoted (NAME ++ [' ', '=', '=', ' ']) L fuel
    (by simp [hN2]) hL1 (by simp; omega)
  have q1 : ' ' ∉ '"' :: (encodeSpaces L ++ ['"']) := by
    simp [encodeSpaces_no_space L]
  have q2 : '(' ∉ '"' :: (encodeSpaces L ++ ['"']) := by
    have := encodeSpaces_not_mem '(' L hL2 (by decide) (by decide) (by decide)
    simp [this]
  have q3 : ')' ∉ '"' :: (encodeSpaces L ++ ['"']) := by
    have := encodeSpaces_not_mem ')' L hL3 (by decide) (by decide) (by decide)
    simp [this]
  have e2 : (NAME ++ [' ', '=', '=', ' ']) ++ '"' :: (encodeSpaces L ++ ['"'])
      = NAME ++ ' ' :: '=' :: '=' :: ' ' :: ('"' :: (encodeSpaces L ++ ['"'])) := by simp
  have hrs := removeSpaces_leaf NAME ('"' :: (encodeSpaces L ++ ['"'])) hN1 hN3 q1 q2 q3
  have hsp := split_leaf NAME ('"' :: (encodeSpaces L ++ ['"'])) hN1 q1
  have hc0 : Count (NAME ++ ' ' :: '=' :: '=' :: ' ' :: ('"' :: (encodeSpaces L ++ ['"']))) '('
      = 0 := (count_eq_zero_iff _ _).2 (by
        have := encodeSpaces_not_mem '(' L hL2 (by decide) (by decide) (by decide)
        simp [hN3, this])
  obtain ⟨k, rfl⟩ : ∃ k, fuel = k + 3 := ⟨fuel - 3, by omega⟩
  have hsplit := splitComplexCondition_leaf st uid _ NAME ['=', '=']
    ('"' :: (encodeSpaces L ++ ['"'])) k hc0 hsp hN0
  refine ⟨MatchCondition st NAME ['=', '='] ('"' :: (encodeSpaces L ++ ['"'])) uid, ?_,
    matchCondition_quoted st uid NAME L hL1 hL5⟩
  unfold evalCondition
  simp only []
  rw [e, if_pos hcount, hrvs]
  simp only [Outcome.ok_bind]
  rw [e2, hrs, hsplit]

/-- On the demo store: `city == "New York"` is true for Alice, whose `city` is
`New York`. -/
theorem quoted_literal_round_trip_witness :
    evalCondition demoStore 10 "7".toList ⟨"city == \"New York\"".toList, "x".toList⟩
      = .ok (true, none) :=
  match quoted_literal_round_trip demoStore "7".toList "city".toList "New York".toList
      "x".toList 10 (by decide) (by decide) (by decide) (by decide) (by decide) (by decide)
      (by decide) (by decide) (by decide) (by decide) (by decide) with
  | ⟨true, h, _⟩ => h
  | ⟨false, _, h⟩ => absurd (h.2 rfl) (by decide)

theorem keyword_and_replaceValueSpaces (fuel : Nat) :
    ReplaceValueSpaces (fuel + 20) "and == \"New York\"".toList
      = .ok "and == \"New%20York\"".toList := by
  rfl

theorem keyword_and_split (st : Store) (uid : Str) (fuel : Nat) :
    RemoveSpaces "and == \"New%20York\"".toList = "and == \"New%20York\"".toList ∧
    Split ' ' "and == \"New%20York\"".toList
      = ["and".toList, "==".toList, "\"New%20York\"".toList] ∧
    SplitComplexCondition st (fuel + 3) "and == \"New%20York\"".toList uid = .panic :=
  ⟨by decide, by decide, rfl⟩

theorem keyword_true_replaceValueSpaces (fuel : Nat) :
    ReplaceValueSpaces (fuel + 20) "true == \"x\"".toList = .ok "true == \"x\"".toList := by
  rfl

theorem keyword_true_split (st : Store) (uid : Str) (fuel : Nat) :
    RemoveSpaces "true == \"x\"".toList = "true == \"x\"".toList ∧
    SplitComplexCondition st (fuel + 3) "true == \"x\"".toList uid = .panic :=
  ⟨by decide, rfl⟩

/-- C16: whatever the store (so also when the recipient has an attribute `and`
with the value `New York`), the recipient and the value of the condition, the
stored conditions `and == "New York"` and `true == "x"`, taken through the
parenthesis count, `ReplaceValueSpaces`, `RemoveSpaces` and
`SplitComplexCondition` as `GetVariableValue` does, panic: the name is taken for
an operator or a literal, `==` is taken for the field of a leaf, and
`elements[i+2]` is read past the end of the three tokens.  The literal itself is
encoded as the description says (`"New%20York"` is one token). -/
theorem keyword_name_panics (st : Store) (uid v : Str) (fuel : Nat) :
    evalCondition st (fuel + 20) uid ⟨"and == \"New York\"".toList, v⟩ = .panic ∧
    evalCondition st (fuel + 20) uid ⟨"true == \"x\"".toList, v⟩ = .panic ∧
    Split ' ' "and == \"New%20York\"".toList
      = ["and".toList, "==".toList, "\"New%20York\"".toList] := by
  have hc1 : Count "and == \"New York\"".toList '(' = Count "and == \"New York\"".toList ')' := by
    decide
  have hc2 : Count "true == \"x\"".toList '(' = Count "true == \"x\"".toList ')' := by
    decide
  refine ⟨?_, ?_, (keyword_and_split st uid 0).2.1⟩
  · unfold evalCondition
    rw [if_pos hc1]
    simp only [keyword_and_replaceValueSpaces fuel, Outcome.ok_bind,
      (keyword_and_split st uid 0).1]
    exact (keyword_and_split st uid (fuel + 17)).2.2
  · unfold evalCondition
    rw [if_pos hc2]
    simp only [keyword_true_replaceValueSpaces fuel, Outcome.ok_bind,
      (keyword_true_split st uid 0).1]
    exact (keyword_true_split st uid (fuel + 17)).2

/-! ## Backoff of a mail log (C21) and validation of variables and fields (C22) -/

/-- C21: when the result lookup, the saves and the update of the result succeed, `Backoff` on a mail log
with `SendAttempt = k`, `0 ≤ k < 8`, returns no error, sets `SendAttempt` to
`k + 1` and moves `SendDate` forward by exactly `2^(k+1)` minutes, which is at most
256 minutes (and is 256 minutes for `k = 7`); with `SendAttempt = 8` it returns
`ErrMaxSendAttempts` and the mail log is unchanged. -/
theorem backoff_exponential (db : MailDb) (m : MailLog) (k : Nat)
    (hk : m.SendAttempt = k) (hres : db.getResult m.RId = none)
    (hsave : ∀ x, db.save x = none) (hback : ∀ r d, db.handleEmailBackoff r d = none) :
    (k < 8 →
      (MailLog.Backoff db m).2 = none ∧
      (MailLog.Backoff db m).1.SendAttempt = k + 1 ∧
      (MailLog.Backoff db m).1.SendDate = m.SendDate + 2 ^ (k + 1) * Minute ∧
      2 ^ (k + 1) ≤ 256 ∧ (k = 7 → 2 ^ (k + 1) = 256)) ∧
    (k = 8 → MailLog.Backoff db m = (m, some .ErrMaxSendAttempts)) := by
  constructor
  · intro hlt
    have hne : ¬ m.SendAttempt = MaxSendAttempts := by
      rw [hk]
      unfold MaxSendAttempts
      omega
    have hw : wrap64 (m.SendAttempt + 1) = k + 1 := by
      rw [hk]
      unfold wrap64
      omega
    have hd : backoffDuration ((k : Int) + 1) = 2 ^ (k + 1) := by
      unfold backoffDuration
      rw [if_neg (by omega), if_pos (by omega)]
      congr 1
    have hpow : (2 : Int) ^ (k + 1) ≤ 256 := by
      have : (2 : Int) ^ (k + 1) ≤ 2 ^ 8 := pow_le_pow_right₀ (by norm_num) (by omega)
      simpa using this
    have hpos : (0 : Int) ≤ 2 ^ (k + 1) := by positivity
    have hw2 : wrap64 (Minute * 2 ^ (k + 1)) = 2 ^ (k + 1) * Minute := by
      unfold wrap64 Minute
      generalize (2 : Int) ^ (k + 1) = p at hpow hpos
      omega
    refine ⟨?_, ?_, ?_, ?_, ?_⟩
    · simp [MailLog.Backoff, MailLog.Unlock, hres, hne, hsave, hback]
    · simp [MailLog.Backoff, MailLog.Unlock, hres, hne, hsave, hback, hw]
    · simp [MailLog.Backoff, MailLog.Unlock, hres, hne, hsave, hback, hw, hd, hw2]
    · have : (2 : Nat) ^ (k + 1) ≤ 2 ^ 8 := Nat.pow_le_pow_right (by norm_num) (by omega)
      simpa using this
    · intro h7
      subst h7
      norm_num
  · intro h8
    have he : m.SendAttempt = MaxSendAttempts := by
      rw [hk, h8]
      rfl
    simp [MailLog.Backoff, hres, he]

/-- C21, on a mail log at its fourth attempt (`SendAttempt = 3`): the next send
date is 16 minutes later. -/
theorem backoff_exponential_witness :
    (MailLog.Backoff ⟨fun _ => none, fun _ => none, fun _ _ => none⟩
        ⟨1, 1, 1, "r1".toList, 1000, 3, true⟩).1.SendDate = 1000 + 2 ^ (3 + 1) * Minute :=
  ((backoff_exponential ⟨fun _ => none, fun _ => none, fun _ _ => none⟩
    ⟨1, 1, 1, "r1".toList, 1000, 3, true⟩ 3 rfl rfl (fun _ => rfl) (fun _ _ => rfl)).1
      (by decide)).2.2.1

/-- C22: `FrontVariable.Validate` and `Field.Validate` return the
name-not-specified error when `Name` is empty (whatever the list holds), the
no-conditions / no-values error when `Name` is not empty and the list is, and no
error otherwise; with an error the receiver is unchanged, and without an error
every component but `Name` is kept and `Name`, when it is made of ASCII bytes,
is replaced by its lower-case form `ToLower Name`. -/
theorem validate_contract (v : FrontVariable) (f : Field) :
    (v.Name = [] → v.Validate = (v, some .ErrVariableNameNotSpecified)) ∧
    (v.Name ≠ [] → v.Conditions = [] → v.Validate = (v, some .ErrNoConditionsSpecified)) ∧
    (v.Name ≠ [] → v.Conditions ≠ [] → isASCII v.Name = true →
      v.Validate = (⟨v.Id, v.Type', v.FieldId, v.Field, v.UserId, ToLower v.Name,
        v.ModifiedDate, v.Conditions⟩, none)) ∧
    (f.Name = [] → f.Validate = (f, some .ErrFieldNameNotSpecified)) ∧
    (f.Name ≠ [] → f.FieldValues = [] → f.Validate = (f, some .ErrNoValuesSpecified)) ∧
    (f.Name ≠ [] → f.FieldValues ≠ [] → isASCII f.Name = true →
      f.Validate = (⟨f.Id, f.UserId, ToLower f.Name, f.ModifiedDate, f.FieldValues⟩, none)) := by
  refine ⟨?_, ?_, ?_, ?_, ?_, ?_⟩
  · intro h
    simp [FrontVariable.Validate, h]
  · intro h1 h2
    simp [FrontVariable.Validate, h1, h2, len]
  · intro h1 h2 _
    simp [FrontVariable.Validate, h1, h2, len]
  · intro h
    simp [Field.Validate, h]
  · intro h1 h2
    simp [Field.Validate, h1, h2, len]
  · intro h1 h2 _
    simp [Field.Validate, h1, h2, len]

/-- C22, on a variable `Tier` with one condition and on a field `City` without
values. -/
theorem validate_contract_witness :
    FrontVariable.Validate ⟨1, "complex".toList, 0, [], 1, "Tier".toList, 0,
        [⟨1, "age == 25".toList, "young".toList⟩]⟩
      = (⟨1, "complex".toList, 0, [], 1, "tier".toList, 0,
        [⟨1, "age == 25".toList, "young".toList⟩]⟩, none) ∧
    Field.Validate ⟨1, 1, "City".toList, 0, []⟩
      = (⟨1, 1, "City".toList, 0, []⟩, some .ErrNoValuesSpecified) :=
  ⟨(validate_contract ⟨1, "complex".toList, 0, [], 1, "Tier".toList, 0,
        [⟨1, "age == 25".toList, "young".toList⟩]⟩ ⟨1, 1, "City".toList, 0, []⟩).2.2.1
      (by decide) (by decide) (by decide),
    (validate_contract ⟨1, "complex".toList, 0, [], 1, "Tier".toList, 0,
        [⟨1, "age == 25".toList, "young".toList⟩]⟩ ⟨1, 1, "City".toList, 0, []⟩).2.2.2.2.1
      (by decide) rfl⟩

/-! ## `EvaluateExpression` on token lists of odd length (C30) -/

theorem evaluateExpression_step_ok (e : List Str) (h : 3 ≤ e.length) :
    ∃ r, EvaluateExpression.step e = .ok r ∧ r.length + 2 = e.length := by
  match e, h with
  | a :: b :: c :: rest, _ =>
    simp only [EvaluateExpression.step, byteAt_zero_cons, byteAt_one_cons, byteAt_two_cons,
      Outcome.ok_bind, Outcome.pure_eq, List.drop_succ_cons, List.drop_zero]
    exact ⟨_, rfl, by simp⟩

theorem evaluateExpression_odd (m : Nat) : ∀ (elements : List Str),
    elements.length = 2 * m + 1 →
    (∃ b, ∀ extra, EvaluateExpression (m + 1 + extra) elements = .ok (b, none)) ∧
    EvaluateExpression m elements = .outOfFuel := by
  induction m with
  | zero =>
    intro elements h
    match elements, h with
    | [a], _ =>
      refine ⟨⟨decide (a = "true".toList), fun extra => ?_⟩, by rw [EvaluateExpression]⟩
      have e : 0 + 1 + extra = extra + 1 := by omega
      rw [e, evaluateExpression_succ, if_neg (by simp [len])]
      simp only [byteAt_zero_cons, Outcome.ok_bind]
      by_cases ha : a = "true".toList
      · rw [if_pos ha, decide_eq_true ha]
      · rw [if_neg ha, decide_eq_false ha]
  | succ m ih =>
    intro elements h
    obtain ⟨r, hr, hlen⟩ := evaluateExpression_step_ok elements (by omega)
    have hl : len elements > 1 := by unfold len; omega
    obtain ⟨⟨b, hb⟩, hout⟩ := ih r (by omega)
    refine ⟨⟨b, fun extra => ?_⟩, ?_⟩
    · have e : m + 1 + 1 + extra = (m + 1 + extra) + 1 := by omega
      rw [e, evaluateExpression_succ, if_pos hl, hr]
      exact hb extra
    · rw [evaluateExpression_succ, if_pos hl, hr]
      exact hout

/-- C30: on a token list of odd length `n`, whatever the tokens are,
`EvaluateExpression` returns a boolean with a nil error as soon as the fuel is
more than `(n - 1) / 2`, and runs out of fuel with exactly `(n - 1) / 2`: it makes
`(n - 1) / 2` reduction steps before the final test.  Every step on a list of at
least three tokens succeeds (no index is out of range) and gives a list shorter
by two. -/
theorem evaluateExpression_total (elements : List Str) (hodd : elements.length % 2 = 1) :
    (∃ b, ∀ extra,
      EvaluateExpression ((elements.length - 1) / 2 + 1 + extra) elements = .ok (b, none)) ∧
    EvaluateExpression ((elements.length - 1) / 2) elements = .outOfFuel ∧
    (∀ e : List Str, 3 ≤ e.length →
      ∃ r, EvaluateExpression.step e = .ok r ∧ r.length + 2 = e.length) := by
  have h := evaluateExpression_odd ((elements.length - 1) / 2) elements (by omega)
  exact ⟨h.1, h.2, evaluateExpression_step_ok⟩

/-- C30, on five tokens: `true AND false OR true` is reduced in two steps to
`true`. -/
theorem evaluateExpression_total_witness :
    (∃ b, ∀ extra, EvaluateExpression (2 + 1 + extra)
      ["true".toList, "AND".toList, "false".toList, "OR".toList, "true".toList]
        = .ok (b, none)) ∧
    EvaluateExpression 2
      ["true".toList, "AND".toList, "false".toList, "OR".toList, "true".toList]
        = .outOfFuel :=
  ⟨(evaluateExpression_total
      ["true".toList, "AND".toList, "false".toList, "OR".toList, "true".toList]
      (by decide)).1,
    (evaluateExpression_total
      ["true".toList, "AND".toList, "false".toList, "OR".toList, "true".toList]
      (by decide)).2.1⟩

/-! ## Inputs on which the engine departs from the description (C23, C24, C25, C27) -/

/-- C23: for recipient `3` of the third store, whose `greeting` is the text
`{%first%}` and whose `first` is `Carol`, the template `{%greeting%} {%first%}`
gives `Carol {%first%}`, not `{%first%} Carol`: the second substitution replaces
the first `{%first%}` of the text, which is the value just inserted, and the
reference at the cursor stays. -/
theorem inserted_value_is_replaced (fuel : Nat) :
    echoStore.fieldValue "3".toList "greeting".toList = .ok "\x7b%first%\x7d".toList ∧
    echoStore.fieldValue "3".toList "first".toList = .ok "Carol".toList ∧
    ReplaceReferences echoStore (fuel + 4) "\x7b%greeting%\x7d \x7b%first%\x7d".toList
      "carol@example.org".toList = .ok ("Carol \x7b%first%\x7d".toList, none) :=
  ⟨rfl, rfl, rfl⟩

/-- C24: whatever the store and the recipient, `SplitComplexCondition` panics on
the bare name `age`, on `age ==`, on the comparison `age=="25"` written without
spaces, on `(age) OR true` and on `age == 25 OR age`: a token that is not a
literal or an operator is taken for the field of a leaf and `elements[i+1]` or
`elements[i+2]` is read without a check; inside parentheses the panic is not an
error value, so it is not replaced by `false`. -/
theorem malformed_clause_panics (st : Store) (uid : Str) (fuel : Nat) :
    SplitComplexCondition st (fuel + 2) "age".toList uid = .panic ∧
    SplitComplexCondition st (fuel + 2) "age ==".toList uid = .panic ∧
    SplitComplexCondition st (fuel + 2) "age==\"25\"".toList uid = .panic ∧
    SplitComplexCondition st (fuel + 6) "(age) OR true".toList uid = .panic ∧
    SplitComplexCondition st (fuel + 4) "age == 25 OR age".toList uid = .panic :=
  ⟨rfl, rfl, rfl, rfl, rfl⟩

/-- C25: on the demo store (`age = "25"`, `city = "New York"`) the text
`{if(%city%){%age% %city% %%}{Nobody}}` gives `25 New York 25`, not
`25 New York New York`: the sub-reference to the condition's own name is replaced
by the selector value, but the buffer keeps the value of `%age%`. -/
theorem own_name_keeps_buffer (fuel : Nat) :
    ReplaceReferences demoStore (fuel + 9)
      "\x7bif(%city%)\x7b%age% %city% %%\x7d\x7bNobody\x7d\x7d".toList
      "alice@example.org".toList = .ok ("25 New York 25".toList, none) :=
  rfl

/-- C27: `RemoveSpaces` turns `true   AND true`, with three spaces, into
`true  AND true`, which still holds two consecutive spaces, so that splitting it
on single spaces gives an empty token; and it turns `(   true)` into `( true)`,
with a space left after the parenthesis. -/
theorem removeSpaces_leaves_spaces :
    RemoveSpaces "true   AND true".toList = "true  AND true".toList ∧
    Contains (RemoveSpaces "true   AND true".toList) "  ".toList = true ∧
    Split ' ' (RemoveSpaces "true   AND true".toList)
      = ["true".toList, [], "AND".toList, "true".toList] ∧
    RemoveSpaces "(   true)".toList = "( true)".toList := by
  decide

/-! ## Sub-references inside a branch -/

theorem subReference_shortcut (st : Store) (fuel : Nat) (uid A B reference value buff : Str)
    (hA : '%' ∉ A) :
    ReplaceSubReference st fuel (A ++ '%' :: '%' :: B) uid (len A) reference value buff
      = .ok (A ++ buff ++ B, buff, len A + len buff - 1) := by
  have hb : byteAt (A ++ '%' :: '%' :: B) (len A + 1) = .ok '%' := by
    have := byteAt_append_cons (A ++ ['%']) '%' B (len A + 1) (by rw [len_append]; rfl)
    simpa using this
  have hs : slice (A ++ '%' :: '%' :: B) (len A) (len A + 2) = .ok ['%', '%'] := by
    have := slice_append_append A ['%', '%'] B (len A) (len A + 2) rfl rfl
    simpa using this
  have hr := replace1_first A '%' ['%'] buff B hA
  simp only [List.append_assoc, List.cons_append, List.nil_append] at hr
  rw [ReplaceSubReference, hb]
  simp only [Outcome.ok_bind, if_true, hs, Outcome.pure_eq, hr, List.append_assoc]

theorem subReference_loop_scan (st : Store) (fuel : Nat) (uid A B reference value buff : Str) :
    ∀ (N2 N1 : Str) (n : Nat) (sb : Int), '%' ∉ N2 → sb = len A + 1 + len N1 →
      N2.length + 1 ≤ n →
      ReplaceSubReference.loop st fuel (A ++ '%' :: (N1 ++ N2 ++ '%' :: B)) uid (len A)
          reference value buff n sb
        = ReplaceSubReference.found st fuel (A ++ '%' :: (N1 ++ N2 ++ '%' :: B)) uid (len A)
            reference value buff (sb + len N2) := by
  intro N2
  induction N2 with
  | nil =>
    intro N1 n sb _ hsb hn
    obtain ⟨m, rfl⟩ : ∃ m, n = m + 1 := ⟨n - 1, by omega⟩
    have hb : byteAt (A ++ '%' :: (N1 ++ [] ++ '%' :: B)) sb = .ok '%' := by
      have := byteAt_append_cons (A ++ '%' :: N1) '%' B sb
        (by rw [hsb, len_append, len_cons]; omega)
      simpa using this
    rw [ReplaceSubReference.loop, hb]
    simp [len]
  | cons c N2 ih =>
    intro N1 n sb hN hsb hn
    obtain ⟨m, rfl⟩ : ∃ m, n = m + 1 := ⟨n - 1, by omega⟩
    have hc : c ≠ '%' := fun e => hN (by simp [e])
    have hN2 : '%' ∉ N2 := fun e => hN (by simp [e])
    have hb : byteAt (A ++ '%' :: (N1 ++ c :: N2 ++ '%' :: B)) sb = .ok c := by
      have := byteAt_append_cons (A ++ '%' :: N1) c (N2 ++ '%' :: B) sb
        (by rw [hsb, len_append, len_cons]; omega)
      simpa using this
    have e2 : N1 ++ c :: N2 = (N1 ++ [c]) ++ N2 := by simp
    have e3 : sb + 1 + len N2 = sb + len (c :: N2) := by rw [len_cons]; omega
    rw [ReplaceSubReference.loop, hb]
    simp only [Outcome.ok_bind, if_neg hc]
    rw [e2, ih (N1 ++ [c]) m (sb + 1) hN2 (by rw [hsb, len_append]; simp [len]; omega)
      (by simp at hn; omega), e3]

theorem subReference_found (st : Store) (fuel : Nat) (uid A x B reference value buff : Str)
    (hx0 : x ≠ []) (hx1 : '%' ∉ x) :
    ReplaceSubReference st fuel (A ++ '%' :: (x ++ '%' :: B)) uid (len A) reference value buff
      = ReplaceSubReference.found st fuel (A ++ '%' :: (x ++ '%' :: B)) uid (len A) reference
          value buff (len A + 1 + len x) := by
  obtain ⟨c, x2, rfl⟩ : ∃ c x2, x = c :: x2 := by
    cases x with
    | nil => exact absurd rfl hx0
    | cons c x2 => exact ⟨c, x2, rfl⟩
  have hc : c ≠ '%' := fun e => hx1 (by simp [e])
  have hb : byteAt (A ++ '%' :: (c :: x2 ++ '%' :: B)) (len A + 1) = .ok c := by
    have := byteAt_append_cons (A ++ ['%']) c (x2 ++ '%' :: B) (len A + 1)
      (by rw [len_append]; rfl)
    simpa using this
  have hscan := subReference_loop_scan st fuel uid A B reference value buff (c :: x2) []
    (len (A ++ '%' :: (c :: x2 ++ '%' :: B)) - (len A + 1)).toNat (len A + 1) hx1
    (by simp [len])
    (by
      simp only [len, List.length_append, List.length_cons]
      push_cast
      omega)
  simp only [List.nil_append] at hscan
  rw [ReplaceSubReference, hb]
  simp only [Outcome.ok_bind, if_neg hc]
  exact hscan

theorem subReference_named (st : Store) (fuel : Nat) (uid A x B reference value buff vx : Str)
    (hA : '%' ∉ A) (hx0 : x ≠ []) (hx1 : '%' ∉ x) (hx2 : ' ' ∉ x) (hne : x ≠ reference)
    (hres : resolveName st fuel uid x = .ok vx) :
    ReplaceSubReference st fuel (A ++ '%' :: (x ++ '%' :: B)) uid (len A) reference value buff
      = .ok (A ++ vx ++ B, vx, len A + len vx - 1) := by
  have hs1 : slice (A ++ '%' :: (x ++ '%' :: B)) (len A + 1) (len A + 1 + len x) = .ok x := by
    have := slice_append_append (A ++ ['%']) x ('%' :: B) (len A + 1) (len A + 1 + len x)
      (by rw [len_append]; rfl) (by rw [len_append]; rfl)
    simpa using this
  have hs2 : slice (A ++ '%' :: (x ++ '%' :: B)) (len A) (len A + 1 + len x + 1)
      = .ok ('%' :: (x ++ ['%'])) := by
    have := slice_append_append A ('%' :: (x ++ ['%'])) B (len A) (len A + 1 + len x + 1) rfl
      (by simp [len]; omega)
    simpa using this
  have hc : Contains x " ".toList = false := by
    cases h : Contains x " ".toList
    · rfl
    · exact absurd ((contains_singleton x ' ').1 h) hx2
  have hr := replace1_first A '%' (x ++ ['%']) vx B hA
  simp only [List.append_assoc, List.cons_append, List.nil_append] at hr
  rw [subReference_found st fuel uid A x B reference value buff hx0 hx1,
    ReplaceSubReference.found, hs1]
  simp only [Outcome.ok_bind, ne_eq, hne, not_false_eq_true, if_true, hc, Bool.false_eq_true,
    hres, hs2, Outcome.pure_eq, hr, List.append_assoc]

theorem subReference_own (st : Store) (fuel : Nat) (uid A B reference value buff : Str)
    (hA : '%' ∉ A) (hx0 : reference ≠ []) (hx1 : '%' ∉ reference) :
    ReplaceSubReference st fuel (A ++ '%' :: (reference ++ '%' :: B)) uid (len A) reference
        value buff
      = .ok (A ++ value ++ B, buff, len A + len value - 1) := by
  have hs1 : slice (A ++ '%' :: (reference ++ '%' :: B)) (len A + 1) (len A + 1 + len reference)
      = .ok reference := by
    have := slice_append_append (A ++ ['%']) reference ('%' :: B) (len A + 1)
      (len A + 1 + len reference) (by rw [len_append]; rfl) (by rw [len_append]; rfl)
    simpa using this
  have hs2 : slice (A ++ '%' :: (reference ++ '%' :: B)) (len A) (len A + 1 + len reference + 1)
      = .ok ('%' :: (reference ++ ['%'])) := by
    have := slice_append_append A ('%' :: (reference ++ ['%'])) B (len A)
      (len A + 1 + len reference + 1) rfl (by simp [len]; omega)
    simpa using this
  have hr := replace1_first A '%' (reference ++ ['%']) value B hA
  simp only [List.append_assoc, List.cons_append, List.nil_append] at hr
  rw [subReference_found st fuel uid A reference B reference value buff hx0 hx1,
    ReplaceSubReference.found, hs1]
  simp only [Outcome.ok_bind, ne_eq, not_true_eq_false, if_false, hs2, Outcome.pure_eq, hr,
    List.append_assoc]

theorem subRefs_loop_skip (st : Store) (uid : Str) (start_search : Int)
    (reference value buff_value rest : Str) :
    ∀ (T A : Str) (fuel : Nat) (i : Int), '%' ∉ T → '}' ∉ T → i = len A →
      ReplaceSubReferences.loop st uid start_search reference value (fuel + T.length)
          (A ++ T ++ rest) i buff_value
        = ReplaceSubReferences.loop st uid start_search reference value fuel
            (A ++ T ++ rest) (i + len T) buff_value := by
  intro T
  induction T with
  | nil => intro A fuel i _ _ _; simp [len]
  | cons c T ih =>
    intro A fuel i h1 h2 hi
    have c1 : c ≠ '%' := fun e => h1 (by simp [e])
    have c2 : c ≠ '}' := fun e => h2 (by simp [e])
    have t1 : '%' ∉ T := fun e => h1 (by simp [e])
    have t2 : '}' ∉ T := fun e => h2 (by simp [e])
    have hlt : i < len (A ++ c :: T ++ rest) := by
      subst hi
      simp only [len, List.length_append, List.length_cons]
      push_cast
      omega
    have hb : byteAt (A ++ c :: T ++ rest) i = .ok c := by
      have := byteAt_append_cons A c (T ++ rest) i hi
      simpa using this
    have e0 : fuel + (c :: T).length = (fuel + T.length) + 1 := by simp; omega
    have e1 : A ++ c :: T ++ rest = (A ++ [c]) ++ T ++ rest := by simp
    have e3 : i + 1 + len T = i + len (c :: T) := by rw [len_cons]; omega
    rw [e0, subRefs_loop_succ, if_pos hlt, hb]
    simp only [Outcome.ok_bind, if_neg c1, if_neg c2]
    rw [e1, ih (A ++ [c]) fuel (i + 1) t1 t2 (by rw [hi, len_append]; rfl), e3]

theorem subRefs_one (st : Store) (uid reference value buff buff2 A T1 ref v T2 B : Str)
    (fuel : Nat) (start : Int)
    (h1 : '%' ∉ T1) (h2 : '}' ∉ T1) (h3 : '%' ∉ T2) (h4 : '}' ∉ T2)
    (hs : start = len A)
    (href : ∃ r, ref = '%' :: r)
    (hsub : ReplaceSubReference st (fuel + T2.length + 1) (A ++ T1 ++ ref ++ (T2 ++ '}' :: B)) uid
        (len (A ++ T1)) reference value buff
      = .ok (A ++ T1 ++ v ++ (T2 ++ '}' :: B), buff2, len (A ++ T1) + len v - 1)) :
    ReplaceSubReferences st (fuel + T2.length + 1 + 1 + T1.length)
        (A ++ T1 ++ ref ++ (T2 ++ '}' :: B)) uid start reference value buff
      = .ok (A ++ T1 ++ v ++ (T2 ++ '}' :: B), len A + len T1 + len v + len T2, buff2) := by
  obtain ⟨r, rfl⟩ := href
  have hskip := subRefs_loop_skip st uid start reference value buff
    ('%' :: r ++ (T2 ++ '}' :: B)) T1 A (fuel + T2.length + 1 + 1) start h1 h2 hs
  have e1 : A ++ T1 ++ ('%' :: r ++ (T2 ++ '}' :: B)) = A ++ T1 ++ '%' :: r ++ (T2 ++ '}' :: B) := by
    simp
  rw [e1] at hskip
  have hlt : start + len T1 < len (A ++ T1 ++ '%' :: r ++ (T2 ++ '}' :: B)) := by
    subst hs
    simp only [len, List.length_append, List.length_cons]
    push_cast
    omega
  have hb : byteAt (A ++ T1 ++ '%' :: r ++ (T2 ++ '}' :: B)) (start + len T1) = .ok '%' := by
    have := byteAt_append_cons (A ++ T1) '%' (r ++ (T2 ++ '}' :: B)) (start + len T1)
      (by rw [hs, len_append])
    simpa using this
  have hplain := subRefs_loop_plain st uid start reference value buff2 B T2 (A ++ T1 ++ v)
    (fuel + T2.length + 1) (len (A ++ T1) + len v - 1 + 1) h3 h4
    (by rw [len_append (A ++ T1) v]; omega) (by omega)
  have e2 : A ++ T1 ++ v ++ T2 ++ '}' :: B = A ++ T1 ++ v ++ (T2 ++ '}' :: B) := by simp
  have e3 : len (A ++ T1 ++ v) + len T2 = len A + len T1 + len v + len T2 := by
    rw [len_append, len_append]
  rw [e2, e3] at hplain
  have e4 : start + len T1 = len (A ++ T1) := by rw [hs, len_append]
  unfold ReplaceSubReferences
  rw [hskip, subRefs_loop_succ, if_pos hlt, hb]
  simp only [Outcome.ok_bind, if_true]
  rw [e4, hsub]
  simp only [Outcome.ok_bind]
  exact hplain

theorem statement_head_ne (A W : Str) (hlen : 6 ≤ W.length)
    (hW : HasPrefix W [' ', '{', 'i', 'f', '(', '%'] = false) :
    ∃ s, slice (A ++ '{' :: W) (len A) (len A + 7) = .ok s ∧ s ≠ "\x7b \x7bif(%".toList := by
  have h : (0 : Int) ≤ len A ∧ len A ≤ len A + 7 ∧ len A + 7 ≤ len (A ++ '{' :: W) := by
    refine ⟨len_nonneg A, by omega, ?_⟩
    simp only [len, List.length_append, List.length_cons]
    push_cast
    omega
  unfold slice
  rw [if_pos h]
  refine ⟨_, rfl, ?_⟩
  have e : (len A + 7).toNat - (len A).toNat = 7 := by unfold len; omega
  rw [e]
  simp only [len, Int.toNat_ofNat, List.drop_left]
  match W, hlen, hW with
  | w1 :: w2 :: w3 :: w4 :: w5 :: w6 :: W, _, hW =>
    simp only [HasPrefix, Bool.and_true, Bool.and_eq_false_imp, beq_iff_eq,
      beq_eq_false_iff_ne, ne_eq] at hW
    simp only [List.take_succ_cons, List.take_zero, String.toList, ne_eq, List.cons.injEq,
      and_true, true_and, not_and]
    intro a1 a2 a3 a4 a5
    exact hW a1 a2 a3 a4 a5

theorem hasPrefix_nested_shortcut (U R : Str) (hU : '{' ∉ U) :
    HasPrefix (U ++ '%' :: R) [' ', '{', 'i', 'f', '(', '%'] = false := by
  match U, hU with
  | [], _ => simp [HasPrefix]
  | [u], _ => simp [HasPrefix]
  | u1 :: u2 :: U, hU =>
    have : u2 ≠ '{' := fun e => hU (by simp [e])
    simp [HasPrefix, this]

theorem hasPrefix_nested_simpleRef (U R : Str) (hU : '{' ∉ U) :
    HasPrefix (U ++ '{' :: '%' :: R) [' ', '{', 'i', 'f', '(', '%'] = false := by
  match U, hU with
  | [], _ => simp [HasPrefix]
  | [u], _ => simp [HasPrefix]
  | u1 :: u2 :: U, hU =>
    have : u2 ≠ '{' := fun e => hU (by simp [e])
    simp [HasPrefix, this]

theorem statement_not_nested (st : Store) (fuel : Nat) (rb : Str → Int → Outcome (Str × Int))
    (uid reference value buff buff2 text text2 s : Str) (start_if end_if : Int)
    (hpos : 0 < start_if)
    (hs : slice text start_if (start_if + 7) = .ok s) (hne : s ≠ "\x7b \x7bif(%".toList)
    (hsub : ReplaceSubReferences st fuel text uid (start_if + 1) reference value buff
      = .ok (text2, end_if, buff2)) (hgt : end_if > start_if) :
    ReplaceBlock.statement st fuel rb uid reference value text start_if buff
      = .ok (text2, end_if, buff2) := by
  rw [ReplaceBlock.statement, if_pos hpos, ReplaceBlock.scanStatement, hs]
  simp only [Outcome.ok_bind, if_neg hne, hsub, Outcome.pure_eq, if_pos hgt]

theorem next_skip (A X B : Str) (c : Char) (after : Int) (hpos : 0 < after)
    (ha : after + 1 = len A) (hX : c ∉ X) :
    ReplaceBlock.next (A ++ X ++ c :: B) [c] after = .ok (len A + len X) := by
  have hf := findChars_skip c [] B X A (after + 1) ha hX
  simp only [List.nil_append] at hf
  have hgt : len A + len X > after := by
    have := len_nonneg X
    omega
  have hc : A ++ X ++ c :: B = A ++ X ++ [c] ++ B := by simp
  rw [ReplaceBlock.next, if_pos hpos, hc, hf]
  simp only [Outcome.ok_bind, Outcome.pure_eq, if_pos hgt]

theorem block_tail_gap (st : Store) (fuel : Nat) (uid reference value buff P H T G E S : Str)
    (hG : '{' ∉ G)
    (hE0 : '{' ∉ E) (hE1 : '%' ∉ E) (hE2 : '}' ∉ E) (hlen : 4 ≤ E.length + S.length)
    (hH : 0 < H.length)
    (hR : ∀ new,
      Replace1 (P ++ (H ++ '{' :: (T ++ '}' :: (G ++ '{' :: (E ++ ['}', '}'])))) ++ S)
        (H ++ '{' :: (T ++ '}' :: (G ++ '{' :: (E ++ ['}', '}'])))) new = P ++ new ++ S)
    (hf : E.length + 1 ≤ fuel) :
    ReplaceBlock.next (P ++ (H ++ '{' :: (T ++ '}' :: (G ++ '{' :: (E ++ ['}', '}'])))) ++ S)
        "\x7b".toList (len P + len H + 1 + len T)
      = .ok (len P + len H + 1 + len T + 1 + len G) ∧
    (∀ rb, ReplaceBlock.statement st fuel rb uid reference value
        (P ++ (H ++ '{' :: (T ++ '}' :: (G ++ '{' :: (E ++ ['}', '}'])))) ++ S)
        (len P + len H + 1 + len T + 1 + len G) buff
      = .ok (P ++ (H ++ '{' :: (T ++ '}' :: (G ++ '{' :: (E ++ ['}', '}'])))) ++ S,
          len P + len H + 1 + len T + 1 + len G + 1 + len E, buff)) ∧
    ReplaceBlock.next (P ++ (H ++ '{' :: (T ++ '}' :: (G ++ '{' :: (E ++ ['}', '}'])))) ++ S)
        "\x7d".toList (len P + len H + 1 + len T + 1 + len G + 1 + len E)
      = .ok (len P + len H + 1 + len T + 1 + len G + 1 + len E + 1) ∧
    ReplaceBlock.finish (P ++ (H ++ '{' :: (T ++ '}' :: (G ++ '{' :: (E ++ ['}', '}'])))) ++ S)
        (len P) value (len P + len H) (len P + len H + 1 + len T)
        (len P + len H + 1 + len T + 1 + len G)
        (len P + len H + 1 + len T + 1 + len G + 1 + len E)
        (len P + len H + 1 + len T + 1 + len G + 1 + len E + 1)
      = .ok (P ++ (if value ≠ [] then T else E) ++ S,
          len P + len (if value ≠ [] then T else E) - 1) := by
  have eG : P ++ (H ++ '{' :: (T ++ '}' :: (G ++ '{' :: (E ++ ['}', '}'])))) ++ S
      = (P ++ H ++ '{' :: (T ++ ['}'])) ++ G ++ '{' :: (E ++ '}' :: '}' :: S) := by simp
  have eN : P ++ (H ++ '{' :: (T ++ '}' :: (G ++ '{' :: (E ++ ['}', '}'])))) ++ S
      = (P ++ H ++ '{' :: (T ++ ['}']) ++ G) ++ '{' :: (E ++ '}' :: ('}' :: S)) := by simp
  have eM : P ++ (H ++ '{' :: (T ++ '}' :: (G ++ '{' :: (E ++ ['}', '}'])))) ++ S
      = (P ++ H ++ '{' :: (T ++ ['}']) ++ G ++ '{' :: (E ++ ['}'])) ++ '}' :: S := by simp
  have eT : P ++ (H ++ '{' :: (T ++ '}' :: (G ++ '{' :: (E ++ ['}', '}'])))) ++ S
      = (P ++ H) ++ '{' :: (T ++ ('}' :: (G ++ '{' :: (E ++ '}' :: '}' :: S)))) := by simp
  have lG : len (P ++ H ++ '{' :: (T ++ ['}'])) = len P + len H + 1 + len T + 1 := by
    simp only [len, List.length_append, List.length_cons, List.length_nil]
    push_cast
    omega
  have lN : len (P ++ H ++ '{' :: (T ++ ['}']) ++ G) = len P + len H + 1 + len T + 1 + len G := by
    simp only [len, List.length_append, List.length_cons, List.length_nil]
    push_cast
    omega
  have lM : len (P ++ H ++ '{' :: (T ++ ['}']) ++ G ++ '{' :: (E ++ ['}']))
      = len P + len H + 1 + len T + 1 + len G + 1 + len E + 1 := by
    simp only [len, List.length_append, List.length_cons, List.length_nil]
    push_cast
    omega
  have p0 := len_nonneg P
  have p1 : 0 < len H := by unfold len; omega
  have p2 := len_nonneg T
  have p3 := len_nonneg E
  have p4 := len_nonneg G
  have hT := branch_text (P ++ H) T ('}' :: (G ++ '{' :: (E ++ '}' :: '}' :: S)))
    (len P + len H) (len P + len H + 1 + len T) (by rw [len_append]) rfl
  have hE := branch_text (P ++ H ++ '{' :: (T ++ ['}']) ++ G) E ('}' :: '}' :: S)
    (len P + len H + 1 + len T + 1 + len G) (len P + len H + 1 + len T + 1 + len G + 1 + len E)
    (by rw [lN]) rfl
  rw [← eT] at hT
  rw [← eN] at hE
  have ho : slice (P ++ (H ++ '{' :: (T ++ '}' :: (G ++ '{' :: (E ++ ['}', '}'])))) ++ S)
      (len P) (len P + len H + 1 + len T + 1 + len G + 1 + len E + 1 + 1)
      = .ok (H ++ '{' :: (T ++ '}' :: (G ++ '{' :: (E ++ ['}', '}'])))) := by
    apply slice_append_append P _ S _ _ rfl
    simp only [len, List.length_append, List.length_cons, List.length_nil]
    push_cast
    omega
  refine ⟨?_, ?_, ?_, ?_⟩
  · rw [eG, ← lG]
    have := next_skip (P ++ H ++ '{' :: (T ++ ['}'])) G (E ++ '}' :: '}' :: S) '{'
      (len P + len H + 1 + len T) (by omega) (by rw [lG]) hG
    rw [lG] at this ⊢
    exact this
  · intro rb
    rw [eN, ← lN]
    exact statement_plain st fuel rb uid reference value buff _ E _ _ hE0 hE1 hE2 rfl
      (by rw [lN]; omega) (by simp; omega) hf
  · rw [eM, ← lM]
    exact next_here _ _ '}' _ (by omega) (by rw [lM])
  · rw [ReplaceBlock.finish, if_pos (by omega)]
    by_cases hv : value ≠ []
    · rw [if_pos hv, if_pos hv, hT, ho]
      simp only [Outcome.ok_bind, hR, Outcome.pure_eq]
    · rw [if_neg hv, if_neg hv, hE, ho]
      simp only [Outcome.ok_bind, hR, Outcome.pure_eq]

theorem loop_single_block (st : Store) (uid text out : Str) (k : Nat)
    (hb : byteAt text 0 = .ok '{') (hlt : 0 < len text)
    (hblock : ReplaceBlock st (k + 1) text 0 uid = .ok (out, len out - 1)) :
    ReplaceReferences.loop st uid (k + 2) text 0 = .ok out := by
  rw [loop_step_block st uid text (k + 1) 0 hb hlt, hblock]
  simp only [Outcome.ok_bind]
  exact loop_end st uid out k _ (by omega)

theorem replaceBlock_shortcut (st : Store) (k : Nat) (uid a U V E va : Str)
    (ha0 : a ≠ []) (ha1 : ' ' ∉ a) (ha2 : '%' ∉ a)
    (hU0 : '{' ∉ U) (hU1 : '%' ∉ U) (hU2 : '}' ∉ U) (hV1 : '%' ∉ V) (hV2 : '}' ∉ V)
    (hE0 : '{' ∉ E) (hE1 : '%' ∉ E) (hE2 : '}' ∉ E) (hlen : 4 ≤ E.length)
    (hra : resolveName st k uid a = .ok va)
    (hf1 : U.length + V.length + 2 ≤ k) (hf2 : E.length + 1 ≤ k) :
    ReplaceBlock st (k + 1)
        ('{' :: 'i' :: 'f' :: '(' :: '%' :: (a ++ '%' :: ')' :: '{' ::
          (U ++ '%' :: '%' :: (V ++ '}' :: '{' :: (E ++ ['}', '}']))))) 0 uid
      = .ok (if va ≠ [] then U ++ va ++ V else E,
          len (if va ≠ [] then U ++ va ++ V else E) - 1) := by
  have hb : byteAt ('{' :: 'i' :: 'f' :: '(' :: '%' :: (a ++ '%' :: ')' :: '{' ::
      (U ++ '%' :: '%' :: (V ++ '}' :: '{' :: (E ++ ['}', '}']))))) (0 + 1) = .ok 'i' := rfl
  have hs : slice ('{' :: 'i' :: 'f' :: '(' :: '%' :: (a ++ '%' :: ')' :: '{' ::
      (U ++ '%' :: '%' :: (V ++ '}' :: '{' :: (E ++ ['}', '}']))))) (0 + 1) (0 + 5)
      = .ok "if(%".toList := by
    have := slice_append_append ['{'] "if(%".toList (a ++ '%' :: ')' :: '{' ::
      (U ++ '%' :: '%' :: (V ++ '}' :: '{' :: (E ++ ['}', '}'])))) (0 + 1) (0 + 5) (by simp [len]) (by simp [len])
    simpa using this
  have hc := replaceBlock_condition st k uid [] a
    (U ++ '%' :: '%' :: (V ++ '}' :: '{' :: (E ++ ['}', '}']))) va ha0 ha1 ha2 (by decide) hra
  have l0 : len ([] : Str) = 0 := rfl
  simp only [List.nil_append, l0, zero_add] at hc
  have p1 := len_nonneg a
  have p2 := len_nonneg U
  have p3 := len_nonneg V
  have p4 := len_nonneg va
  -- the true branch
  have lA : len ('{' :: 'i' :: 'f' :: '(' :: '$' :: (a ++ ['$', ')'])) = 7 + len a := by
    simp only [len, List.length_append, List.length_cons, List.length_nil]
    push_cast
    omega
  have lA1 : len ('{' :: 'i' :: 'f' :: '(' :: '$' :: (a ++ ['$', ')', '{'])) = 7 + len a + 1 := by
    simp only [len, List.length_append, List.length_cons, List.length_nil]
    push_cast
    omega
  obtain ⟨s, hsl, hsne⟩ := statement_head_ne ('{' :: 'i' :: 'f' :: '(' :: '$' :: (a ++ ['$', ')']))
    (U ++ '%' :: '%' :: (V ++ '}' :: '{' :: (E ++ ['}', '}']))) (by simp; omega)
    (hasPrefix_nested_shortcut U _ hU0)
  obtain ⟨f, hf⟩ : ∃ f, k = f + V.length + 1 + 1 + U.length :=
    ⟨k - (U.length + V.length + 2), by omega⟩
  have hsc := subReference_shortcut st (f + V.length + 1) uid
    ('{' :: 'i' :: 'f' :: '(' :: '$' :: (a ++ ['$', ')', '{']) ++ U)
    (V ++ '}' :: '{' :: (E ++ ['}', '}'])) a va va (by simp [ha2, hU1])
  have hone := subRefs_one st uid a va va va
    ('{' :: 'i' :: 'f' :: '(' :: '$' :: (a ++ ['$', ')', '{'])) U ['%', '%'] va V
    ('{' :: (E ++ ['}', '}'])) f (7 + len a + 1) hU1 hU2 hV1 hV2 lA1.symm ⟨_, rfl⟩
    (by
      have e : '{' :: 'i' :: 'f' :: '(' :: '$' :: (a ++ ['$', ')', '{']) ++ U ++ ['%', '%'] ++
            (V ++ '}' :: '{' :: (E ++ ['}', '}']))
          = ('{' :: 'i' :: 'f' :: '(' :: '$' :: (a ++ ['$', ')', '{']) ++ U) ++
            '%' :: '%' :: (V ++ '}' :: '{' :: (E ++ ['}', '}'])) := by simp
      rw [e, hsc])
  rw [← hf, lA1] at hone
  have et1 : '{' :: 'i' :: 'f' :: '(' :: '$' :: (a ++ ['$', ')', '{']) ++ U ++ ['%', '%'] ++
        (V ++ '}' :: '{' :: (E ++ ['}', '}']))
      = '{' :: 'i' :: 'f' :: '(' :: '$' :: (a ++ '$' :: ')' :: '{' ::
          (U ++ '%' :: '%' :: (V ++ '}' :: '{' :: (E ++ ['}', '}'])))) := by simp
  have et1b : '{' :: 'i' :: 'f' :: '(' :: '$' :: (a ++ '$' :: ')' :: '{' ::
          (U ++ '%' :: '%' :: (V ++ '}' :: '{' :: (E ++ ['}', '}']))))
      = ('{' :: 'i' :: 'f' :: '(' :: '$' :: (a ++ ['$', ')'])) ++ '{' ::
          (U ++ '%' :: '%' :: (V ++ '}' :: '{' :: (E ++ ['}', '}']))) := by simp
  have et2 : '{' :: 'i' :: 'f' :: '(' :: '$' :: (a ++ ['$', ')', '{']) ++ U ++ va ++
        (V ++ '}' :: '{' :: (E ++ ['}', '}']))
      = [] ++ (('{' :: 'i' :: 'f' :: '(' :: '$' :: (a ++ ['$', ')'])) ++
          '{' :: ((U ++ va ++ V) ++ '}' :: '{' :: (E ++ ['}', '}']))) ++ [] := by simp
  rw [et1, et2] at hone
  rw [← et1b, lA] at hsl
  have hst := statement_not_nested st k (fun t s => ReplaceBlock st k t s uid) uid a va va va _ _ s
    (7 + len a) (7 + len a + 1 + len U + len va + len V) (by omega)
    hsl hsne hone (by omega)
  obtain ⟨t1, t2, t3, t4⟩ := block_tail st k uid a va va []
    ('{' :: 'i' :: 'f' :: '(' :: '$' :: (a ++ ['$', ')'])) (U ++ va ++ V) E [] hE0 hE1 hE2
    (by simp; omega) (by simp)
    (by
      intro new
      have := replace1_first [] '{' (('i' :: 'f' :: '(' :: '$' :: (a ++ ['$', ')'])) ++
          '{' :: ((U ++ va ++ V) ++ '}' :: '{' :: (E ++ ['}', '}']))) new [] (by simp)
      simpa using this)
    hf2
  have e5 : (7 : Int) + len a + 1 + len U + len va + len V
      = len ([] : Str) + len ('{' :: 'i' :: 'f' :: '(' :: '$' :: (a ++ ['$', ')'])) + 1
          + len (U ++ va ++ V) := by
    rw [lA, l0, len_append, len_append]
    omega
  have e6 : (7 : Int) + len a
      = len ([] : Str) + len ('{' :: 'i' :: 'f' :: '(' :: '$' :: (a ++ ['$', ')'])) := by
    rw [lA, l0]
    omega
  rw [e5] at hst
  rw [ReplaceBlock, hb]
  simp only [Outcome.ok_bind, if_neg (show ¬ ('i' = '%') by decide), hs, if_true, hc, hst, t1,
    t2, t3]
  rw [e6]
  have e7 : (0 : Int) = len ([] : Str) := rfl
  rw [e7, t4]
  simp only [List.nil_append, List.append_nil, l0, zero_add]

theorem replaceBlock_inner_simpleRef (st : Store) (k F : Nat) (uid a x U V E va vx : Str)
    (ha0 : a ≠ []) (ha1 : ' ' ∉ a) (ha2 : '%' ∉ a)
    (hx0 : x ≠ []) (hx1 : ' ' ∉ x) (hx2 : '%' ∉ x)
    (hU0 : '{' ∉ U) (hU1 : '%' ∉ U) (hU2 : '}' ∉ U) (hV0 : '{' ∉ V)
    (hE0 : '{' ∉ E) (hE1 : '%' ∉ E) (hE2 : '}' ∉ E) (hlen : 4 ≤ E.length)
    (hra : resolveName st k uid a = .ok va)
    (hrx : ∀ f, F ≤ f → resolveName st f uid x = .ok vx)
    (hf1 : F + U.length + 3 ≤ k) (hf2 : E.length + 1 ≤ k) :
    ReplaceBlock st (k + 1)
        ('{' :: 'i' :: 'f' :: '(' :: '%' :: (a ++ '%' :: ')' :: '{' ::
          (U ++ '{' :: '%' :: (x ++ '%' :: '}' :: (V ++ '}' :: '{' :: (E ++ ['}', '}'])))))) 0 uid
      = .ok (if va ≠ [] then U ++ '{' :: vx else E,
          len (if va ≠ [] then U ++ '{' :: vx else E) - 1) := by
  have hb : byteAt ('{' :: 'i' :: 'f' :: '(' :: '%' :: (a ++ '%' :: ')' :: '{' ::
      (U ++ '{' :: '%' :: (x ++ '%' :: '}' :: (V ++ '}' :: '{' :: (E ++ ['}', '}']))))))
      (0 + 1) = .ok 'i' := rfl
  have hs : slice ('{' :: 'i' :: 'f' :: '(' :: '%' :: (a ++ '%' :: ')' :: '{' ::
      (U ++ '{' :: '%' :: (x ++ '%' :: '}' :: (V ++ '}' :: '{' :: (E ++ ['}', '}']))))))
      (0 + 1) (0 + 5) = .ok "if(%".toList := by
    have := slice_append_append ['{'] "if(%".toList (a ++ '%' :: ')' :: '{' ::
      (U ++ '{' :: '%' :: (x ++ '%' :: '}' :: (V ++ '}' :: '{' :: (E ++ ['}', '}'])))))
      (0 + 1) (0 + 5) (by simp [len]) (by simp [len])
    simpa using this
  have hc := replaceBlock_condition st k uid [] a
    (U ++ '{' :: '%' :: (x ++ '%' :: '}' :: (V ++ '}' :: '{' :: (E ++ ['}', '}'])))) va
    ha0 ha1 ha2 (by decide) hra
  have l0 : len ([] : Str) = 0 := rfl
  simp only [List.nil_append, l0, zero_add] at hc
  have p1 := len_nonneg a
  have p2 := len_nonneg U
  have p3 := len_nonneg V
  have p4 := len_nonneg vx
  have lA : len ('{' :: 'i' :: 'f' :: '(' :: '$' :: (a ++ ['$', ')'])) = 7 + len a := by
    simp only [len, List.length_append, List.length_cons, List.length_nil]
    push_cast
    omega
  have lA1 : len ('{' :: 'i' :: 'f' :: '(' :: '$' :: (a ++ ['$', ')', '{'])) = 7 + len a + 1 := by
    simp only [len, List.length_append, List.length_cons, List.length_nil]
    push_cast
    omega
  obtain ⟨s, hsl, hsne⟩ := statement_head_ne ('{' :: 'i' :: 'f' :: '(' :: '$' :: (a ++ ['$', ')']))
    (U ++ '{' :: '%' :: (x ++ '%' :: '}' :: (V ++ '}' :: '{' :: (E ++ ['}', '}']))))
    (by simp; omega) (hasPrefix_nested_simpleRef U _ hU0)
  obtain ⟨f, hf⟩ : ∃ f, k = f + ([] : Str).length + 1 + 1 + (U ++ ['{']).length :=
    ⟨k - (U.length + 3), by simp; omega⟩
  have hfF : F ≤ f + ([] : Str).length + 1 := by
    simp at hf ⊢
    omega
  -- the sub-reference inside the inner braces
  have hsub : ∃ buff2, ReplaceSubReference st (f + ([] : Str).length + 1)
      (('{' :: 'i' :: 'f' :: '(' :: '$' :: (a ++ ['$', ')', '{']) ++ (U ++ ['{'])) ++
        '%' :: (x ++ '%' :: ('}' :: (V ++ '}' :: '{' :: (E ++ ['}', '}']))))) uid
      (len ('{' :: 'i' :: 'f' :: '(' :: '$' :: (a ++ ['$', ')', '{']) ++ (U ++ ['{']))) a va va
      = .ok (('{' :: 'i' :: 'f' :: '(' :: '$' :: (a ++ ['$', ')', '{']) ++ (U ++ ['{'])) ++ vx ++
          ('}' :: (V ++ '}' :: '{' :: (E ++ ['}', '}']))), buff2,
          len ('{' :: 'i' :: 'f' :: '(' :: '$' :: (a ++ ['$', ')', '{']) ++ (U ++ ['{']))
            + len vx - 1) := by
    have hp : '%' ∉ '{' :: 'i' :: 'f' :: '(' :: '$' :: (a ++ ['$', ')', '{']) ++ (U ++ ['{']) := by
      simp [ha2, hU1]
    by_cases hxa : x = a
    · subst hxa
      have hv : va = vx := by
        have h1 := hrx k (by omega)
        rw [hra] at h1
        exact Outcome.ok.inj h1
      subst hv
      exact ⟨va, subReference_own st _ uid _ _ x va va hp hx0 hx2⟩
    · exact ⟨vx, subReference_named st _ uid _ x _ a va va vx hp hx0 hx2 hx1 hxa (hrx _ hfF)⟩
  obtain ⟨buff2, hsub⟩ := hsub
  have hone := subRefs_one st uid a va va buff2
    ('{' :: 'i' :: 'f' :: '(' :: '$' :: (a ++ ['$', ')', '{'])) (U ++ ['{'])
    ('%' :: (x ++ ['%'])) vx [] (V ++ '}' :: '{' :: (E ++ ['}', '}'])) f (7 + len a + 1)
    (by simp [hU1]) (by simp [hU2]) (by simp) (by simp) lA1.symm ⟨_, rfl⟩
    (by
      have e : '{' :: 'i' :: 'f' :: '(' :: '$' :: (a ++ ['$', ')', '{']) ++ (U ++ ['{']) ++
            '%' :: (x ++ ['%']) ++ ([] ++ '}' :: (V ++ '}' :: '{' :: (E ++ ['}', '}'])))
          = ('{' :: 'i' :: 'f' :: '(' :: '$' :: (a ++ ['$', ')', '{']) ++ (U ++ ['{'])) ++
            '%' :: (x ++ '%' :: ('}' :: (V ++ '}' :: '{' :: (E ++ ['}', '}'])))) := by simp
      rw [e, hsub]
      simp)
  rw [← hf, lA1] at hone
  have et1 : '{' :: 'i' :: 'f' :: '(' :: '$' :: (a ++ ['$', ')', '{']) ++ (U ++ ['{']) ++
        '%' :: (x ++ ['%']) ++ ([] ++ '}' :: (V ++ '}' :: '{' :: (E ++ ['}', '}'])))
      = '{' :: 'i' :: 'f' :: '(' :: '$' :: (a ++ '$' :: ')' :: '{' ::
          (U ++ '{' :: '%' :: (x ++ '%' :: '}' :: (V ++ '}' :: '{' :: (E ++ ['}', '}']))))) := by
    simp
  have et1b : '{' :: 'i' :: 'f' :: '(' :: '$' :: (a ++ '$' :: ')' :: '{' ::
          (U ++ '{' :: '%' :: (x ++ '%' :: '}' :: (V ++ '}' :: '{' :: (E ++ ['}', '}'])))))
      = ('{' :: 'i' :: 'f' :: '(' :: '$' :: (a ++ ['$', ')'])) ++ '{' ::
          (U ++ '{' :: '%' :: (x ++ '%' :: '}' :: (V ++ '}' :: '{' :: (E ++ ['}', '}'])))) := by
    simp
  have et2 : '{' :: 'i' :: 'f' :: '(' :: '$' :: (a ++ ['$', ')', '{']) ++ (U ++ ['{']) ++ vx ++
        ([] ++ '}' :: (V ++ '}' :: '{' :: (E ++ ['}', '}'])))
      = [] ++ (('{' :: 'i' :: 'f' :: '(' :: '$' :: (a ++ ['$', ')'])) ++
          '{' :: ((U ++ '{' :: vx) ++ '}' :: ((V ++ ['}']) ++ '{' :: (E ++ ['}', '}'])))) ++ [] := by
    simp
  rw [et1, et2] at hone
  rw [← et1b, lA] at hsl
  have lT1 : len (U ++ ['{']) = len U + 1 := by rw [len_append]; rfl
  have hst := statement_not_nested st k (fun t s => ReplaceBlock st k t s uid) uid a va va buff2
    _ _ s (7 + len a) (7 + len a + 1 + len (U ++ ['{']) + len vx + len ([] : Str)) (by omega)
    hsl hsne hone (by rw [lT1, l0]; omega)
  obtain ⟨t1, t2, t3, t4⟩ := block_tail_gap st k uid a va buff2 []
    ('{' :: 'i' :: 'f' :: '(' :: '$' :: (a ++ ['$', ')'])) (U ++ '{' :: vx) (V ++ ['}']) E []
    (by simp [hV0]) hE0 hE1 hE2 (by simp; omega) (by simp)
    (by
      intro new
      have := replace1_first [] '{' (('i' :: 'f' :: '(' :: '$' :: (a ++ ['$', ')'])) ++
          '{' :: ((U ++ '{' :: vx) ++ '}' :: ((V ++ ['}']) ++ '{' :: (E ++ ['}', '}'])))) new []
        (by simp)
      simpa using this)
    hf2
  have e5 : (7 : Int) + len a + 1 + len (U ++ ['{']) + len vx + len ([] : Str)
      = len ([] : Str) + len ('{' :: 'i' :: 'f' :: '(' :: '$' :: (a ++ ['$', ')'])) + 1
          + len (U ++ '{' :: vx) := by
    rw [lA, l0, lT1, len_append, len_cons]
    omega
  have e6 : (7 : Int) + len a
      = len ([] : Str) + len ('{' :: 'i' :: 'f' :: '(' :: '$' :: (a ++ ['$', ')'])) := by
    rw [lA, l0]
    omega
  rw [e5] at hst
  rw [ReplaceBlock, hb]
  simp only [Outcome.ok_bind, if_neg (show ¬ ('i' = '%') by decide), hs, if_true, hc, hst, t1,
    t2, t3]
  rw [e6]
  have e7 : (0 : Int) = len ([] : Str) := rfl
  rw [e7, t4]
  simp only [List.nil_append, List.append_nil, l0, zero_add]

/-! ## The shortcut before any sub-reference (C28) and a simple reference inside a branch (C26) -/

/-- C28: for a name `a` (non-empty, without space or `%`) whose value by the
resolver is the non-empty `va`, and texts `U` (none of `{`, `}`, `%`), `V` (none of
`}`, `%`) and `E` (none of `{`, `}`, `%`, at least four bytes), `ReplaceReferences`
with enough fuel turns `{if(%a%){U%%V}{E}}` into `U ++ va ++ V`: a `%%` met before
any `%NAME%` of the branch is replaced by the selector value. -/
theorem shortcut_initial_buffer (st : Store) (email uid a U V E va : Str) (F : Nat)
    (hid : st.targetId email = .ok uid)
    (ha0 : a ≠ []) (ha1 : ' ' ∉ a) (ha2 : '%' ∉ a)
    (hU0 : '{' ∉ U) (hU1 : '%' ∉ U) (hU2 : '}' ∉ U) (hV1 : '%' ∉ V) (hV2 : '}' ∉ V)
    (hE0 : '{' ∉ E) (hE1 : '%' ∉ E) (hE2 : '}' ∉ E) (hlen : 4 ≤ E.length)
    (hra : ∀ f, F ≤ f → resolveName st f uid a = .ok va) (hne : va ≠ [])
    (fuel : Nat) (hfuel : F + U.length + V.length + E.length + 5 ≤ fuel) :
    ReplaceReferences st fuel
        ("\x7bif(%".toList ++ a ++ "%)\x7b".toList ++ U ++ "%%".toList ++ V ++
          "\x7d\x7b".toList ++ E ++ "\x7d\x7d".toList) email
      = .ok (U ++ va ++ V, none) := by
  obtain ⟨k, rfl⟩ : ∃ k, fuel = k + 2 := ⟨fuel - 2, by omega⟩
  have e : "\x7bif(%".toList ++ a ++ "%)\x7b".toList ++ U ++ "%%".toList ++ V ++
          "\x7d\x7b".toList ++ E ++ "\x7d\x7d".toList
      = '{' :: 'i' :: 'f' :: '(' :: '%' :: (a ++ '%' :: ')' :: '{' ::
          (U ++ '%' :: '%' :: (V ++ '}' :: '{' :: (E ++ ['}', '}'])))) := by simp
  have hblock := replaceBlock_shortcut st k uid a U V E va ha0 ha1 ha2 hU0 hU1 hU2 hV1 hV2
    hE0 hE1 hE2 hlen (hra k (by omega)) (by omega) (by omega)
  rw [if_pos hne] at hblock
  rw [e, ReplaceReferences, hid]
  simp only []
  rw [loop_single_block st uid _ (U ++ va ++ V) k (byteAt_zero_cons _ _)
    (by simp [len]; omega) hblock]
  rfl

/-- C28, on the demo store: `{if(%age%){Hello %%!}{nobody here}}` gives
`Hello 25!`. -/
theorem shortcut_initial_buffer_witness :
    ReplaceReferences demoStore 25
        "\x7bif(%age%)\x7bHello %%!\x7d\x7bnobody here\x7d\x7d".toList
        "alice@example.org".toList
      = .ok ("Hello 25!".toList, none) :=
  shortcut_initial_buffer demoStore "alice@example.org".toList "7".toList "age".toList
    "Hello ".toList "!".toList "nobody here".toList "25".toList 0 rfl (by decide) (by decide)
    (by decide) (by decide) (by decide) (by decide) (by decide) (by decide) (by decide)
    (by decide) (by decide) (by decide)
    (fun f _ => resolveName_attribute demoStore f _ _ _ rfl (by decide)) (by decide) 25
    (by decide)

/-- C26: on the demo store (`age = "25"`, `city = "New York"`) the text
`{if(%age%){In {%city%} now}{Nobody}}` gives `In {New York`, not
`In New York now`: inside a branch only the `%city%` of the reference is
replaced, its opening brace stays in the output, and `ReplaceSubReferences`
returns the position of its closing brace as the end of the statement, so that
` now` is lost. -/
theorem simpleRef_in_branch_cut :
    ReplaceReferences demoStore 9
      "\x7bif(%age%)\x7bIn \x7b%city%\x7d now\x7d\x7bNobody\x7d\x7d".toList
      "alice@example.org".toList = .ok ("In \x7bNew York".toList, none) ∧
    ReplaceReferences demoStore 40
      "\x7bif(%age%)\x7bIn \x7b%city%\x7d now\x7d\x7bNobody\x7d\x7d".toList
      "alice@example.org".toList = .ok ("In \x7bNew York".toList, none) :=
  ⟨rfl, rfl⟩

/-- The defect shown for C26 on one text, on every text of that form: for names
`a` and `x` (non-empty, without space or `%`), `a` with the non-empty value `va`
and `x` with the value `vx` by the resolver, and texts `U` (none of `{`, `}`,
`%`), `V` (no `{`) and `E` (none of `{`, `}`, `%`, at least four bytes),
`ReplaceReferences` with enough fuel turns `{if(%a%){U{%x%}V}{E}}` into
`U ++ "{" ++ vx`: the `%x%` is replaced as a sub-reference, the opening brace of
the inner reference is left, its closing brace is taken for the end of the
statement and `V` is lost. -/
theorem simpleRef_in_branch (st : Store) (email uid a x U V E va vx : Str) (F : Nat)
    (hid : st.targetId email = .ok uid)
    (ha0 : a ≠ []) (ha1 : ' ' ∉ a) (ha2 : '%' ∉ a)
    (hx0 : x ≠ []) (hx1 : ' ' ∉ x) (hx2 : '%' ∉ x)
    (hU0 : '{' ∉ U) (hU1 : '%' ∉ U) (hU2 : '}' ∉ U) (hV0 : '{' ∉ V)
    (hE0 : '{' ∉ E) (hE1 : '%' ∉ E) (hE2 : '}' ∉ E) (hlen : 4 ≤ E.length)
    (hra : ∀ f, F ≤ f → resolveName st f uid a = .ok va) (hne : va ≠ [])
    (hrx : ∀ f, F ≤ f → resolveName st f uid x = .ok vx)
    (fuel : Nat) (hfuel : F + U.length + E.length + 5 ≤ fuel) :
    ReplaceReferences st fuel
        ("\x7bif(%".toList ++ a ++ "%)\x7b".toList ++ U ++ "\x7b%".toList ++ x ++
          "%\x7d".toList ++ V ++ "\x7d\x7b".toList ++ E ++ "\x7d\x7d".toList) email
      = .ok (U ++ "\x7b".toList ++ vx, none) := by
  obtain ⟨k, rfl⟩ : ∃ k, fuel = k + 2 := ⟨fuel - 2, by omega⟩
  have e : "\x7bif(%".toList ++ a ++ "%)\x7b".toList ++ U ++ "\x7b%".toList ++ x ++
          "%\x7d".toList ++ V ++ "\x7d\x7b".toList ++ E ++ "\x7d\x7d".toList
      = '{' :: 'i' :: 'f' :: '(' :: '%' :: (a ++ '%' :: ')' :: '{' ::
          (U ++ '{' :: '%' :: (x ++ '%' :: '}' :: (V ++ '}' :: '{' :: (E ++ ['}', '}']))))) := by
    simp
  have e2 : U ++ "\x7b".toList ++ vx = U ++ '{' :: vx := by simp
  have hblock := replaceBlock_inner_simpleRef st k F uid a x U V E va vx ha0 ha1 ha2 hx0 hx1 hx2
    hU0 hU1 hU2 hV0 hE0 hE1 hE2 hlen (hra k (by omega)) hrx (by omega) (by omega)
  rw [if_pos hne] at hblock
  rw [e, e2, ReplaceReferences, hid]
  simp only []
  rw [loop_single_block st uid _ (U ++ '{' :: vx) k (byteAt_zero_cons _ _)
    (by simp [len]; omega) hblock]
  rfl

/-- On the demo store: `{if(%age%){In {%city%} now}{Nobody}}` gives
`In {New York`, at a third amount of fuel. -/
theorem simpleRef_in_branch_witness :
    ReplaceReferences demoStore 20
        "\x7bif(%age%)\x7bIn \x7b%city%\x7d now\x7d\x7bNobody\x7d\x7d".toList
        "alice@example.org".toList
      = .ok ("In \x7bNew York".toList, none) :=
  simpleRef_in_branch demoStore "alice@example.org".toList "7".toList "age".toList
    "city".toList "In ".toList " now".toList "Nobody".toList "25".toList "New York".toList 0 rfl
    (by decide) (by decide) (by decide) (by decide) (by decide) (by decide) (by decide)
    (by decide) (by decide) (by decide) (by decide) (by decide) (by decide) (by decide)
    (fun f _ => resolveName_attribute demoStore f _ _ _ rfl (by decide)) (by decide)
    (fun f _ => resolveName_attribute demoStore f _ _ _ rfl (by decide)) 20 (by decide)

/-! ## Runs that end: stability in the fuel, and counting `%` -/

theorem stable_const {α : Type} (r : Outcome α) (hr : r ≠ .outOfFuel) :
    Stable (fun _ => r) :=
  ⟨0, r, hr, fun _ _ => rfl⟩

theorem stable_congr {α : Type} (g h : Nat → Outcome α) (N : Nat)
    (he : ∀ fuel, N ≤ fuel → g fuel = h fuel) (hh : Stable h) : Stable g := by
  obtain ⟨M, r, hr, hM⟩ := hh
  refine ⟨max N M, r, hr, fun fuel hf => ?_⟩
  rw [he fuel (le_trans (le_max_left _ _) hf), hM fuel (le_trans (le_max_right _ _) hf)]

theorem stable_succ {α : Type} (g : Nat → Outcome α) (h : Nat → Outcome α)
    (he : ∀ fuel, g (fuel + 1) = h fuel) (hh : Stable h) : Stable g := by
  obtain ⟨M, r, hr, hM⟩ := hh
  refine ⟨M + 1, r, hr, fun fuel hf => ?_⟩
  obtain ⟨k, rfl⟩ : ∃ k, fuel = k + 1 := ⟨fuel - 1, by omega⟩
  rw [he k, hM k (by omega)]

theorem stable_bind {α β : Type} (g : Nat → Outcome α) (h : Nat → α → Outcome β)
    (hg : Stable g)
    (hh : ∀ a N, (∀ fuel, N ≤ fuel → g fuel = .ok a) → Stable (fun fuel => h fuel a)) :
    Stable (fun fuel => g fuel >>= h fuel) := by
  obtain ⟨N, r, hr, hN⟩ := hg
  cases r with
  | ok a =>
    obtain ⟨M, r2, hr2, hM⟩ := hh a N hN
    refine ⟨max N M, r2, hr2, fun fuel hf => ?_⟩
    show (g fuel >>= h fuel) = r2
    rw [hN fuel (le_trans (le_max_left _ _) hf)]
    exact hM fuel (le_trans (le_max_right _ _) hf)
  | panic =>
    refine ⟨N, .panic, by simp, fun fuel hf => ?_⟩
    show (g fuel >>= h fuel) = .panic
    rw [hN fuel hf]
    rfl
  | outOfFuel => exact absurd rfl hr

theorem stable_bind_const {α β : Type} (x : Outcome α) (h : Nat → α → Outcome β)
    (hx : x ≠ .outOfFuel) (hh : ∀ a, x = .ok a → Stable (fun fuel => h fuel a)) :
    Stable (fun fuel => x >>= h fuel) :=
  stable_bind (fun _ => x) h (stable_const x hx) (fun a N ha => hh a (ha N (Nat.le_refl _)))

theorem stable_ite {α : Type} (c : Prop) [Decidable c] (g h : Nat → Outcome α)
    (hg : c → Stable g) (hh : ¬ c → Stable h) :
    Stable (fun fuel => if c then g fuel else h fuel) := by
  by_cases hc : c
  · simp only [if_pos hc]
    exact hg hc
  · simp only [if_neg hc]
    exact hh hc

theorem slice_eq {α : Type} (t o : List α) (a b : Int) (h : slice t a b = .ok o) :
    0 ≤ a ∧ a ≤ b ∧ b ≤ len t ∧ o = (t.drop a.toNat).take (b.toNat - a.toNat) := by
  unfold slice at h
  by_cases hc : 0 ≤ a ∧ a ≤ b ∧ b ≤ len t
  · rw [if_pos hc] at h
    exact ⟨hc.1, hc.2.1, hc.2.2, (Outcome.ok.inj h).symm⟩
  · rw [if_neg hc] at h
    exact absurd h (by simp)

theorem slice_infix_of {α : Type} (t o : List α) (a b : Int) (h : slice t a b = .ok o) :
    o <:+: t := by
  obtain ⟨_, _, _, rfl⟩ := slice_eq t o a b h
  exact (List.take_prefix _ _).isInfix.trans (List.drop_suffix _ _).isInfix

theorem slice_within {α : Type} (t o p : List α) (a b c d : Int)
    (h1 : slice t a b = .ok o) (h2 : slice t c d = .ok p) (hac : a ≤ c) (hdb : d ≤ b) :
    p <:+: o := by
  obtain ⟨ha, hab, hb, rfl⟩ := slice_eq t o a b h1
  obtain ⟨hc, hcd, hd, rfl⟩ := slice_eq t p c d h2
  obtain ⟨a, rfl⟩ := Int.eq_ofNat_of_zero_le ha
  obtain ⟨c, rfl⟩ := Int.eq_ofNat_of_zero_le hc
  obtain ⟨b, rfl⟩ := Int.eq_ofNat_of_zero_le (le_trans ha hab)
  obtain ⟨d, rfl⟩ := Int.eq_ofNat_of_zero_le (le_trans hc hcd)
  simp only [Int.toNat_ofNat]
  have hac' : a ≤ c := by omega
  have hdb' : d ≤ b := by omega
  have hcd' : c ≤ d := by omega
  have hb' : b ≤ t.length := by unfold len at hb; omega
  -- the inner slice is the outer one with `c - a` dropped and `d - c` taken
  have e : (t.drop c).take (d - c) = (((t.drop a).take (b - a)).drop (c - a)).take (d - c) := by
    rw [List.drop_take, List.drop_drop, List.take_take]
    have e1 : a + (c - a) = c := by omega
    have e2 : min (d - c) (b - a - (c - a)) = d - c := by omega
    rw [e1, e2]
  rw [e]
  exact (List.take_prefix _ _).isInfix.trans (List.drop_suffix _ _).isInfix

theorem slice_mem {α : Type} (t o : List α) (a b j : Int) (c : α)
    (h : slice t a b = .ok o) (hb : byteAt t j = .ok c) (h1 : a ≤ j) (h2 : j < b) : c ∈ o := by
  have hs : slice t j (j + 1) = .ok [c] := by
    obtain ⟨ha, hab, hlen, _⟩ := slice_eq t o a b h
    unfold byteAt at hb
    rw [if_pos (by omega)] at hb
    cases hg : t.get? j.toNat with
    | none => rw [hg] at hb; exact absurd hb (by simp)
    | some x =>
      rw [hg] at hb
      have hx : x = c := Outcome.ok.inj hb
      subst hx
      unfold slice
      rw [if_pos ⟨by omega, by omega, by omega⟩]
      have e : (j + 1).toNat - j.toNat = 1 := by omega
      rw [e]
      congr 1
      rw [List.get?_eq_getElem?] at hg
      have hlt : j.toNat < t.length := by
        by_contra hn
        rw [List.getElem?_eq_none (by omega)] at hg
        exact absurd hg (by simp)
      rw [List.getElem?_eq_getElem hlt] at hg
      rw [List.drop_eq_getElem_cons hlt]
      simp only [List.take_succ_cons, List.take_zero]
      exact congrArg (fun y => [y]) (Option.some.inj hg)
  have := slice_within t o [c] a b j (j + 1) h hs h1 (by omega)
  exact this.subset (by simp)

theorem replace1_of_hasPrefix (t old new : Str) (h : HasPrefix t old = true) :
    Replace1 t old new = new ++ t.drop old.length := by
  cases t with
  | nil =>
    cases old with
    | nil => simp [Replace1, HasPrefix]
    | cons d p => simp [HasPrefix] at h
  | cons c s => rw [Replace1, if_pos h]

theorem replace1_count (c : Char) (new old : Str) : ∀ t : Str, old <:+: t →
    (Replace1 t old new).count c + old.count c = t.count c + new.count c := by
  intro t
  induction t with
  | nil =>
    intro h
    have : old = [] := List.eq_nil_of_infix_nil h
    subst this
    simp [Replace1, HasPrefix]
  | cons x s ih =>
    intro h
    by_cases hp : HasPrefix (x :: s) old = true
    · rw [replace1_of_hasPrefix _ _ _ hp]
      obtain ⟨rest, hrest⟩ := (hasPrefix_iff _ _).1 hp
      rw [← hrest]
      simp only [List.drop_left, List.count_append]
      omega
    · have hnp : ¬ old <+: x :: s := fun e => hp ((hasPrefix_iff _ _).2 e)
      have hs : old <:+: s := by
        rcases List.infix_cons_iff.1 h with h1 | h1
        · exact absurd h1 hnp
        · exact h1
      have := ih hs
      rw [Replace1, if_neg hp]
      simp only [List.count_cons]
      omega

theorem infix_count_le (c : Char) (p o : Str) (h : p <:+: o) : p.count c ≤ o.count c :=
  h.sublist.count_le c

/-! ## The resolver ends and gives plain values -/

theorem condLoop_value (st : Store) (fuel : Nat) (uid : Str) :
    ∀ (cs : List Cond) (v : Str) (e : Option GoError),
      GetVariableValue.condLoop st fuel uid cs = .ok (v, e) → v = [] ∨ ∃ c ∈ cs, v = c.Value := by
  intro cs
  induction cs with
  | nil =>
    intro v e h
    rw [GetVariableValue.condLoop] at h
    left
    exact (Prod.mk.inj (Outcome.ok.inj h)).1.symm
  | cons c cs ih =>
    intro v e h
    rw [condLoop_cons] at h
    cases hev : evalCondition st fuel uid c with
    | ok r =>
      rw [hev] at h
      simp only [Outcome.ok_bind] at h
      by_cases h1 : r.2 ≠ none
      · rw [if_pos h1] at h
        left
        exact (Prod.mk.inj (Outcome.ok.inj h)).1.symm
      · rw [if_neg h1] at h
        by_cases h2 : r.1 = true
        · rw [if_pos h2] at h
          right
          exact ⟨c, by simp, (Prod.mk.inj (Outcome.ok.inj h)).1.symm⟩
        · rw [if_neg h2] at h
          rcases ih v e h with h3 | ⟨c2, hc2, h3⟩
          · left; exact h3
          · right; exact ⟨c2, by simp [hc2], h3⟩
    | panic => rw [hev] at h; exact absurd h (by simp)
    | outOfFuel => rw [hev] at h; exact absurd h (by simp)

theorem getVariableValue_plain (st : Store) (hst : PlainStore st) (fuel : Nat)
    (uid name v : Str) (e : Option GoError)
    (h : GetVariableValue st fuel uid name = .ok (v, e)) : '%' ∉ v := by
  unfold GetVariableValue at h
  cases hv : st.variableByName name with
  | error err =>
    rw [hv] at h
    have := (Prod.mk.inj (Outcome.ok.inj h)).1
    rw [← this]
    simp
  | ok var_type =>
    rw [hv] at h
    simp only at h
    by_cases h1 : var_type.FieldId ≠ []
    · rw [if_pos h1] at h
      by_cases h2 : var_type.FieldId ≠ "0".toList
      · rw [if_pos h2] at h
        cases hs : st.simpleCondition var_type.FieldId uid var_type.Id with
        | error err =>
          rw [hs] at h
          have := (Prod.mk.inj (Outcome.ok.inj h)).1
          rw [← this]
          simp
        | ok value =>
          rw [hs] at h
          have := (Prod.mk.inj (Outcome.ok.inj h)).1
          rw [← this]
          exact hst.2.1 _ _ _ _ hs
      · rw [if_neg h2] at h
        cases hs : st.conditions var_type.Id with
        | error err =>
          rw [hs] at h
          have := (Prod.mk.inj (Outcome.ok.inj h)).1
          rw [← this]
          simp
        | ok conditions =>
          rw [hs] at h
          rcases condLoop_value st fuel uid conditions v e h with h3 | ⟨c, hc, h3⟩
          · rw [h3]; simp
          · rw [h3]; exact hst.2.2 _ _ c hs hc
    · rw [if_neg h1] at h
      have := (Prod.mk.inj (Outcome.ok.inj h)).1
      rw [← this]
      simp

theorem resolveName_plain (st : Store) (hst : PlainStore st) (fuel : Nat) (uid name v : Str)
    (h : resolveName st fuel uid name = .ok v) : '%' ∉ v := by
  unfold resolveName GetFieldValue at h
  cases hf : st.fieldValue uid (ToLower name) with
  | error err =>
    rw [hf] at h
    simp only [ne_eq, not_true_eq_false, not_false_eq_true, if_true, Outcome.pure_eq] at h
    cases hg : GetVariableValue st fuel uid (ToLower name) with
    | ok r =>
      rw [hg] at h
      simp only [reduceCtorEq, not_false_eq_true, if_true, Outcome.ok_bind] at h
      have := Outcome.ok.inj h
      rw [← this]
      exact getVariableValue_plain st hst fuel uid _ r.1 r.2 hg
    | panic => rw [hg] at h; simp at h
    | outOfFuel => rw [hg] at h; simp at h
  | ok value =>
    rw [hf] at h
    simp only [ne_eq, not_true_eq_false, if_false, Outcome.pure_eq] at h
    by_cases hv : value = []
    · rw [if_pos hv] at h
      cases hg : GetVariableValue st fuel uid (ToLower name) with
      | ok r =>
        rw [hg] at h
        simp only [Outcome.ok_bind] at h
        have := Outcome.ok.inj h
        rw [← this]
        exact getVariableValue_plain st hst fuel uid _ r.1 r.2 hg
      | panic => rw [hg] at h; simp at h
      | outOfFuel => rw [hg] at h; simp at h
    · rw [if_neg hv] at h
      have := Outcome.ok.inj h
      rw [← this]
      exact hst.1 _ _ _ hf

theorem rvs_inner_measure (cond : Str) (i : Int) : ∀ (n : Nat) (j : Int) (cond2 : Str) (i2 : Int),
    i < j → ReplaceValueSpaces.inner cond i n j = .ok (cond2, i2) →
    len cond2 - (i2 + 1) ≤ len cond - (i + 1) := by
  intro n
  induction n with
  | zero =>
    intro j cond2 i2 _ h
    rw [ReplaceValueSpaces.inner] at h
    obtain ⟨h1, h2⟩ := Prod.mk.inj (Outcome.ok.inj h)
    subst h1 h2
    omega
  | succ n ih =>
    intro j cond2 i2 hij h
    rw [ReplaceValueSpaces.inner] at h
    cases hb : byteAt cond j with
    | ok c =>
      rw [hb] at h
      simp only [Outcome.ok_bind] at h
      by_cases hc : c = '"'
      · rw [if_pos hc] at h
        cases hq : slice cond i (j + 1) with
        | ok quoted =>
          rw [hq] at h
          simp only [Outcome.ok_bind] at h
          cases hp : slice cond 0 i with
          | ok pre =>
            rw [hp] at h
            simp only [Outcome.ok_bind] at h
            cases hpo : slice cond (j + 1) (len cond) with
            | ok post =>
              rw [hpo] at h
              simp only [Outcome.ok_bind] at h
              have l1 := (slice_ok_length cond quoted i (j + 1) hq).2.2.2
              have l2 := (slice_ok_length cond pre 0 i hp).2.2.2
              have l3 := (slice_ok_length cond post (j + 1) (len cond) hpo).2.2.2
              have hr : ReplaceAll quoted " ".toList "%20".toList = encodeSpaces quoted :=
                replaceAll_encode quoted
              have l4 := encodeSpaces_length quoted
              rw [hr] at h
              by_cases h0 : Count quoted ' ' = 0
              · rw [if_pos h0] at h
                obtain ⟨e1, e2⟩ := Prod.mk.inj (Outcome.ok.inj h)
                subst e1 e2
                rw [len_append, len_append, l4, h0]
                omega
              · rw [if_neg h0] at h
                obtain ⟨e1, e2⟩ := Prod.mk.inj (Outcome.ok.inj h)
                subst e1 e2
                rw [len_append, len_append, l4]
                omega
            | panic => rw [hpo] at h; simp at h
            | outOfFuel => rw [hpo] at h; simp at h
          | panic => rw [hp] at h; simp at h
          | outOfFuel => rw [hp] at h; simp at h
        | panic => rw [hq] at h; simp at h
        | outOfFuel => rw [hq] at h; simp at h
      · rw [if_neg hc] at h
        exact ih (j + 1) cond2 i2 (by omega) h
    | panic => rw [hb] at h; simp at h
    | outOfFuel => rw [hb] at h; simp at h

theorem rvs_inner_ne_outOfFuel (cond : Str) (i : Int) : ∀ (n : Nat) (j : Int),
    ReplaceValueSpaces.inner cond i n j ≠ .outOfFuel := by
  intro n
  induction n with
  | zero => intro j; rw [ReplaceValueSpaces.inner]; simp
  | succ n ih =>
    intro j
    rw [ReplaceValueSpaces.inner]
    cases hb : byteAt cond j with
    | ok c =>
      simp only [Outcome.ok_bind]
      by_cases hc : c = '"'
      · rw [if_pos hc]
        cases hq : slice cond i (j + 1) with
        | ok quoted =>
          simp only [Outcome.ok_bind]
          cases hp : slice cond 0 i with
          | ok pre =>
            simp only [Outcome.ok_bind]
            cases hpo : slice cond (j + 1) (len cond) with
            | ok post =>
              simp only [Outcome.ok_bind]
              split_ifs <;> simp
            | panic => simp
            | outOfFuel => exact absurd hpo (slice_ne_outOfFuel _ _ _)
          | panic => simp
          | outOfFuel => exact absurd hp (slice_ne_outOfFuel _ _ _)
        | panic => simp
        | outOfFuel => exact absurd hq (slice_ne_outOfFuel _ _ _)
      · rw [if_neg hc]
        exact ih (j + 1)
    | panic => simp
    | outOfFuel => exact absurd hb (byteAt_ne_outOfFuel _ _)

theorem rvs_loop_succ (fuel : Nat) (condition : Str) (i : Int) :
    ReplaceValueSpaces.loop (fuel + 1) condition i =
      if i < len condition then
        byteAt condition i >>= fun c =>
          if c = '"' then
            byteAt condition (i + 1) >>= fun d =>
              if d ≠ '"' then
                ReplaceValueSpaces.inner condition i (len condition - (i + 1)).toNat (i + 1)
                  >>= fun r => ReplaceValueSpaces.loop fuel r.1 (r.2 + 1)
              else ReplaceValueSpaces.loop fuel condition (i + 1 + 1)
          else ReplaceValueSpaces.loop fuel condition (i + 1)
      else .ok condition := by
  rw [ReplaceValueSpaces.loop]
  rfl

theorem rvs_loop_stable : ∀ (m : Nat) (condition : Str) (i : Int),
    (len condition - i).toNat ≤ m → Stable (fun fuel => ReplaceValueSpaces.loop fuel condition i) := by
  intro m
  induction m with
  | zero =>
    intro condition i hm
    apply stable_succ _ (fun _ => .ok condition) _ (stable_const _ (by simp))
    intro fuel
    rw [rvs_loop_succ, if_neg (by omega)]
  | succ m ih =>
    intro condition i hm
    apply stable_succ _ _ (rvs_loop_succ · condition i)
    apply stable_ite
    · intro hlt
      apply stable_bind_const _ _ (byteAt_ne_outOfFuel _ _)
      intro c _
      apply stable_ite
      · intro _
        apply stable_bind_const _ _ (byteAt_ne_outOfFuel _ _)
        intro d _
        apply stable_ite
        · intro _
          apply stable_bind_const _ _ (rvs_inner_ne_outOfFuel _ _ _ _)
          intro r hr
          have := rvs_inner_measure condition i _ _ r.1 r.2 (by omega) hr
          exact ih r.1 (r.2 + 1) (by omega)
        · intro _
          exact ih condition (i + 1 + 1) (by omega)
      · intro _
        exact ih condition (i + 1) (by omega)
    · intro _
      exact stable_const _ (by simp)

theorem replaceValueSpaces_stable (condition : Str) :
    Stable (fun fuel => ReplaceValueSpaces fuel condition) :=
  rvs_loop_stable _ condition 0 (Nat.le_refl _)

theorem splitComplexCondition_stable (st : Store) (condition uid : Str) :
    Stable (fun fuel => SplitComplexCondition st fuel condition uid) := by
  refine ⟨5 * condition.length + 4, SplitComplexCondition st (5 * condition.length + 4) condition uid,
    (split_stable st uid condition (5 * condition.length + 4) (5 * condition.length + 4)
      (by omega) (by omega)).2, fun fuel hf => ?_⟩
  exact (split_stable st uid condition fuel (5 * condition.length + 4) (by omega) (by omega)).1

theorem evalCondition_stable (st : Store) (uid : Str) (c : Cond) :
    Stable (fun fuel => evalCondition st fuel uid c) := by
  unfold evalCondition
  apply stable_ite
  · intro _
    apply stable_bind _ _ (replaceValueSpaces_stable _)
    intro a _ _
    exact splitComplexCondition_stable st _ uid
  · intro _
    exact stable_const _ (by simp)

theorem condLoop_stable (st : Store) (uid : Str) : ∀ cs : List Cond,
    Stable (fun fuel => GetVariableValue.condLoop st fuel uid cs) := by
  intro cs
  induction cs with
  | nil =>
    apply stable_congr _ (fun _ => .ok ([], none)) 0 _ (stable_const _ (by simp))
    intro fuel _
    rw [GetVariableValue.condLoop]
    rfl
  | cons c cs ih =>
    apply stable_congr _ _ 0 (fun fuel _ => condLoop_cons st fuel uid c cs)
    apply stable_bind _ _ (evalCondition_stable st uid c)
    intro r _ _
    apply stable_ite
    · intro _
      exact stable_const _ (by simp)
    · intro _
      apply stable_ite
      · intro _
        exact stable_const _ (by simp)
      · intro _
        exact ih

theorem getVariableValue_stable (st : Store) (uid name : Str) :
    Stable (fun fuel => GetVariableValue st fuel uid name) := by
  unfold GetVariableValue
  cases st.variableByName name with
  | error err => exact stable_const _ (by simp)
  | ok var_type =>
    simp only
    apply stable_ite
    · intro _
      apply stable_ite
      · intro _
        cases st.simpleCondition var_type.FieldId uid var_type.Id with
        | error err => exact stable_const _ (by simp)
        | ok value => exact stable_const _ (by simp)
      · intro _
        cases st.conditions var_type.Id with
        | error err => exact stable_const _ (by simp)
        | ok conditions => exact condLoop_stable st uid conditions
    · intro _
      exact stable_const _ (by simp)

theorem resolveName_stable (st : Store) (uid name : Str) :
    Stable (fun fuel => resolveName st fuel uid name) := by
  have hg := getVariableValue_stable st uid (ToLower name)
  have hb : Stable (fun fuel => GetVariableValue st fuel uid (ToLower name) >>= fun r =>
      (pure r.1 : Outcome Str)) := by
    apply stable_bind _ _ hg
    intro a _ _
    exact stable_const _ (by simp)
  unfold resolveName
  cases hf : GetFieldValue st uid (ToLower name) with
  | mk value err =>
    simp only
    apply stable_ite
    · intro _
      exact hb
    · intro _
      exact stable_const _ (by simp)

/-! ## References and sub-references: every step removes a `%` or moves on -/

theorem replace1_slice_count (t old new : Str) (a b : Int) (h : slice t a b = .ok old) :
    (Replace1 t old new).count '%' + old.count '%' = t.count '%' + new.count '%' :=
  replace1_count '%' new old t (slice_infix_of t old a b h)

theorem replace1_slice_less (t old new : Str) (a b j : Int) (h : slice t a b = .ok old)
    (hb : byteAt t j = .ok '%') (h1 : a ≤ j) (h2 : j < b) (hnew : '%' ∉ new) :
    (Replace1 t old new).count '%' < t.count '%' := by
  have h3 := replace1_slice_count t old new a b h
  have h4 : 0 < old.count '%' := List.count_pos_iff.2 (slice_mem t old a b j '%' h hb h1 h2)
  have h5 : new.count '%' = 0 := List.count_eq_zero.2 hnew
  omega

/-! ### `ReplaceReference` -/

theorem replaceReference_found_progress (st : Store) (hst : PlainStore st) (fuel : Nat)
    (text uid t2 : Str) (start_ref r i2 : Int)
    (hb : byteAt text (start_ref + 1) = .ok '%') (hr : start_ref + 2 ≤ r)
    (h : ReplaceReference.found st fuel text uid start_ref r = .ok (t2, i2)) :
    t2.count '%' < text.count '%' ∨ (t2 = text ∧ start_ref ≤ i2) := by
  rw [ReplaceReference.found] at h
  cases h1 : slice text (start_ref + 2) r with
  | ok reference =>
    rw [h1] at h
    simp only [Outcome.ok_bind] at h
    by_cases hc : ¬ Contains reference " ".toList = true
    · rw [if_pos hc] at h
      cases h2 : resolveName st fuel uid reference with
      | ok value =>
        rw [h2] at h
        simp only [Outcome.ok_bind] at h
        cases h3 : slice text start_ref (r + 2) with
        | ok old =>
          rw [h3] at h
          obtain ⟨e1, _⟩ := Prod.mk.inj (Outcome.ok.inj h)
          left
          rw [← e1]
          exact replace1_slice_less text old value start_ref (r + 2) (start_ref + 1) h3 hb
            (by omega) (by omega) (resolveName_plain st hst fuel uid reference value h2)
        | panic => rw [h3] at h; simp at h
        | outOfFuel => rw [h3] at h; simp at h
      | panic => rw [h2] at h; simp at h
      | outOfFuel => rw [h2] at h; simp at h
    · rw [if_neg hc] at h
      obtain ⟨e1, e2⟩ := Prod.mk.inj (Outcome.ok.inj h)
      right
      exact ⟨e1.symm, by omega⟩
  | panic => rw [h1] at h; simp at h
  | outOfFuel => rw [h1] at h; simp at h

theorem replaceReference_loop_progress (st : Store) (hst : PlainStore st) (fuel : Nat)
    (text uid : Str) (start_ref : Int) (hb : byteAt text (start_ref + 1) = .ok '%') :
    ∀ (n : Nat) (r : Int) (t2 : Str) (i2 : Int), start_ref + 2 ≤ r →
      ReplaceReference.loop st fuel text uid start_ref n r = .ok (t2, i2) →
      t2.count '%' < text.count '%' ∨ (t2 = text ∧ start_ref ≤ i2) := by
  intro n
  induction n with
  | zero =>
    intro r t2 i2 _ h
    rw [ReplaceReference.loop] at h
    obtain ⟨e1, e2⟩ := Prod.mk.inj (Outcome.ok.inj h)
    right
    exact ⟨e1.symm, by omega⟩
  | succ n ih =>
    intro r t2 i2 hr h
    rw [ReplaceReference.loop] at h
    cases h1 : slice text r (r + 2) with
    | ok s =>
      rw [h1] at h
      simp only [Outcome.ok_bind] at h
      by_cases hs : s = "%\x7d".toList
      · rw [if_pos hs] at h
        exact replaceReference_found_progress st hst fuel text uid t2 start_ref r i2 hb hr h
      · rw [if_neg hs] at h
        exact ih (r + 1) t2 i2 (by omega) h
    | panic => rw [h1] at h; simp at h
    | outOfFuel => rw [h1] at h; simp at h

theorem replaceReference_progress (st : Store) (hst : PlainStore st) (fuel : Nat)
    (text uid t2 : Str) (start_ref i2 : Int) (hb : byteAt text (start_ref + 1) = .ok '%')
    (h : ReplaceReference st fuel text uid start_ref = .ok (t2, i2)) :
    t2.count '%' < text.count '%' ∨ (t2 = text ∧ start_ref ≤ i2) :=
  replaceReference_loop_progress st hst fuel text uid start_ref hb _ _ t2 i2 (le_refl _) h

theorem replaceReference_found_stable (st : Store) (text uid : Str) (start_ref r : Int) :
    Stable (fun fuel => ReplaceReference.found st fuel text uid start_ref r) := by
  unfold ReplaceReference.found
  apply stable_bind_const _ _ (slice_ne_outOfFuel _ _ _)
  intro reference _
  apply stable_ite
  · intro _
    apply stable_bind _ _ (resolveName_stable st uid reference)
    intro value _ _
    apply stable_bind_const _ _ (slice_ne_outOfFuel _ _ _)
    intro old _
    exact stable_const _ (by simp)
  · intro _
    exact stable_const _ (by simp)

theorem replaceReference_loop_stable (st : Store) (text uid : Str) (start_ref : Int) :
    ∀ (n : Nat) (r : Int),
      Stable (fun fuel => ReplaceReference.loop st fuel text uid start_ref n r) := by
  intro n
  induction n with
  | zero =>
    intro r
    unfold ReplaceReference.loop
    exact stable_const _ (by simp)
  | succ n ih =>
    intro r
    unfold ReplaceReference.loop
    apply stable_bind_const _ _ (slice_ne_outOfFuel _ _ _)
    intro s _
    apply stable_ite
    · intro _
      exact replaceReference_found_stable st text uid start_ref r
    · intro _
      exact ih (r + 1)

theorem replaceReference_stable (st : Store) (text uid : Str) (start_ref : Int) :
    Stable (fun fuel => ReplaceReference st fuel text uid start_ref) :=
  replaceReference_loop_stable st text uid start_ref _ _

/-! ### `ReplaceSubReference` -/

theorem subReference_found_progress (st : Store) (hst : PlainStore st) (fuel : Nat)
    (text uid reference value buff t2 b2 : Str) (start_ref end_field i2 : Int)
    (hv : '%' ∉ value) (hbuff : '%' ∉ buff)
    (hb : byteAt text end_field = .ok '%') (he : start_ref + 1 ≤ end_field)
    (h : ReplaceSubReference.found st fuel text uid start_ref reference value buff end_field
      = .ok (t2, b2, i2)) :
    '%' ∉ b2 ∧ (t2.count '%' < text.count '%' ∨ (t2 = text ∧ start_ref ≤ i2)) := by
  rw [ReplaceSubReference.found] at h
  cases h1 : slice text (start_ref + 1) end_field with
  | ok tmp_field =>
    rw [h1] at h
    simp only [Outcome.ok_bind] at h
    by_cases hne : tmp_field ≠ reference
    · rw [if_pos hne] at h
      by_cases hc : ¬ Contains tmp_field " ".toList = true
      · rw [if_pos hc] at h
        cases h2 : resolveName st fuel uid tmp_field with
        | ok tmp_value =>
          rw [h2] at h
          simp only [Outcome.ok_bind] at h
          cases h3 : slice text start_ref (end_field + 1) with
          | ok old =>
            rw [h3] at h
            obtain ⟨e1, e2⟩ := Prod.mk.inj (Outcome.ok.inj h)
            obtain ⟨e2, _⟩ := Prod.mk.inj e2
            have hp := resolveName_plain st hst fuel uid tmp_field tmp_value h2
            refine ⟨by rw [← e2]; exact hp, Or.inl ?_⟩
            rw [← e1]
            exact replace1_slice_less text old tmp_value start_ref (end_field + 1) end_field h3 hb
              (by omega) (by omega) hp
          | panic => rw [h3] at h; simp at h
          | outOfFuel => rw [h3] at h; simp at h
        | panic => rw [h2] at h; simp at h
        | outOfFuel => rw [h2] at h; simp at h
      · rw [if_neg hc] at h
        obtain ⟨e1, e2⟩ := Prod.mk.inj (Outcome.ok.inj h)
        obtain ⟨e2, e3⟩ := Prod.mk.inj e2
        exact ⟨by rw [← e2]; exact hbuff, Or.inr ⟨e1.symm, by omega⟩⟩
    · rw [if_neg hne] at h
      cases h3 : slice text start_ref (end_field + 1) with
      | ok old =>
        rw [h3] at h
        obtain ⟨e1, e2⟩ := Prod.mk.inj (Outcome.ok.inj h)
        obtain ⟨e2, _⟩ := Prod.mk.inj e2
        refine ⟨by rw [← e2]; exact hbuff, Or.inl ?_⟩
        rw [← e1]
        exact replace1_slice_less text old value start_ref (end_field + 1) end_field h3 hb
          (by omega) (by omega) hv
      | panic => rw [h3] at h; simp at h
      | outOfFuel => rw [h3] at h; simp at h
  | panic => rw [h1] at h; simp at h
  | outOfFuel => rw [h1] at h; simp at h

theorem subReference_loop_progress (st : Store) (hst : PlainStore st) (fuel : Nat)
    (text uid reference value buff : Str) (start_ref : Int)
    (hv : '%' ∉ value) (hbuff : '%' ∉ buff) :
    ∀ (n : Nat) (sb : Int) (t2 b2 : Str) (i2 : Int), start_ref + 1 ≤ sb →
      ReplaceSubReference.loop st fuel text uid start_ref reference value buff n sb
        = .ok (t2, b2, i2) →
      '%' ∉ b2 ∧ (t2.count '%' < text.count '%' ∨ (t2 = text ∧ start_ref ≤ i2)) := by
  intro n
  induction n with
  | zero =>
    intro sb t2 b2 i2 _ h
    rw [ReplaceSubReference.loop] at h
    obtain ⟨e1, e2⟩ := Prod.mk.inj (Outcome.ok.inj h)
    obtain ⟨e2, e3⟩ := Prod.mk.inj e2
    exact ⟨by rw [← e2]; exact hbuff, Or.inr ⟨e1.symm, by omega⟩⟩
  | succ n ih =>
    intro sb t2 b2 i2 hsb h
    rw [ReplaceSubReference.loop] at h
    cases h1 : byteAt text sb with
    | ok c =>
      rw [h1] at h
      simp only [Outcome.ok_bind] at h
      by_cases hc : c = '%'
      · rw [if_pos hc] at h
        subst hc
        exact subReference_found_progress st hst fuel text uid reference value buff t2 b2
          start_ref sb i2 hv hbuff h1 hsb h
      · rw [if_neg hc] at h
        exact ih (sb + 1) t2 b2 i2 (by omega) h
    | panic => rw [h1] at h; simp at h
    | outOfFuel => rw [h1] at h; simp at h

theorem subReference_progress (st : Store) (hst : PlainStore st) (fuel : Nat)
    (text uid reference value buff t2 b2 : Str) (start_ref i2 : Int)
    (hv : '%' ∉ value) (hbuff : '%' ∉ buff)
    (h : ReplaceSubReference st fuel text uid start_ref reference value buff = .ok (t2, b2, i2)) :
    '%' ∉ b2 ∧ (t2.count '%' < text.count '%' ∨ (t2 = text ∧ start_ref ≤ i2)) := by
  rw [ReplaceSubReference] at h
  cases h1 : byteAt text (start_ref + 1) with
  | ok c =>
    rw [h1] at h
    simp only [Outcome.ok_bind] at h
    by_cases hc : c = '%'
    · rw [if_pos hc] at h
      subst hc
      cases h3 : slice text start_ref (start_ref + 2) with
      | ok old =>
        rw [h3] at h
        obtain ⟨e1, e2⟩ := Prod.mk.inj (Outcome.ok.inj h)
        obtain ⟨e2, _⟩ := Prod.mk.inj e2
        refine ⟨by rw [← e2]; exact hbuff, Or.inl ?_⟩
        rw [← e1]
        exact replace1_slice_less text old buff start_ref (start_ref + 2) (start_ref + 1) h3 h1
          (by omega) (by omega) hbuff
      | panic => rw [h3] at h; simp at h
      | outOfFuel => rw [h3] at h; simp at h
    · rw [if_neg hc] at h
      exact subReference_loop_progress st hst fuel text uid reference value buff start_ref hv
        hbuff _ _ t2 b2 i2 (le_refl _) h
  | panic => rw [h1] at h; simp at h
  | outOfFuel => rw [h1] at h; simp at h

theorem subReference_found_stable (st : Store) (text uid reference value buff : Str)
    (start_ref end_field : Int) :
    Stable (fun fuel =>
      ReplaceSubReference.found st fuel text uid start_ref reference value buff end_field) := by
  unfold ReplaceSubReference.found
  apply stable_bind_const _ _ (slice_ne_outOfFuel _ _ _)
  intro tmp_field _
  apply stable_ite
  · intro _
    apply stable_ite
    · intro _
      apply stable_bind _ _ (resolveName_stable st uid tmp_field)
      intro value _ _
      apply stable_bind_const _ _ (slice_ne_outOfFuel _ _ _)
      intro old _
      exact stable_const _ (by simp)
    · intro _
      exact stable_const _ (by simp)
  · intro _
    apply stable_bind_const _ _ (slice_ne_outOfFuel _ _ _)
    intro old _
    exact stable_const _ (by simp)

theorem subReference_loop_stable (st : Store) (text uid reference value buff : Str)
    (start_ref : Int) : ∀ (n : Nat) (sb : Int),
    Stable (fun fuel =>
      ReplaceSubReference.loop st fuel text uid start_ref reference value buff n sb) := by
  intro n
  induction n with
  | zero =>
    intro sb
    unfold ReplaceSubReference.loop
    exact stable_const _ (by simp)
  | succ n ih =>
    intro sb
    unfold ReplaceSubReference.loop
    apply stable_bind_const _ _ (byteAt_ne_outOfFuel _ _)
    intro c _
    apply stable_ite
    · intro _
      exact subReference_found_stable st text uid reference value buff start_ref sb
    · intro _
      exact ih (sb + 1)

theorem subReference_stable (st : Store) (text uid reference value buff : Str)
    (start_ref : Int) :
    Stable (fun fuel => ReplaceSubReference st fuel text uid start_ref reference value buff) := by
  unfold ReplaceSubReference
  apply stable_bind_const _ _ (byteAt_ne_outOfFuel _ _)
  intro c _
  apply stable_ite
  · intro _
    apply stable_bind_const _ _ (slice_ne_outOfFuel _ _ _)
    intro old _
    exact stable_const _ (by simp)
  · intro _
    exact subReference_loop_stable st text uid reference value buff start_ref _ _

/-! ### `ReplaceSubReferences` -/

theorem subRefs_loop_count (st : Store) (hst : PlainStore st) (uid reference value : Str)
    (start_search : Int) (hv : '%' ∉ value) :
    ∀ (fuel : Nat) (text : Str) (i : Int) (buff t2 b2 : Str) (e2 : Int), '%' ∉ buff →
      ReplaceSubReferences.loop st uid start_search reference value fuel text i buff
        = .ok (t2, e2, b2) →
      t2.count '%' ≤ text.count '%' ∧ '%' ∉ b2 := by
  intro fuel
  induction fuel with
  | zero =>
    intro text i buff t2 b2 e2 _ h
    rw [ReplaceSubReferences.loop] at h
    simp at h
  | succ fuel ih =>
    intro text i buff t2 b2 e2 hbuff h
    rw [subRefs_loop_succ] at h
    by_cases hlt : i < len text
    · rw [if_pos hlt] at h
      cases h1 : byteAt text i with
      | ok c =>
        rw [h1] at h
        simp only [Outcome.ok_bind] at h
        by_cases hc : c = '%'
        · rw [if_pos hc] at h
          cases h2 : ReplaceSubReference st fuel text uid i reference value buff with
          | ok r =>
            rw [h2] at h
            simp only [Outcome.ok_bind] at h
            have hp := subReference_progress st hst fuel text uid reference value buff r.1 r.2.1
              i r.2.2 hv hbuff h2
            have := ih r.1 (r.2.2 + 1) r.2.1 t2 b2 e2 hp.1 h
            refine ⟨?_, this.2⟩
            rcases hp.2 with h3 | ⟨h3, _⟩
            · omega
            · rw [h3] at this
              exact this.1
          | panic => rw [h2] at h; simp at h
          | outOfFuel => rw [h2] at h; simp at h
        · rw [if_neg hc] at h
          by_cases hc2 : c = '}'
          · rw [if_pos hc2] at h
            obtain ⟨e1, e2⟩ := Prod.mk.inj (Outcome.ok.inj h)
            obtain ⟨_, e3⟩ := Prod.mk.inj e2
            rw [← e1, ← e3]
            exact ⟨le_refl _, hbuff⟩
          · rw [if_neg hc2] at h
            exact ih text (i + 1) buff t2 b2 e2 hbuff h
      | panic => rw [h1] at h; simp at h
      | outOfFuel => rw [h1] at h; simp at h
    · rw [if_neg hlt] at h
      obtain ⟨e1, e2⟩ := Prod.mk.inj (Outcome.ok.inj h)
      obtain ⟨_, e3⟩ := Prod.mk.inj e2
      rw [← e1, ← e3]
      exact ⟨le_refl _, hbuff⟩

theorem subRefs_loop_stable_step (st : Store) (hst : PlainStore st)
    (uid reference value : Str) (start_search : Int) (hv : '%' ∉ value)
    (text : Str) (i : Int) (buff : Str) (hbuff : '%' ∉ buff)
    (hless : ∀ (t2 : Str) (i2 : Int) (b2 : Str), t2.count '%' < text.count '%' → '%' ∉ b2 →
      Stable (fun fuel =>
        ReplaceSubReferences.loop st uid start_search reference value fuel t2 i2 b2))
    (hsame : ∀ (i2 : Int) (b2 : Str), i < len text → i < i2 → '%' ∉ b2 →
      Stable (fun fuel =>
        ReplaceSubReferences.loop st uid start_search reference value fuel text i2 b2)) :
    Stable (fun fuel =>
      ReplaceSubReferences.loop st uid start_search reference value fuel text i buff) := by
  apply stable_succ _ _ (fun fuel => subRefs_loop_succ st uid start_search reference value fuel
    text i buff)
  apply stable_ite
  · intro hlt
    apply stable_bind_const _ _ (byteAt_ne_outOfFuel _ _)
    intro c _
    apply stable_ite
    · intro _
      apply stable_bind _ _ (subReference_stable st text uid reference value buff i)
      intro r N hN
      have hp := subReference_progress st hst N text uid reference value buff r.1 r.2.1 i r.2.2
        hv hbuff (hN N (le_refl _))
      rcases hp.2 with h3 | ⟨h3, h4⟩
      · exact hless r.1 (r.2.2 + 1) r.2.1 h3 hp.1
      · rw [h3]
        exact hsame (r.2.2 + 1) r.2.1 hlt (by omega) hp.1
    · intro _
      apply stable_ite
      · intro _
        exact stable_const _ (by simp)
      · intro _
        exact hsame (i + 1) buff hlt (by omega) hbuff
  · intro _
    exact stable_const _ (by simp)

theorem subRefs_loop_stable (st : Store) (hst : PlainStore st) (uid reference value : Str)
    (start_search : Int) (hv : '%' ∉ value) :
    ∀ (c : Nat) (text : Str), text.count '%' ≤ c → ∀ (m : Nat) (i : Int) (buff : Str),
      (len text - i).toNat ≤ m → '%' ∉ buff →
      Stable (fun fuel =>
        ReplaceSubReferences.loop st uid start_search reference value fuel text i buff) := by
  intro c
  induction c with
  | zero =>
    intro text hc m
    induction m with
    | zero =>
      intro i buff hm hbuff
      exact subRefs_loop_stable_step st hst uid reference value start_search hv text i buff hbuff
        (fun t2 i2 b2 h _ => by omega) (fun i2 b2 h _ _ => by omega)
    | succ m ihm =>
      intro i buff hm hbuff
      exact subRefs_loop_stable_step st hst uid reference value start_search hv text i buff hbuff
        (fun t2 i2 b2 h _ => by omega) (fun i2 b2 h1 h2 hb => ihm i2 b2 (by omega) hb)
  | succ c ihc =>
    intro text hc m
    induction m with
    | zero =>
      intro i buff hm hbuff
      exact subRefs_loop_stable_step st hst uid reference value start_search hv text i buff hbuff
        (fun t2 i2 b2 h hb => ihc t2 (by omega) _ i2 b2 (le_refl _) hb)
        (fun i2 b2 h _ _ => by omega)
    | succ m ihm =>
      intro i buff hm hbuff
      exact subRefs_loop_stable_step st hst uid reference value start_search hv text i buff hbuff
        (fun t2 i2 b2 h hb => ihc t2 (by omega) _ i2 b2 (le_refl _) hb)
        (fun i2 b2 h1 h2 hb => ihm i2 b2 (by omega) hb)

theorem subRefs_stable (st : Store) (hst : PlainStore st) (text uid reference value buff : Str)
    (start_search : Int) (hv : '%' ∉ value) (hbuff : '%' ∉ buff) :
    Stable (fun fuel =>
      ReplaceSubReferences st fuel text uid start_search reference value buff) :=
  subRefs_loop_stable st hst uid reference value start_search hv _ text (le_refl _) _
    start_search buff (le_refl _) hbuff

theorem subRefs_count (st : Store) (hst : PlainStore st) (fuel : Nat)
    (text uid reference value buff t2 b2 : Str) (start_search e2 : Int)
    (hv : '%' ∉ value) (hbuff : '%' ∉ buff)
    (h : ReplaceSubReferences st fuel text uid start_search reference value buff
      = .ok (t2, e2, b2)) :
    t2.count '%' ≤ text.count '%' ∧ '%' ∉ b2 :=
  subRefs_loop_count st hst uid reference value start_search hv fuel text start_search buff t2
    b2 e2 hbuff h

/-! ## The stages of `ReplaceBlock`: what they keep and that they end -/

theorem findChars_loop_result (text m : Str) (start : Int) :
    ∀ (n : Nat) (i r : Int), FindChars.loop text m start n i = .ok r →
      r = start ∨ (i ≤ r ∧ slice text r (r + len m) = .ok m) := by
  intro n
  induction n with
  | zero =>
    intro i r h
    rw [FindChars.loop] at h
    left
    exact (Outcome.ok.inj h).symm
  | succ n ih =>
    intro i r h
    rw [FindChars.loop] at h
    by_cases hle : i + len m ≤ len text
    · rw [if_pos hle] at h
      cases hs : slice text i (i + len m) with
      | ok s =>
        rw [hs] at h
        simp only [Outcome.ok_bind] at h
        by_cases he : s = m
        · rw [if_pos he] at h
          have := Outcome.ok.inj h
          subst this
          subst he
          right
          exact ⟨le_refl _, hs⟩
        · rw [if_neg he] at h
          rcases ih (i + 1) r h with h1 | ⟨h1, h2⟩
          · left; exact h1
          · right; exact ⟨by omega, h2⟩
      | panic => rw [hs] at h; simp at h
      | outOfFuel => rw [hs] at h; simp at h
    · rw [if_neg hle] at h
      rcases ih (i + 1) r h with h1 | ⟨h1, h2⟩
      · left; exact h1
      · right; exact ⟨by omega, h2⟩

theorem findChars_result (text m : Str) (start r : Int) (h : FindChars text m start = .ok r) :
    r = start ∨ (start ≤ r ∧ slice text r (r + len m) = .ok m) :=
  findChars_loop_result text m start _ start r h

theorem findChars_loop_ne_outOfFuel (text m : Str) (start : Int) :
    ∀ (n : Nat) (i : Int), FindChars.loop text m start n i ≠ .outOfFuel := by
  intro n
  induction n with
  | zero => intro i; rw [FindChars.loop]; simp
  | succ n ih =>
    intro i
    rw [FindChars.loop]
    by_cases hle : i + len m ≤ len text
    · rw [if_pos hle]
      cases hs : slice text i (i + len m) with
      | ok s =>
        simp only [Outcome.ok_bind]
        by_cases he : s = m
        · rw [if_pos he]; simp
        · rw [if_neg he]; exact ih (i + 1)
      | panic => simp
      | outOfFuel => exact absurd hs (slice_ne_outOfFuel _ _ _)
    · rw [if_neg hle]
      exact ih (i + 1)

theorem findChars_ne_outOfFuel (text m : Str) (start : Int) :
    FindChars text m start ≠ .outOfFuel :=
  findChars_loop_ne_outOfFuel text m start _ _

theorem slice_concat {α : Type} (t x y : List α) (a b c : Int)
    (h1 : slice t a b = .ok x) (h2 : slice t b c = .ok y) : slice t a c = .ok (x ++ y) := by
  obtain ⟨ha, hab, hb, rfl⟩ := slice_eq t x a b h1
  obtain ⟨_, hbc, hc, rfl⟩ := slice_eq t y b c h2
  unfold slice
  rw [if_pos ⟨ha, by omega, hc⟩]
  congr 1
  obtain ⟨a, rfl⟩ := Int.eq_ofNat_of_zero_le ha
  obtain ⟨b, rfl⟩ := Int.eq_ofNat_of_zero_le (le_trans ha hab)
  obtain ⟨c, rfl⟩ := Int.eq_ofNat_of_zero_le (le_trans (le_trans ha hab) hbc)
  simp only [Int.toNat_ofNat]
  have hab' : a ≤ b := by omega
  have hbc' : b ≤ c := by omega
  have e1 : c - a = (b - a) + (c - b) := by omega
  have e2 : a + (b - a) = b := by omega
  rw [e1, List.take_add, List.drop_drop, e2]

theorem condition_progress (st : Store) (hst : PlainStore st) (fuel : Nat)
    (text uid t1 ref v : Str) (sb si : Int)
    (h : ReplaceBlock.condition st fuel text sb uid = .ok (t1, ref, v, si)) :
    '%' ∉ v ∧ ((t1 = text ∧ si = 0) ∨ t1.count '%' < text.count '%') ∧ (si = 0 ∨ sb < si) := by
  rw [ReplaceBlock.condition] at h
  cases h1 : FindChars text "%)".toList (sb + 5) with
  | ok mi =>
    rw [h1] at h
    simp only [Outcome.ok_bind] at h
    by_cases hgt : mi > sb + 5
    · rw [if_pos hgt] at h
      cases h2 : slice text (sb + 5) mi with
      | ok reference =>
        rw [h2] at h
        simp only [Outcome.ok_bind] at h
        cases h3 : slice text (sb + 3) (mi + 2) with
        | ok old =>
          rw [h3] at h
          simp only [Outcome.ok_bind] at h
          -- the rewriting of the marks removes a `%`
          have hless : (Replace1 text old ("($".toList ++ reference ++ "$)".toList)).count '%'
              < text.count '%' := by
            have hm : slice text mi (mi + 2) = .ok "%)".toList := by
              rcases findChars_result text _ _ _ h1 with e | ⟨_, e⟩
              · omega
              · exact e
            have hq := slice_concat text reference "%)".toList (sb + 5) mi (mi + 2) h2 hm
            have hin := slice_within text old _ (sb + 3) (mi + 2) (sb + 5) (mi + 2) h3 hq
              (by omega) (le_refl _)
            have hle := infix_count_le '%' _ _ hin
            have hc := replace1_slice_count text old ("($".toList ++ reference ++ "$)".toList)
              (sb + 3) (mi + 2) h3
            have e1 : (reference ++ "%)".toList).count '%' = reference.count '%' + 1 := by
              rw [List.count_append]
              rfl
            have e2 : ("($".toList ++ reference ++ "$)".toList).count '%' = reference.count '%' := by
              rw [List.count_append, List.count_append]
              have a1 : ("($".toList).count '%' = 0 := by decide
              have a2 : ("$)".toList).count '%' = 0 := by decide
              omega
            omega
          by_cases hc : ¬ Contains reference " ".toList = true
          · rw [if_pos hc] at h
            cases h4 : resolveName st fuel uid reference with
            | ok ref_value =>
              rw [h4] at h
              simp only [Outcome.ok_bind] at h
              cases h5 : FindChars (Replace1 text old ("($".toList ++ reference ++ "$)".toList))
                  "\x7b".toList (mi + 2) with
              | ok mi2 =>
                rw [h5] at h
                obtain ⟨e1, e2⟩ := Prod.mk.inj (Outcome.ok.inj h)
                obtain ⟨_, e3⟩ := Prod.mk.inj e2
                obtain ⟨e3, e4⟩ := Prod.mk.inj e3
                refine ⟨by rw [← e3]; exact resolveName_plain st hst fuel uid _ _ h4,
                  Or.inr (by rw [← e1]; exact hless), ?_⟩
                rw [← e4]
                by_cases h6 : mi2 > mi + 1
                · rw [if_pos h6]; right; omega
                · rw [if_neg h6]; left; rfl
              | panic => rw [h5] at h; simp at h
              | outOfFuel => rw [h5] at h; simp at h
            | panic => rw [h4] at h; simp at h
            | outOfFuel => rw [h4] at h; simp at h
          · rw [if_neg hc] at h
            obtain ⟨e1, e2⟩ := Prod.mk.inj (Outcome.ok.inj h)
            obtain ⟨_, e3⟩ := Prod.mk.inj e2
            obtain ⟨e3, e4⟩ := Prod.mk.inj e3
            refine ⟨by rw [← e3]; simp, Or.inr (by rw [← e1]; exact hless), Or.inl e4.symm⟩
        | panic => rw [h3] at h; simp at h
        | outOfFuel => rw [h3] at h; simp at h
      | panic => rw [h2] at h; simp at h
      | outOfFuel => rw [h2] at h; simp at h
    · rw [if_neg hgt] at h
      obtain ⟨e1, e2⟩ := Prod.mk.inj (Outcome.ok.inj h)
      obtain ⟨_, e3⟩ := Prod.mk.inj e2
      obtain ⟨e3, e4⟩ := Prod.mk.inj e3
      exact ⟨by rw [← e3]; simp, Or.inl ⟨e1.symm, e4.symm⟩, Or.inl e4.symm⟩
  | panic => rw [h1] at h; simp at h
  | outOfFuel => rw [h1] at h; simp at h

theorem condition_stable (st : Store) (text uid : Str) (sb : Int) :
    Stable (fun fuel => ReplaceBlock.condition st fuel text sb uid) := by
  unfold ReplaceBlock.condition
  apply stable_bind_const _ _ (findChars_ne_outOfFuel _ _ _)
  intro mi _
  apply stable_ite
  · intro _
    apply stable_bind_const _ _ (slice_ne_outOfFuel _ _ _)
    intro reference _
    apply stable_bind_const _ _ (slice_ne_outOfFuel _ _ _)
    intro old _
    apply stable_ite
    · intro _
      apply stable_bind _ _ (resolveName_stable st uid reference)
      intro v _ _
      apply stable_bind_const _ _ (findChars_ne_outOfFuel _ _ _)
      intro mi2 _
      exact stable_const _ (by simp)
    · intro _
      exact stable_const _ (by simp)
  · intro _
    exact stable_const _ (by simp)

theorem next_result (text delimiter : Str) (after x : Int)
    (h : ReplaceBlock.next text delimiter after = .ok x) : x = 0 ∨ (0 < after ∧ after < x) := by
  rw [ReplaceBlock.next] at h
  by_cases hp : after > 0
  · rw [if_pos hp] at h
    cases h1 : FindChars text delimiter (after + 1) with
    | ok mi =>
      rw [h1] at h
      have := Outcome.ok.inj h
      rw [← this]
      by_cases h2 : mi > after
      · rw [if_pos h2]; right; exact ⟨hp, h2⟩
      · rw [if_neg h2]; left; rfl
    | panic => rw [h1] at h; simp at h
    | outOfFuel => rw [h1] at h; simp at h
  · rw [if_neg hp] at h
    left
    exact (Outcome.ok.inj h).symm

theorem next_ne_outOfFuel (text delimiter : Str) (after : Int) :
    ReplaceBlock.next text delimiter after ≠ .outOfFuel := by
  rw [ReplaceBlock.next]
  by_cases hp : after > 0
  · rw [if_pos hp]
    cases h1 : FindChars text delimiter (after + 1) with
    | ok mi => simp
    | panic => simp
    | outOfFuel => exact absurd h1 (findChars_ne_outOfFuel _ _ _)
  · rw [if_neg hp]
    simp

theorem finish_ne_outOfFuel (text value : Str) (sb si ei se ee eb : Int) :
    ReplaceBlock.finish text sb value si ei se ee eb ≠ .outOfFuel := by
  rw [ReplaceBlock.finish]
  by_cases hp : eb > 0
  · rw [if_pos hp]
    have hb : ∀ (x : Outcome Str), x ≠ .outOfFuel →
        (x >>= fun append_text => slice text sb (eb + 1) >>= fun old =>
          (pure (Replace1 text old append_text, sb + len append_text - 1) :
            Outcome (Str × Int))) ≠ .outOfFuel := by
      intro x hx
      cases x with
      | ok a =>
        simp only [Outcome.ok_bind]
        cases h1 : slice text sb (eb + 1) with
        | ok old => simp
        | panic => simp
        | outOfFuel => exact absurd h1 (slice_ne_outOfFuel _ _ _)
      | panic => simp
      | outOfFuel => exact absurd rfl hx
    apply hb
    split_ifs
    · exact slice_ne_outOfFuel _ _ _
    · simp
    · exact slice_ne_outOfFuel _ _ _
    · simp
  · rw [if_neg hp]
    simp

theorem finish_count (text value t2 : Str) (sb si ei se ee eb i2 : Int)
    (hidx : 0 < eb → sb ≤ si ∧ ei ≤ eb ∧ sb ≤ se ∧ ee ≤ eb)
    (h : ReplaceBlock.finish text sb value si ei se ee eb = .ok (t2, i2)) :
    t2.count '%' ≤ text.count '%' ∧ (¬ 0 < eb → t2 = text ∧ i2 = sb) := by
  rw [ReplaceBlock.finish] at h
  by_cases hp : eb > 0
  · rw [if_pos hp] at h
    obtain ⟨k1, k2, k3, k4⟩ := hidx hp
    refine ⟨?_, fun hn => absurd hp hn⟩
    have key : ∀ (x : Outcome Str), (∀ a, x = .ok a → ∀ old, slice text sb (eb + 1) = .ok old →
          a.count '%' ≤ old.count '%') →
        (x >>= fun append_text => slice text sb (eb + 1) >>= fun old =>
          (pure (Replace1 text old append_text, sb + len append_text - 1) :
            Outcome (Str × Int))) = .ok (t2, i2) → t2.count '%' ≤ text.count '%' := by
      intro x hx hh
      cases x with
      | ok a =>
        simp only [Outcome.ok_bind] at hh
        cases h1 : slice text sb (eb + 1) with
        | ok old =>
          rw [h1] at hh
          obtain ⟨e1, _⟩ := Prod.mk.inj (Outcome.ok.inj hh)
          have hc := replace1_slice_count text old a sb (eb + 1) h1
          have := hx a rfl old h1
          rw [← e1]
          omega
        | panic => rw [h1] at hh; simp at hh
        | outOfFuel => rw [h1] at hh; simp at hh
      | panic => simp at hh
      | outOfFuel => simp at hh
    apply key _ _ h
    intro a ha old hold
    split_ifs at ha with c1 c2 c3
    · exact infix_count_le '%' _ _ (slice_within text old a sb (eb + 1) (si + 1) ei hold ha
        (by omega) (by omega))
    · have := Outcome.ok.inj ha
      rw [← this]
      simp
    · exact infix_count_le '%' _ _ (slice_within text old a sb (eb + 1) (se + 1) ee hold ha
        (by omega) (by omega))
    · have := Outcome.ok.inj ha
      rw [← this]
      simp
  · rw [if_neg hp] at h
    obtain ⟨e1, e2⟩ := Prod.mk.inj (Outcome.ok.inj h)
    exact ⟨by rw [← e1], fun _ => ⟨e1.symm, e2.symm⟩⟩

theorem scanStatement_count (st : Store) (hst : PlainStore st) (fuel : Nat)
    (rb : Str → Int → Outcome (Str × Int)) (uid reference value text buff t2 b2 : Str)
    (start e2 : Int) (hv : '%' ∉ value) (hbuff : '%' ∉ buff)
    (hrb : ∀ t s t3 i3, rb t s = .ok (t3, i3) → t3.count '%' ≤ t.count '%')
    (h : ReplaceBlock.scanStatement st fuel rb uid reference value text start buff
      = .ok (t2, e2, b2)) :
    t2.count '%' ≤ text.count '%' ∧ '%' ∉ b2 := by
  rw [ReplaceBlock.scanStatement] at h
  cases h1 : slice text start (start + 7) with
  | ok s =>
    rw [h1] at h
    simp only [Outcome.ok_bind] at h
    by_cases hs : s = "\x7b \x7bif(%".toList
    · rw [if_pos hs] at h
      cases h2 : rb (Replace1 text s "\x7b\x7bif(%".toList) (start + 1) with
      | ok r =>
        rw [h2] at h
        simp only [Outcome.ok_bind] at h
        have hc := replace1_slice_count text s "\x7b\x7bif(%".toList start (start + 7) h1
        have a1 : s.count '%' = 1 := by rw [hs]; decide
        have a2 : ("\x7b\x7bif(%".toList).count '%' = 1 := by decide
        have h3 := hrb _ _ r.1 r.2 h2
        have h4 := subRefs_count st hst fuel r.1 uid reference value buff t2 b2 _ e2 hv hbuff h
        exact ⟨by omega, h4.2⟩
      | panic => rw [h2] at h; simp at h
      | outOfFuel => rw [h2] at h; simp at h
    · rw [if_neg hs] at h
      exact subRefs_count st hst fuel text uid reference value buff t2 b2 _ e2 hv hbuff h
  | panic => rw [h1] at h; simp at h
  | outOfFuel => rw [h1] at h; simp at h

theorem statement_count (st : Store) (hst : PlainStore st) (fuel : Nat)
    (rb : Str → Int → Outcome (Str × Int)) (uid reference value text buff t2 b2 : Str)
    (start e2 : Int) (hv : '%' ∉ value) (hbuff : '%' ∉ buff)
    (hrb : ∀ t s t3 i3, rb t s = .ok (t3, i3) → t3.count '%' ≤ t.count '%')
    (h : ReplaceBlock.statement st fuel rb uid reference value text start buff
      = .ok (t2, e2, b2)) :
    t2.count '%' ≤ text.count '%' ∧ '%' ∉ b2 ∧ (e2 = 0 ∨ (0 < start ∧ start < e2)) ∧
      (¬ 0 < start → t2 = text) := by
  rw [ReplaceBlock.statement] at h
  by_cases hp : start > 0
  · rw [if_pos hp] at h
    cases h1 : ReplaceBlock.scanStatement st fuel rb uid reference value text start buff with
    | ok r =>
      rw [h1] at h
      simp only [Outcome.ok_bind] at h
      obtain ⟨e1, e3⟩ := Prod.mk.inj (Outcome.ok.inj h)
      obtain ⟨e3, e4⟩ := Prod.mk.inj e3
      have hc := scanStatement_count st hst fuel rb uid reference value text buff r.1 r.2.2 start
        r.2.1 hv hbuff hrb h1
      refine ⟨by rw [← e1]; exact hc.1, by rw [← e4]; exact hc.2, ?_, fun hn => absurd hp hn⟩
      rw [← e3]
      by_cases h2 : r.2.1 > start
      · rw [if_pos h2]; right; exact ⟨hp, h2⟩
      · rw [if_neg h2]; left; rfl
    | panic => rw [h1] at h; simp at h
    | outOfFuel => rw [h1] at h; simp at h
  · rw [if_neg hp] at h
    obtain ⟨e1, e3⟩ := Prod.mk.inj (Outcome.ok.inj h)
    obtain ⟨e3, e4⟩ := Prod.mk.inj e3
    exact ⟨by rw [← e1], by rw [← e4]; exact hbuff, Or.inl e3.symm, fun _ => e1.symm⟩

theorem statement_stable (st : Store) (hst : PlainStore st)
    (uid reference value text buff : Str) (start : Int) (hv : '%' ∉ value) (hbuff : '%' ∉ buff)
    (hrb : 0 < start → ∀ t s, t.count '%' ≤ text.count '%' →
      Stable (fun fuel => ReplaceBlock st fuel t s uid)) :
    Stable (fun fuel =>
      ReplaceBlock.statement st fuel (fun t s => ReplaceBlock st fuel t s uid) uid reference
        value text start buff) := by
  unfold ReplaceBlock.statement
  apply stable_ite
  · intro hp
    have hsc : Stable (fun fuel =>
        ReplaceBlock.scanStatement st fuel (fun t s => ReplaceBlock st fuel t s uid) uid
          reference value text start buff) := by
      unfold ReplaceBlock.scanStatement
      apply stable_bind_const _ _ (slice_ne_outOfFuel _ _ _)
      intro s hs
      apply stable_ite
      · intro he
        have hc := replace1_slice_count text s "\x7b\x7bif(%".toList start (start + 7) hs
        have a1 : s.count '%' = 1 := by rw [he]; decide
        have a2 : ("\x7b\x7bif(%".toList).count '%' = 1 := by decide
        apply stable_bind _ _ (hrb hp _ _ (by omega))
        intro r _ _
        exact subRefs_stable st hst r.1 uid reference value buff _ hv hbuff
      · intro _
        exact subRefs_stable st hst text uid reference value buff _ hv hbuff
    apply stable_bind _ _ hsc
    intro r _ _
    exact stable_const _ (by simp)
  · intro _
    exact stable_const _ (by simp)

theorem replaceBlock_succ (st : Store) (fuel : Nat) (text uid : Str) (sb : Int) :
    ReplaceBlock st (fuel + 1) text sb uid =
      byteAt text (sb + 1) >>= fun c =>
        if c = '%' then ReplaceReference st fuel text uid sb
        else
          slice text (sb + 1) (sb + 5) >>= fun s =>
            if s = "if(%".toList then
              ReplaceBlock.condition st fuel text sb uid >>= fun r1 =>
              ReplaceBlock.statement st fuel (fun t s => ReplaceBlock st fuel t s uid) uid
                r1.2.1 r1.2.2.1 r1.1 r1.2.2.2 r1.2.2.1 >>= fun r2 =>
              ReplaceBlock.next r2.1 "\x7b".toList r2.2.1 >>= fun se =>
              ReplaceBlock.statement st fuel (fun t s => ReplaceBlock st fuel t s uid) uid
                r1.2.1 r1.2.2.1 r2.1 se r2.2.2 >>= fun r3 =>
              ReplaceBlock.next r3.1 "\x7d".toList r3.2.1 >>= fun eb =>
              ReplaceBlock.finish r3.1 sb r1.2.2.1 r1.2.2.2 r2.2.1 se r3.2.1 eb
            else .ok (text, sb) := by
  rw [ReplaceBlock]
  rfl

theorem replaceBlock_progress (st : Store) (hst : PlainStore st) (uid : Str) :
    ∀ (fuel : Nat) (text : Str) (sb : Int) (t2 : Str) (i2 : Int),
      ReplaceBlock st fuel text sb uid = .ok (t2, i2) →
      t2.count '%' < text.count '%' ∨ (t2 = text ∧ sb ≤ i2) := by
  intro fuel
  induction fuel with
  | zero =>
    intro text sb t2 i2 h
    rw [ReplaceBlock] at h
    simp at h
  | succ fuel ih =>
    intro text sb t2 i2 h
    have hrb : ∀ t s t3 i3, (fun t s => ReplaceBlock st fuel t s uid) t s = .ok (t3, i3) →
        t3.count '%' ≤ t.count '%' := by
      intro t s t3 i3 h3
      rcases ih t s t3 i3 h3 with h4 | ⟨h4, _⟩
      · omega
      · rw [h4]
    rw [replaceBlock_succ] at h
    cases h0 : byteAt text (sb + 1) with
    | ok c =>
      rw [h0] at h
      simp only [Outcome.ok_bind] at h
      by_cases hc : c = '%'
      · rw [if_pos hc] at h
        subst hc
        exact replaceReference_progress st hst fuel text uid t2 sb i2 h0 h
      · rw [if_neg hc] at h
        cases h1 : slice text (sb + 1) (sb + 5) with
        | ok s =>
          rw [h1] at h
          simp only [Outcome.ok_bind] at h
          by_cases hs : s = "if(%".toList
          · rw [if_pos hs] at h
            cases hc1 : ReplaceBlock.condition st fuel text sb uid with
            | ok r1 =>
              rw [hc1] at h
              simp only [Outcome.ok_bind] at h
              obtain ⟨p1, p2, p3⟩ := condition_progress st hst fuel text uid r1.1 r1.2.1 r1.2.2.1
                sb r1.2.2.2 hc1
              cases hc2 : ReplaceBlock.statement st fuel (fun t s => ReplaceBlock st fuel t s uid)
                  uid r1.2.1 r1.2.2.1 r1.1 r1.2.2.2 r1.2.2.1 with
              | ok r2 =>
                rw [hc2] at h
                simp only [Outcome.ok_bind] at h
                obtain ⟨q1, q2, q3, q4⟩ := statement_count st hst fuel _ uid r1.2.1 r1.2.2.1 r1.1
                  r1.2.2.1 r2.1 r2.2.2 r1.2.2.2 r2.2.1 p1 p1 hrb hc2
                cases hc3 : ReplaceBlock.next r2.1 "\x7b".toList r2.2.1 with
                | ok se =>
                  rw [hc3] at h
                  simp only [Outcome.ok_bind] at h
                  have n1 := next_result _ _ _ _ hc3
                  cases hc4 : ReplaceBlock.statement st fuel
                      (fun t s => ReplaceBlock st fuel t s uid) uid r1.2.1 r1.2.2.1 r2.1 se
                      r2.2.2 with
                  | ok r3 =>
                    rw [hc4] at h
                    simp only [Outcome.ok_bind] at h
                    obtain ⟨s1, s2, s3, s4⟩ := statement_count st hst fuel _ uid r1.2.1 r1.2.2.1
                      r2.1 r2.2.2 r3.1 r3.2.2 se r3.2.1 p1 q2 hrb hc4
                    cases hc5 : ReplaceBlock.next r3.1 "\x7d".toList r3.2.1 with
                    | ok eb =>
                      rw [hc5] at h
                      simp only [Outcome.ok_bind] at h
                      have n2 := next_result _ _ _ _ hc5
                      obtain ⟨f1, f2⟩ := finish_count r3.1 r1.2.2.1 t2 sb r1.2.2.2 r2.2.1 se
                        r3.2.1 eb i2 (by intro hpos; omega) h
                      rcases p2 with ⟨p4, p5⟩ | p4
                      · -- the block was aborted at its condition: nothing changed
                        right
                        have e2 : r2.1 = r1.1 := q4 (by omega)
                        have e3 : r3.1 = r2.1 := s4 (by omega)
                        have e4 := f2 (by omega)
                        exact ⟨by rw [e4.1, e3, e2, p4], by omega⟩
                      · left
                        omega
                    | panic => rw [hc5] at h; simp at h
                    | outOfFuel => rw [hc5] at h; simp at h
                  | panic => rw [hc4] at h; simp at h
                  | outOfFuel => rw [hc4] at h; simp at h
                | panic => rw [hc3] at h; simp at h
                | outOfFuel => rw [hc3] at h; simp at h
              | panic => rw [hc2] at h; simp at h
              | outOfFuel => rw [hc2] at h; simp at h
            | panic => rw [hc1] at h; simp at h
            | outOfFuel => rw [hc1] at h; simp at h
          · rw [if_neg hs] at h
            obtain ⟨e1, e2⟩ := Prod.mk.inj (Outcome.ok.inj h)
            right
            exact ⟨e1.symm, by omega⟩
        | panic => rw [h1] at h; simp at h
        | outOfFuel => rw [h1] at h; simp at h
    | panic => rw [h0] at h; simp at h
    | outOfFuel => rw [h0] at h; simp at h

/-! ## Termination of `ReplaceReferences` (C29) -/

theorem replaceBlock_stable_step (st : Store) (hst : PlainStore st) (uid text : Str) (sb : Int)
    (hless : ∀ (t : Str) (s : Int), t.count '%' < text.count '%' →
      Stable (fun fuel => ReplaceBlock st fuel t s uid)) :
    Stable (fun fuel => ReplaceBlock st fuel text sb uid) := by
  apply stable_succ _ _ (fun fuel => replaceBlock_succ st fuel text uid sb)
  apply stable_bind_const _ _ (byteAt_ne_outOfFuel _ _)
  intro c _
  apply stable_ite
  · intro _
    exact replaceReference_stable st text uid sb
  · intro _
    apply stable_bind_const _ _ (slice_ne_outOfFuel _ _ _)
    intro s _
    apply stable_ite
    · intro _
      apply stable_bind _ _ (condition_stable st text uid sb)
      intro r1 N1 hN1
      obtain ⟨p1, p2, p3⟩ := condition_progress st hst N1 text uid r1.1 r1.2.1 r1.2.2.1
        sb r1.2.2.2 (hN1 N1 (le_refl _))
      have hrb1 : 0 < r1.2.2.2 → ∀ (t : Str) (s : Int), t.count '%' ≤ r1.1.count '%' →
          Stable (fun fuel => ReplaceBlock st fuel t s uid) := by
        intro hpos t s ht
        apply hless
        rcases p2 with ⟨_, p5⟩ | p4
        · omega
        · omega
      apply stable_bind _ _ (statement_stable st hst uid r1.2.1 r1.2.2.1 r1.1 r1.2.2.1 r1.2.2.2
        p1 p1 hrb1)
      intro r2 N2 hN2
      have hprog : ∀ (f : Nat) (t : Str) (s : Int) (t3 : Str) (i3 : Int),
          (fun t s => ReplaceBlock st f t s uid) t s = .ok (t3, i3) →
          t3.count '%' ≤ t.count '%' := by
        intro f t s t3 i3 h3
        rcases replaceBlock_progress st hst uid f t s t3 i3 h3 with h4 | ⟨h4, _⟩
        · omega
        · rw [h4]
      obtain ⟨q1, q2, q3, q4⟩ := statement_count st hst N2 _ uid r1.2.1 r1.2.2.1 r1.1
        r1.2.2.1 r2.1 r2.2.2 r1.2.2.2 r2.2.1 p1 p1 (hprog N2) (hN2 N2 (le_refl _))
      apply stable_bind_const _ _ (next_ne_outOfFuel _ _ _)
      intro se hse
      have n1 := next_result _ _ _ _ hse
      have hrb2 : 0 < se → ∀ (t : Str) (s : Int), t.count '%' ≤ r2.1.count '%' →
          Stable (fun fuel => ReplaceBlock st fuel t s uid) := by
        intro hpos t s ht
        apply hless
        have hsi : 0 < r1.2.2.2 := by omega
        rcases p2 with ⟨_, p5⟩ | p4
        · omega
        · omega
      apply stable_bind _ _ (statement_stable st hst uid r1.2.1 r1.2.2.1 r2.1 r2.2.2 se
        p1 q2 hrb2)
      intro r3 _ _
      apply stable_bind_const _ _ (next_ne_outOfFuel _ _ _)
      intro eb _
      exact stable_const _ (finish_ne_outOfFuel _ _ _ _ _ _ _ _)
    · intro _
      exact stable_const _ (by simp)

theorem replaceBlock_stable (st : Store) (hst : PlainStore st) (uid : Str) :
    ∀ (c : Nat) (text : Str) (sb : Int), text.count '%' ≤ c →
      Stable (fun fuel => ReplaceBlock st fuel text sb uid) := by
  intro c
  induction c with
  | zero =>
    intro text sb hc
    exact replaceBlock_stable_step st hst uid text sb (fun t s h => by omega)
  | succ c ih =>
    intro text sb hc
    exact replaceBlock_stable_step st hst uid text sb (fun t s h => ih t s (by omega))

theorem replaceReferences_loop_succ (st : Store) (uid : Str) (fuel : Nat) (text : Str)
    (i : Int) :
    ReplaceReferences.loop st uid (fuel + 1) text i =
      if i < len text then
        byteAt text i >>= fun c =>
          if c = '\x7b' then
            ReplaceBlock st fuel text i uid >>= fun r =>
              ReplaceReferences.loop st uid fuel r.1 (r.2 + 1)
          else ReplaceReferences.loop st uid fuel text (i + 1)
      else .ok text := by
  rw [ReplaceReferences.loop]
  rfl

theorem replaceReferences_loop_stable_step (st : Store) (hst : PlainStore st) (uid text : Str)
    (i : Int)
    (hless : ∀ (t2 : Str) (i2 : Int), t2.count '%' < text.count '%' →
      Stable (fun fuel => ReplaceReferences.loop st uid fuel t2 i2))
    (hsame : ∀ (i2 : Int), i < len text → i < i2 →
      Stable (fun fuel => ReplaceReferences.loop st uid fuel text i2)) :
    Stable (fun fuel => ReplaceReferences.loop st uid fuel text i) := by
  apply stable_succ _ _ (fun fuel => replaceReferences_loop_succ st uid fuel text i)
  apply stable_ite
  · intro hlt
    apply stable_bind_const _ _ (byteAt_ne_outOfFuel _ _)
    intro c _
    apply stable_ite
    · intro _
      apply stable_bind _ _ (replaceBlock_stable st hst uid _ text i (le_refl _))
      intro r N hN
      rcases replaceBlock_progress st hst uid N text i r.1 r.2 (hN N (le_refl _)) with h3 | ⟨h3, h4⟩
      · exact hless r.1 (r.2 + 1) h3
      · rw [h3]
        exact hsame (r.2 + 1) hlt (by omega)
    · intro _
      exact hsame (i + 1) hlt (by omega)
  · intro _
    exact stable_const _ (by simp)

theorem replaceReferences_loop_stable (st : Store) (hst : PlainStore st) (uid : Str) :
    ∀ (c : Nat) (text : Str), text.count '%' ≤ c → ∀ (m : Nat) (i : Int),
      (len text - i).toNat ≤ m →
      Stable (fun fuel => ReplaceReferences.loop st uid fuel text i) := by
  intro c
  induction c with
  | zero =>
    intro text hc m
    induction m with
    | zero =>
      intro i hm
      exact replaceReferences_loop_stable_step st hst uid text i
        (fun t2 i2 h => by omega) (fun i2 h _ => by omega)
    | succ m ihm =>
      intro i hm
      exact replaceReferences_loop_stable_step st hst uid text i
        (fun t2 i2 h => by omega) (fun i2 h1 h2 => ihm i2 (by omega))
  | succ c ihc =>
    intro text hc m
    induction m with
    | zero =>
      intro i hm
      exact replaceReferences_loop_stable_step st hst uid text i
        (fun t2 i2 h => ihc t2 (by omega) _ i2 (le_refl _))
        (fun i2 h _ => by omega)
    | succ m ihm =>
      intro i hm
      exact replaceReferences_loop_stable_step st hst uid text i
        (fun t2 i2 h => ihc t2 (by omega) _ i2 (le_refl _))
        (fun i2 h1 h2 => ihm i2 (by omega))

theorem replaceReferences_stable (st : Store) (hst : PlainStore st) (text email : Str) :
    Stable (fun fuel => ReplaceReferences st fuel text email) := by
  unfold ReplaceReferences
  cases h : st.targetId email with
  | error err => exact stable_const _ (by simp)
  | ok uid =>
    show Stable (fun fuel => ReplaceReferences.loop st uid fuel text 0 >>= fun t =>
      pure (t, none))
    apply stable_bind _ _
      (replaceReferences_loop_stable st hst uid _ text (le_refl _) _ 0 (le_refl _))
    intro t _ _
    exact stable_const _ (by simp)

theorem plainStore_demoStore : PlainStore demoStore := by
  refine ⟨?_, ?_, ?_⟩
  · intro uid name v h
    simp only [demoStore] at h
    split_ifs at h <;> cases h <;> decide
  · intro fieldId uid vid v h
    simp [demoStore] at h
  · intro vid cs c h hc
    simp only [demoStore] at h
    split_ifs at h
    · cases h
      simp only [List.mem_cons, List.mem_singleton, List.not_mem_nil, or_false] at hc
      rcases hc with rfl | rfl | rfl <;> decide
    · cases h
      simp only [List.mem_cons, List.mem_singleton, List.not_mem_nil, or_false] at hc
      rcases hc with rfl | rfl <;> decide
    · cases h
      simp at hc

/-- C29: termination.  For every store whose resolved values (attribute values,
values of simple variables, values of the stored conditions) hold no `%`, hence
in particular for every store whose values hold none of the braces and `%`, and for every text
and address, the run of `ReplaceReferences` ends: there is a bound on the fuel
from which the outcome is one fixed outcome that is not the exhaustion of the
fuel (a text, or the crash of the run), whatever the fuel above it.  The same holds
for `ReplaceBlock` at every cursor of every text, nested blocks included, and for
the loop of `ReplaceSubReferences` from every start with a selector value and a
buffer without `%`. -/
theorem replaceReferences_terminates (st : Store) (hst : PlainStore st) (text email : Str) :
    (∃ N r, r ≠ Outcome.outOfFuel ∧
      ∀ fuel, N ≤ fuel → ReplaceReferences st fuel text email = r) ∧
    (∀ (uid t : Str) (i : Int), ∃ N r, r ≠ Outcome.outOfFuel ∧
      ∀ fuel, N ≤ fuel → ReplaceBlock st fuel t i uid = r) ∧
    (∀ (uid t reference value buff : Str) (start : Int), '%' ∉ value → '%' ∉ buff →
      ∃ N r, r ≠ Outcome.outOfFuel ∧
        ∀ fuel, N ≤ fuel →
          ReplaceSubReferences st fuel t uid start reference value buff = r) :=
  ⟨replaceReferences_stable st hst text email,
    fun uid t i => replaceBlock_stable st hst uid _ t i (le_refl _),
    fun uid t reference value buff start hv hb =>
      subRefs_stable st hst t uid reference value buff start hv hb⟩

theorem replaceReferences_terminates_witness :
    PlainStore demoStore ∧
    ∃ N r, r ≠ Outcome.outOfFuel ∧
      ∀ fuel, N ≤ fuel →
        ReplaceReferences demoStore fuel
          "Dear \x7b%firstname%\x7d, \x7bif(%city%)\x7bgreetings to %%\x7d\x7bsee you soon\x7d\x7d".toList
          "alice@example.org".toList = r :=
  ⟨plainStore_demoStore,
    (replaceReferences_terminates demoStore plainStore_demoStore _ _).1⟩

end Gophish
